import Mathlib

/-!
# goconf

A shallow embedding of the `goconf` package (`config.go`, `node.go`, `tag.go`,
`error.go`) and theorems about it.

Conventions of the embedding

* Go strings are Lean strings; the `strings` helpers work on the list of
  runes of the string.
* An `interface{}` is a `Value`: the dynamic type is the constructor.
* Go code that can panic returns a `Run`; a Go `error` result is an
  `Option GoError` next to the value.
* The node tree is an inductive tree. Every node built by `buildNode` is a
  fresh allocation owned by exactly one parent, so an assignment through the
  pointer returned by `FindNode` is the update of the tree at that path. The
  `Parent` back reference is never read by the package and is not stored.
* What the package takes from outside (process environment, the Unicode case
  tables, `strconv.ParseFloat`, the YAML decoder, `strconv.IntSize`) is a
  field of `Runtime`.
-/

set_option autoImplicit false

namespace Goconf

/-! ## Values, kinds and errors -/

/-- Result of running Go code that may panic. -/
inductive Run (α : Type) where
  | done (a : α)
  | panicked (reason : String)
  deriving DecidableEq, Repr

/-- The kinds of `reflect.Kind`, in declaration order. -/
inductive Kind where
  | Invalid | Bool | Int | Int8 | Int16 | Int32 | Int64
  | Uint | Uint8 | Uint16 | Uint32 | Uint64 | Uintptr
  | Float32 | Float64 | Complex64 | Complex128
  | Array | Chan | Func | Interface | Map | Ptr | Slice
  | String | Struct | UnsafePointer
  deriving DecidableEq, Repr

/-- The name printed for a kind, `reflect.Kind.String`. -/
def kindString : Kind → String
  | .Invalid => "invalid" | .Bool => "bool" | .Int => "int" | .Int8 => "int8"
  | .Int16 => "int16" | .Int32 => "int32" | .Int64 => "int64" | .Uint => "uint"
  | .Uint8 => "uint8" | .Uint16 => "uint16" | .Uint32 => "uint32" | .Uint64 => "uint64"
  | .Uintptr => "uintptr" | .Float32 => "float32" | .Float64 => "float64"
  | .Complex64 => "complex64" | .Complex128 => "complex128" | .Array => "array"
  | .Chan => "chan" | .Func => "func" | .Interface => "interface" | .Map => "map"
  | .Ptr => "ptr" | .Slice => "slice" | .String => "string" | .Struct => "struct"
  | .UnsafePointer => "unsafe.Pointer"

/-- A `reflect.Type`, as far as the package looks at it: its printed name and its kind. -/
structure GoType where
  Name : String
  Kind : Goconf.Kind
  deriving DecidableEq, Repr

/-- An IEEE 754 binary64 value, given by its 64 bits. -/
structure Float64 where
  bits : Nat
  deriving DecidableEq, Repr

/-- The Go comparison `f == 0.0`: true for `+0` and for `-0`. -/
def Float64.isZero (f : Float64) : Bool :=
  f.bits == 0 || f.bits == 2 ^ 63

/-- The float64 zero value `+0`. -/
def Float64.zero : Float64 := ⟨0⟩

/-- An `interface{}` value. The constructor is the dynamic type: `int` is Go `int`,
`float` is `float64`; a value of any other dynamic type (a named type such as
`type Port int` included) is `other`, with the name of its type and a rendering. -/
inductive Value where
  | nil
  | str (s : String)
  | int (i : Int)
  | float (f : Float64)
  | bool (b : Bool)
  | other (typ : String) (repr : String)
  deriving DecidableEq, Repr

/-- The two sentinel errors of `strconv`. -/
inductive StrconvErr where
  | ErrSyntax
  | ErrRange
  deriving DecidableEq, Repr

/-- The error value of `error.go`. -/
structure ErrKeyNotFound where
  err : String
  deriving DecidableEq, Repr

/-- The constructor `NewErrKeyNotFound` formats the message with `fmt.Sprintf("key not found: %s", key)`. -/
def NewErrKeyNotFound (key : String) : ErrKeyNotFound :=
  { err := "key not found: " ++ key }

/-- The `Error` method of `ErrKeyNotFound`. -/
def ErrKeyNotFound.Error (e : ErrKeyNotFound) : String := e.err

/-- The Go `error` values the package produces or passes on. -/
inductive GoError where
  /-- An `ErrKeyNotFound` of this package. -/
  | keyNotFound (e : ErrKeyNotFound)
  /-- A `*strconv.NumError` with its `Func`, `Num` and `Err` fields. -/
  | numError (Func : String) (Num : String) (Err : StrconvErr)
  /-- An error made by `fmt.Errorf`, with its message. -/
  | errorf (msg : String)
  /-- An error reported by the YAML decoder. -/
  | decode (msg : String)
  deriving DecidableEq, Repr

/-! ## Helpers of package `strings` -/

/-- Characters used when parsing the struct tags (`config.go`); each constant is a
one character string in the source. -/
def AssignChar : Char := ':'

/-- The quote character of struct tags. -/
def QuoteChar : Char := '"'

/-- The separator character of struct tags. -/
def SeparatorChar : Char := ' '

/-- Splitting of a rune list at every occurrence of `sep`. -/
def splitRunes (sep : Char) : List Char → List (List Char)
  | [] => [[]]
  | c :: cs =>
    if c = sep then [] :: splitRunes sep cs
    else
      match splitRunes sep cs with
      | [] => [[c]]
      | seg :: segs => (c :: seg) :: segs

/-- The call `strings.Split(s, sep)` for a separator of one character. -/
def Split (s : String) (sep : Char) : List String :=
  (splitRunes sep s.data).map String.mk

/-- The call `strings.Index(s, sep)` for a separator of one character; `none` is `-1`. -/
def Index : List Char → Char → Option Nat
  | [], _ => none
  | c :: cs, sep => if c = sep then some 0 else (Index cs sep).map (· + 1)

/-- Removal of the leading characters equal to `cut`. -/
def trimLeft (cut : Char) : List Char → List Char
  | [] => []
  | c :: cs => if c = cut then trimLeft cut cs else c :: cs

/-- The call `strings.Trim(s, cutset)` for a cutset of one character: every leading and
every trailing occurrence is removed. -/
def Trim (cut : Char) (s : List Char) : List Char :=
  (trimLeft cut (trimLeft cut s).reverse).reverse

/-- The call `strings.Replace(s, old, new, -1)` for one character `old` and `new`. -/
def Replace (old new : Char) (s : List Char) : List Char :=
  s.map (fun c => if c = old then new else c)

/-- Go `unicode.ToUpper`: ASCII is mapped in code, everything above `MaxASCII` by the
Unicode case table `tbl`. -/
def unicodeToUpper (tbl : Char → Char) (r : Char) : Char :=
  if r.toNat ≤ 127 then
    if 'a'.toNat ≤ r.toNat ∧ r.toNat ≤ 'z'.toNat then Char.ofNat (r.toNat - 32) else r
  else tbl r

/-- Go `unicode.ToLower`: ASCII is mapped in code, everything above `MaxASCII` by the
Unicode case table `tbl`. -/
def unicodeToLower (tbl : Char → Char) (r : Char) : Char :=
  if r.toNat ≤ 127 then
    if 'A'.toNat ≤ r.toNat ∧ r.toNat ≤ 'Z'.toNat then Char.ofNat (r.toNat + 32) else r
  else tbl r

/-- The call `strings.ToUpper(s)`: every rune mapped by `unicode.ToUpper`. -/
def ToUpper (tbl : Char → Char) (s : List Char) : List Char :=
  s.map (unicodeToUpper tbl)

/-- The call `strings.ToLower(s)`: every rune mapped by `unicode.ToLower`. -/
def ToLower (tbl : Char → Char) (s : List Char) : List Char :=
  s.map (unicodeToLower tbl)

/-! ## Helpers of package `strconv` -/

/-- The digit loop of `strconv.ParseUint` for base 10 on 64 bit words: `n` is the
accumulator, `maxVal` the largest value of the requested size. -/
def parseUintLoop (maxVal : Nat) : Nat → List Char → Nat × Option StrconvErr
  | n, [] => (n, none)
  | n, c :: cs =>
    if '0'.toNat ≤ c.toNat ∧ c.toNat ≤ '9'.toNat then
      let d := c.toNat - '0'.toNat
      if n ≥ (2 ^ 64 - 1) / 10 + 1 then (maxVal, some .ErrRange)
      else
        let n10 := (n * 10) % 2 ^ 64
        let n1 := (n10 + d) % 2 ^ 64
        if n1 < n10 ∨ n1 > maxVal then (maxVal, some .ErrRange)
        else parseUintLoop maxVal n1 cs
    else (0, some .ErrSyntax)

/-- The call `strconv.ParseUint(s, 10, bitSize)` for `0 < bitSize ≤ 64`. -/
def ParseUint (s : List Char) (bitSize : Nat) : Nat × Option StrconvErr :=
  if s = [] then (0, some .ErrSyntax)
  else parseUintLoop (2 ^ bitSize - 1) 0 s

/-- The call `strconv.ParseInt(s, 10, 0)`, where `intSize` is `strconv.IntSize`: an
optional sign, then `ParseUint`, then the range check against `1 << (intSize-1)`. -/
def ParseInt (intSize : Nat) (s : String) : Int × Option GoError :=
  match s.data with
  | [] => (0, some (.numError "ParseInt" s .ErrSyntax))
  | c :: cs =>
    let neg : Bool := c = '-'
    let body := if c = '+' ∨ c = '-' then cs else c :: cs
    let r := ParseUint body intSize
    if r.2 = some .ErrSyntax then (0, some (.numError "ParseInt" s .ErrSyntax))
    else
      let cutoff : Nat := 2 ^ (intSize - 1)
      if neg = false ∧ r.1 ≥ cutoff then
        ((cutoff : Int) - 1, some (.numError "ParseInt" s .ErrRange))
      else if neg = true ∧ r.1 > cutoff then
        (- (cutoff : Int), some (.numError "ParseInt" s .ErrRange))
      else (if neg then - (r.1 : Int) else (r.1 : Int), none)

/-- The call `strconv.ParseBool(s)`. -/
def ParseBool (s : String) : Bool × Option GoError :=
  if s = "1" ∨ s = "t" ∨ s = "T" ∨ s = "TRUE" ∨ s = "true" ∨ s = "True" then (true, none)
  else if s = "0" ∨ s = "f" ∨ s = "F" ∨ s = "FALSE" ∨ s = "false" ∨ s = "False" then
    (false, none)
  else (false, some (.numError "ParseBool" s .ErrSyntax))

/-! ## Reflection view of the schema -/

/-- A `reflect.StructField`: the fields the package reads, and the two that decide whether
`Interface()` may be called on the value. `PkgPath` is empty exactly for an exported field;
`Anonymous` marks an embedded field. -/
structure StructField where
  Name : String
  Tag : String
  Typ : GoType
  PkgPath : String
  Anonymous : Bool
  deriving DecidableEq, Repr

mutual
/-- The `reflect.Value` of a struct field: a struct with its fields, or a value of another
type, given by what `Interface()` returns for it. -/
inductive RValue where
  | struct (fields : RFields)
  | iface (v : Value)
/-- The fields of a struct value, in declaration order, each with its descriptor. -/
inductive RFields where
  | nil
  | cons (ft : StructField) (fv : RValue) (rest : RFields)
end

/-- The call `iv.NumField()`. -/
def RFields.NumField : RFields → Nat
  | .nil => 0
  | .cons _ _ rest => rest.NumField + 1

/-- The fields as a list of descriptor and value. -/
def RFields.toList : RFields → List (StructField × RValue)
  | .nil => []
  | .cons ft fv rest => (ft, fv) :: rest.toList

/-- A `reflect.Value` of kind struct: its fields, and whether it was reached through a field
that is unexported and not embedded (`flagStickyRO`, which every value taken from it
inherits). -/
structure StructValue where
  fields : RFields
  stickyRO : Bool

/-- The call `iv.FieldByName(name)`: the first field of that name. -/
def RFields.FieldByName : RFields → String → Option (StructField × RValue)
  | .nil, _ => none
  | .cons ft fv rest, name => if ft.Name = name then some (ft, fv) else rest.FieldByName name

/-- The `grammar interface{}` argument of `Load`, as `reflect` sees it. Only a struct behind
a pointer is given with its fields: `Load` looks at no other value. -/
inductive Grammar where
  /-- The nil interface. -/
  | nilInterface
  /-- A value that is not a pointer, of the given type (a struct passed by value included). -/
  | value (typ : GoType)
  /-- A pointer of type `typ` to something that is not a struct; `none` is a nil pointer. -/
  | pointer (typ : String) (elem : Option GoType)
  /-- A pointer of type `typ` that points to a struct with these fields. -/
  | structPointer (typ : String) (fields : RFields)

/-- The kind of `reflect.ValueOf(grammar)`. -/
def Grammar.Kind : Grammar → Goconf.Kind
  | .nilInterface => .Invalid
  | .value typ => typ.Kind
  | .pointer _ _ => .Ptr
  | .structPointer _ _ => .Ptr

/-- The kind of `reflect.Indirect(reflect.ValueOf(grammar))`. -/
def Grammar.IndirectKind : Grammar → Goconf.Kind
  | .nilInterface => .Invalid
  | .value typ => typ.Kind
  | .pointer _ none => .Invalid
  | .pointer _ (some t) => t.Kind
  | .structPointer _ _ => .Struct

/-- The text `%T` prints for the grammar. -/
def Grammar.TypeName : Grammar → String
  | .nilInterface => "<nil>"
  | .value typ => typ.Name
  | .pointer typ _ => typ
  | .structPointer typ _ => typ

/-- What the package takes from outside itself. -/
structure Runtime where
  /-- The call `os.Getenv`: the empty string for a variable that is not set. -/
  Getenv : String → String
  /-- The call `strconv.ParseFloat(s, 64)`. -/
  ParseFloat : String → Float64 × Option GoError
  /-- The constant `strconv.IntSize`. -/
  IntSize : Nat
  /-- The Unicode upper case mapping of the runes above `MaxASCII`. -/
  upperCase : Char → Char
  /-- The Unicode lower case mapping of the runes above `MaxASCII`. -/
  lowerCase : Char → Char
  /-- The call `yaml.NewDecoder(source).Decode(grammar)`: the fields of the struct the
  grammar points to as they are after the call (of no use for another grammar), and
  the error. -/
  Decode : String → Grammar → Run (RFields × Option GoError)

/-! ## tag.go -/

/-- The type `tagStore`, a `map[string]string`: the latest binding of a key comes first. -/
abbrev tagStore := List (String × String)

/-- The assignment `ts[key] = value`. -/
def tagStore.set (ts : tagStore) (key value : String) : tagStore :=
  (key, value) :: ts

/-- Has is a convenience method to check whether the key exists in the store. -/
def tagStore.Has (ts : tagStore) (key : String) : Bool :=
  ts.any (fun p => p.1 = key)

/-- Get is a convenience method to get a tag value from the store. -/
def tagStore.Get (ts : tagStore) (key : String) : String :=
  match ts.find? (fun p => p.1 = key) with
  | some p => p.2
  | none => ""

/-- Tag represents a parsed struct tag. -/
structure Tag where
  Default : String
  Key : String
  Required : Bool
  Env : String
  store : tagStore
  deriving DecidableEq, Repr

/-- The character class of the pattern `[^A-Z0-9]+`. -/
def isSpecial (c : Char) : Bool :=
  !(('A'.toNat ≤ c.toNat && c.toNat ≤ 'Z'.toNat) || ('0'.toNat ≤ c.toNat && c.toNat ≤ '9'.toNat))

/-- The call `reg.ReplaceAllString(s, rep)` for a pattern `C+` over a character class `C`:
every maximal run of characters of the class becomes one `rep`. The flag tells whether
the previous character was part of a run. -/
def replaceRunsFrom (cls : Char → Bool) (rep : Char) : Bool → List Char → List Char
  | _, [] => []
  | inRun, c :: cs =>
    if cls c then
      if inRun then replaceRunsFrom cls rep true cs
      else rep :: replaceRunsFrom cls rep true cs
    else c :: replaceRunsFrom cls rep false cs

/-- Replacement of the runs, from the start of the text. -/
def replaceRuns (cls : Char → Bool) (rep : Char) (s : List Char) : List Char :=
  replaceRunsFrom cls rep false s

/-- The function `normalizeEnvKey`. Both patterns are constants that compile, so the
two error returns are never taken. -/
def normalizeEnvKey (rt : Runtime) (env : String) : String :=
  let env := ToUpper rt.upperCase env.data
  let env := replaceRuns isSpecial '_' env
  let env := replaceRuns (fun c => c = '_') '_' env
  String.mk (Trim '_' env)

/-- The loop of `parseTag` over the elements of the tag. -/
def parseTagLoop : List String → tagStore → tagStore
  | [], store => store
  | element :: rest, store =>
    if element.data.length = 0 then parseTagLoop rest store
    else
      match Index element.data AssignChar with
      | none => parseTagLoop rest (store.set element "")
      | some assignPos =>
        let key := String.mk (element.data.take assignPos)
        let value := String.mk (Trim QuoteChar (element.data.drop (assignPos + 1)))
        parseTagLoop rest (store.set key value)

/-- The function `parseTag` parses a struct tag into a Tag value. -/
def parseTag (rt : Runtime) (ft : StructField) : Tag :=
  let store := parseTagLoop (Split ft.Tag SeparatorChar) []
  let env := store.Get "env"
  { Default := store.Get "default"
    Key := store.Get "yaml"
    Required := store.Has "required"
    Env := if env ≠ "" then normalizeEnvKey rt env else ""
    store := store }

/-! ## node.go -/

/-- Node represents a single node in the Configuration. `Typ` and `Tag` are nil (here
`none`) in the root node that `Load` makes. -/
inductive Node where
  | mk (Name : String) (Key : String) (Children : List Node) (Typ : Option GoType)
      (Value : Value) (Tag : Option Tag)

/-- Name is the name of the original field retrieved via reflection. -/
def Node.Name : Node → String
  | .mk name _ _ _ _ _ => name

/-- Key is the string to use in order to retrieve the node. -/
def Node.Key : Node → String
  | .mk _ key _ _ _ _ => key

/-- Children holds the child nodes for traversal. -/
def Node.Children : Node → List Node
  | .mk _ _ children _ _ _ => children

/-- Typ stores the type of the original field. -/
def Node.Typ : Node → Option GoType
  | .mk _ _ _ typ _ _ => typ

/-- Value stores the value if it is a leaf node. -/
def Node.Value : Node → Goconf.Value
  | .mk _ _ _ _ value _ => value

/-- Tag stores the parsed Tag. -/
def Node.Tag : Node → Option Goconf.Tag
  | .mk _ _ _ _ _ tag => tag

/-- The assignment `n.Value = value`. -/
def Node.setValueField : Node → Goconf.Value → Node
  | .mk name key children typ _ tag, value => .mk name key children typ value tag

/-- The assignment `n.Key = key`. -/
def Node.setKey : Node → String → Node
  | .mk name _ children typ value tag, key => .mk name key children typ value tag

/-- The assignment `n.Children = children`. -/
def Node.setChildren : Node → List Node → Node
  | .mk name key _ typ value tag, children => .mk name key children typ value tag

/-- The zero value `&Node{}`. -/
def Node.empty : Node := .mk "" "" [] none .nil none

/-- GetChild is a helper function to get a child of a node: the first child with the key. -/
def GetChild (n : Node) (key : String) : Option Node :=
  n.Children.find? (fun child => child.Key = key)

/-- The loop of `FindNode`: `i` is the index of the first of the remaining segments and
`len` is `len(pathSegments)`. -/
def findNodeLoop (len : Nat) : Nat → Node → List String → Option Node
  | _, _, [] => none
  | i, context, segment :: rest =>
    match GetChild context segment with
    | none => none
    | some child => if i = len - 1 then some child else findNodeLoop len (i + 1) child rest

/-- FindNode traverses the tree to find the node with the given key. -/
def FindNode (n : Node) (path : String) : Option Node :=
  let pathSegments := Split path '.'
  findNodeLoop pathSegments.length 0 n pathSegments

/-! ## config.go -/

/-- The function `getTypedValue` converts string values (from env and default tags) to
typed values. -/
def getTypedValue (rt : Runtime) (source : String) (kind : Kind) : Value × Option GoError :=
  match kind with
  | .String => (.str source, none)
  | .Int =>
    match ParseInt rt.IntSize source with
    | (_, some err) => (.nil, some err)
    | (intVal, none) => (.int intVal, none)
  | .Float64 =>
    match rt.ParseFloat source with
    | (_, some err) => (.nil, some err)
    | (floatVal, none) => (.float floatVal, none)
  | .Bool =>
    match ParseBool source with
    | (_, some err) => (.nil, some err)
    | (boolVal, none) => (.bool boolVal, none)
  | kind => (.nil, some (.errorf ("no conversion available for this kind: " ++ kindString kind)))

/-- The `needDefault` computation of `setValue`: `ivalue == nil`, and otherwise the
comparison with the zero value after the type assertion for the kind of the node. A
failed type assertion panics, and so does `n.Typ.Kind()` on a nil `Typ`. -/
def needDefault (typ : Option GoType) (ivalue : Value) : Run Bool :=
  if ivalue = .nil then .done true
  else
    match typ with
    | none => .panicked "invalid memory address or nil pointer dereference"
    | some t =>
      match t.Kind, ivalue with
      | .String, .str s => .done (decide (s = ""))
      | .String, _ => .panicked "interface conversion: interface {} is not string"
      | .Int, .int i => .done (decide (i = 0))
      | .Int, _ => .panicked "interface conversion: interface {} is not int"
      | .Float64, .float f => .done f.isZero
      | .Float64, _ => .panicked "interface conversion: interface {} is not float64"
      | .Bool, .bool b => .done (!b)
      | .Bool, _ => .panicked "interface conversion: interface {} is not bool"
      | _, _ => .done false

/-- The call `getTypedValue(source, n.Typ.Kind())` on a node. -/
def convertFor (rt : Runtime) (typ : Option GoType) (source : String) :
    Run (Value × Option GoError) :=
  match typ with
  | none => .panicked "invalid memory address or nil pointer dereference"
  | some t => .done (getTypedValue rt source t.Kind)

/-- The default step of `setValue`, from `needDefault` to the assignment of `n.Value`. -/
def setValueDefault (rt : Runtime) (n : Node) (tag : Tag) (ivalue : Value) :
    Run (Node × Option GoError) :=
  match needDefault n.Typ ivalue with
  | .panicked r => .panicked r
  | .done need =>
    if need = true ∧ tag.Default ≠ "" then
      match convertFor rt n.Typ tag.Default with
      | .panicked r => .panicked r
      | .done (_, some err) => .done (n, some err)
      | .done (v, none) => .done (n.setValueField v, none)
    else .done (n.setValueField ivalue, none)

/-- The method `setValue` takes the configuration value and checks if the field can be
resolved from ENV; if the value is empty after that, it tries the default value. The
result is the node after the call and the returned error. -/
def setValue (rt : Runtime) (n : Node) (ivalue : Value) : Run (Node × Option GoError) :=
  match n.Tag with
  | none => .panicked "invalid memory address or nil pointer dereference"
  | some tag =>
    if tag.Env ≠ "" ∧ rt.Getenv tag.Env ≠ "" then
      match convertFor rt n.Typ (rt.Getenv tag.Env) with
      | .panicked r => .panicked r
      | .done (_, some err) => .done (n, some err)
      | .done (v, none) => setValueDefault rt n tag v
    else setValueDefault rt n tag ivalue

/-- The call `iv.FieldByName(name).Interface()`: it panics when the value is read-only,
that is when the field is not exported or the struct itself was reached through an
unexported field that is not embedded; a struct comes back as a value of its own type. -/
def fieldInterface (iv : StructValue) (name : String) : Run Value :=
  match iv.fields.FieldByName name with
  | none => .panicked "reflect: call of reflect.Value.Interface on zero Value"
  | some (ft, fv) =>
    if iv.stickyRO = true ∨ ft.PkgPath ≠ "" then
      .panicked "reflect.Value.Interface: cannot return value obtained from unexported field or method"
    else
      match fv with
      | .iface v => .done v
      | .struct _ => .done (.other ft.Typ.Name "struct")

/-- The key `buildNode` gives a node: the custom key of the tag if there is one, else
the lowered field name with `-` replaced by `_`. -/
def nodeKey (rt : Runtime) (tag : Tag) (name : String) : String :=
  if tag.Key ≠ "" then tag.Key
  else String.mk (ToLower rt.lowerCase (Replace '-' '_' name.data))

/-- The loop of `buildNode`: `iv` is the struct value, the last argument the fields from
index `i` on. The result is the parent after the call. -/
def buildNodeLoop (rt : Runtime) (iv : StructValue) (parent : Node) : RFields → Run Node
  | .nil => .done parent
  | .cons ft fv rest =>
    let node := Node.mk ft.Name "" [] (some ft.Typ) .nil (some (parseTag rt ft))
    let built : Run Node :=
      if ft.Typ.Kind = .Struct then
        match fv with
        | .struct fields =>
          buildNodeLoop rt
            { fields := fields
              stickyRO := iv.stickyRO || (decide (ft.PkgPath ≠ "") && !ft.Anonymous) }
            node fields
        | .iface _ => .panicked "reflect: call of reflect.Value.NumField on a non-struct Value"
      else
        match fieldInterface iv ft.Name with
        | .panicked r => .panicked r
        | .done ivalue =>
          match setValue rt node ivalue with
          | .panicked r => .panicked r
          | .done (node1, _) => .done node1
    match built with
    | .panicked r => .panicked r
    | .done node1 =>
      let node2 := node1.setKey (nodeKey rt (parseTag rt ft) ft.Name)
      buildNodeLoop rt iv (parent.setChildren (parent.Children ++ [node2])) rest

/-- The function `buildNode` adds one child per field of `iv` to the parent node. -/
def buildNode (rt : Runtime) (parent : Node) (iv : StructValue) : Run Node :=
  buildNodeLoop rt iv parent iv.fields

/-- Configuration is the object that holds the root node. -/
structure Configuration where
  Node : Option Goconf.Node

/-- Load creates a Configuration object from the supplied grammar structure and reader.
The result is the returned `*Configuration` (`none` is nil) and the returned error. -/
def Load (rt : Runtime) (grammar : Grammar) (source : String) :
    Run (Option Configuration × Option GoError) :=
  match rt.Decode source grammar with
  | .panicked r => .panicked r
  | .done (_, some err) => .done (some { Node := none }, some err)
  | .done (decoded, none) =>
    if grammar.Kind ≠ .Ptr ∨ grammar.IndirectKind ≠ .Struct then
      .done (none, some (.errorf ("expected a pointer to a struct but got " ++ grammar.TypeName)))
    else
      match grammar with
      | .structPointer _ _ =>
        match buildNode rt (.mk "Application" "" [] none .nil none)
            { fields := decoded, stickyRO := false } with
        | .panicked r => .panicked r
        | .done rootNode => .done (some { Node := some rootNode }, none)
      | _ => .panicked "reflect: call of reflect.Value.NumField on a non-struct Value"

/-- Replacement of the first child with key `segment` by `f` of that child. -/
def updateChild (segment : String) (f : Node → Node) : List Node → List Node
  | [] => []
  | child :: rest =>
    if child.Key = segment then f child :: rest else child :: updateChild segment f rest

/-- The tree after `context.Value = value`, where `context` is the node the segments
lead to from `n` (the first child with the key of the segment, at each step). -/
def assignAt (value : Value) : List String → Node → Node
  | [], n => n
  | segment :: rest, n =>
    n.setChildren (updateChild segment
      (fun child => if rest = [] then child.setValueField value else assignAt value rest child)
      n.Children)

/-- Set changes the value of a node. The result is the configuration after the call and
the returned error. -/
def Set (c : Configuration) (key : String) (value : Value) :
    Run (Configuration × Option GoError) :=
  match c.Node with
  | none => .panicked "invalid memory address or nil pointer dereference"
  | some root =>
    match FindNode root key with
    | none => .done (c, some (.keyNotFound (NewErrKeyNotFound key)))
    | some _ => .done ({ Node := some (assignAt value (Split key '.') root) }, none)

/-- Get retrieves the value of the node associated with the key. -/
def Get (c : Configuration) (key : String) : Run Value :=
  match c.Node with
  | none => .panicked "invalid memory address or nil pointer dereference"
  | some root =>
    match FindNode root key with
    | none => .done .nil
    | some context => .done context.Value

/-- The assertion `tval, ok := val.(string)` followed by the choice of `tval` or "". -/
def assertString : Value → String
  | .str tval => tval
  | _ => ""

/-- The assertion `tval, ok := val.(int)` followed by the choice of `tval` or 0. -/
def assertInt : Value → Int
  | .int tval => tval
  | _ => 0

/-- The assertion `tval, ok := val.(float64)` followed by the choice of `tval` or 0. -/
def assertFloat64 : Value → Float64
  | .float tval => tval
  | _ => Float64.zero

/-- The assertion `tval, ok := val.(bool)` followed by the choice of `tval` or false. -/
def assertBool : Value → Bool
  | .bool tval => tval
  | _ => false

/-- GetString is a convenience function for retrieving a string value. -/
def GetString (c : Configuration) (key : String) : Run String :=
  match Get c key with
  | .panicked r => .panicked r
  | .done val => .done (assertString val)

/-- GetInt is a convenience function for retrieving an int value. -/
def GetInt (c : Configuration) (key : String) : Run Int :=
  match Get c key with
  | .panicked r => .panicked r
  | .done val => .done (assertInt val)

/-- GetFloat64 is a convenience function for retrieving a float64 value. -/
def GetFloat64 (c : Configuration) (key : String) : Run Float64 :=
  match Get c key with
  | .panicked r => .panicked r
  | .done val => .done (assertFloat64 val)

/-- GetBool is a convenience function for retrieving a bool value. -/
def GetBool (c : Configuration) (key : String) : Run Bool :=
  match Get c key with
  | .panicked r => .panicked r
  | .done val => .done (assertBool val)

/-! ## Notions used to state the properties -/

/-- The node `child` is the first of the children of `n` whose key is `segment`. -/
def IsFirstChild (n : Node) (segment : String) (child : Node) : Prop :=
  ∃ before after, n.Children = before ++ child :: after ∧ child.Key = segment ∧
    ∀ other ∈ before, other.Key ≠ segment

/-- The relation `Walk n segments m`: starting at `n` and taking, for each segment in order, the first
child of the node reached so far whose key is the segment, one arrives at `m`. -/
inductive Walk : Node → List String → Node → Prop where
  | stay (n : Node) : Walk n [] n
  | step {n child m : Node} {segment : String} {rest : List String} :
      IsFirstChild n segment child → Walk child rest m → Walk n (segment :: rest) m

/-- The walk along the segments as a function: `none` as soon as a segment has no child
with that key. -/
def walkPath : Node → List String → Option Node
  | n, [] => some n
  | n, segment :: rest =>
    match GetChild n segment with
    | none => none
    | some child => walkPath child rest

/-- The comparison of a value with the zero value of its type: "", 0, 0.0 and false are
zero, and so is the nil interface. -/
def Value.isZero : Value → Bool
  | .nil => true
  | .str s => decide (s = "")
  | .int i => decide (i = 0)
  | .float f => f.isZero
  | .bool b => !b
  | .other _ _ => false

/-- The zero value of the four kinds a leaf is converted to. -/
def zeroValue : Kind → Value
  | .String => .str ""
  | .Int => .int 0
  | .Float64 => .float Float64.zero
  | .Bool => .bool false
  | _ => .nil

/-- The dynamic type of the value is the Go type `string`, `int`, `float64` or `bool` of
the kind. -/
def Value.hasKind : Value → Kind → Bool
  | .str _, .String => true
  | .int _, .Int => true
  | .float _, .Float64 => true
  | .bool _, .Bool => true
  | _, _ => false

/-- The precedence law in the words of the specification, for a leaf of kind `kind` with
environment variable name `envName`, document value `V` and declared default `D`:
convert(E) if E is set and non-empty; else V if V is not the zero value; else convert(D)
if D is declared; else the zero value of the kind. -/
def statedPrecedence (rt : Runtime) (kind : Kind) (envName : String) (V : Value)
    (D : String) : Value :=
  if envName ≠ "" ∧ rt.Getenv envName ≠ "" then (getTypedValue rt (rt.Getenv envName) kind).1
  else if V.isZero = false then V
  else if D ≠ "" then (getTypedValue rt D kind).1
  else zeroValue kind

/-- The character with '-' replaced by '_'. -/
def dashToUnderscore (c : Char) : Char :=
  if c = '-' then '_' else c

/-- The lower case of a character: `A`-`Z` become `a`-`z` and the other ASCII characters
stay, as `Char.toLower` has it; above ASCII the case table of the runtime decides. -/
def lowerRune (rt : Runtime) (c : Char) : Char :=
  if c.toNat ≤ 127 then c.toLower else rt.lowerCase c

/-- The key law in the words of the specification: the yaml override of the tag verbatim
when it is not empty, and otherwise the field name lowercased, with every '-' replaced
by '_'. It is written with `lowerRune` and `dashToUnderscore`, not with the helpers the
code calls. -/
def statedKey (rt : Runtime) (ft : StructField) : String :=
  if (parseTag rt ft).Key ≠ "" then (parseTag rt ft).Key
  else String.mk ((ft.Name.data.map (lowerRune rt)).map dashToUnderscore)

/-- The relation `KeysFollow key fields nodes`: the nodes are one per field, in the order of the fields,
the node of a field has the key `key` gives for the field, and the same holds between the
fields of a nested struct and the children of its node. -/
def KeysFollow (key : StructField → String) : RFields → List Node → Prop
  | .nil, nodes => nodes = []
  | .cons ft fv rest, nodes =>
    ∃ node others, nodes = node :: others ∧ node.Key = key ft ∧
      (match fv with
        | .struct fields => ft.Typ.Kind = .Struct → KeysFollow key fields node.Children
        | .iface _ => True) ∧
      KeysFollow key rest others

/-- The character is one of `A`-`Z`, `0`-`9`. -/
def isUpperAlnum (c : Char) : Bool :=
  ('A'.toNat ≤ c.toNat && c.toNat ≤ 'Z'.toNat) || ('0'.toNat ≤ c.toNat && c.toNat ≤ '9'.toNat)

/-- The pieces of a text between the characters that satisfy `sep`, empty pieces included. -/
def splitWhere (sep : Char → Bool) : List Char → List (List Char)
  | [] => [[]]
  | c :: cs =>
    if sep c then [] :: splitWhere sep cs
    else
      match splitWhere sep cs with
      | [] => [[c]]
      | seg :: segs => (c :: seg) :: segs

/-- The maximal runs of characters that satisfy `keep`, in their order in the text: the
non-empty pieces between the characters that do not. -/
def maximalRuns (keep : Char → Bool) (s : List Char) : List (List Char) :=
  (splitWhere (fun c => !keep c) s).filter (fun seg => !seg.isEmpty)

/-- The maximal runs of `A`-`Z`, `0`-`9` of a text, joined by single underscores. -/
def joinedRuns (u : List Char) : List Char :=
  List.intercalate ['_'] (maximalRuns isUpperAlnum u)

/-- The normalized environment key in the words of the specification: the maximal runs of
`A`-`Z`, `0`-`9` of the uppercased text, joined by single underscores. -/
def statedEnvKey (rt : Runtime) (s : String) : String :=
  String.mk (joinedRuns (ToUpper rt.upperCase s.data))

/-- The text starts with a character of the class `[^A-Z0-9]`. -/
def startsSpecial : List Char → Bool
  | [] => false
  | c :: _ => isSpecial c

/-- The joined runs of a text, after an underscore when the text starts with a character
of the class `[^A-Z0-9]` and has a run. -/
def ledRuns (u : List Char) : List Char :=
  if startsSpecial u = true ∧ joinedRuns u ≠ [] then '_' :: joinedRuns u else joinedRuns u

/-- Removal of the trailing characters equal to `cut`. -/
def trimRight (cut : Char) (s : List Char) : List Char :=
  (trimLeft cut s.reverse).reverse

/-! ## Concrete inputs -/

/-- A runtime for examples: two environment variables are set, the case tables are the
identity, floats are parsed for two texts only, and the decoder reports `EOF` on an empty
source and otherwise leaves the fields it is given. -/
def exampleRuntime : Runtime where
  Getenv := fun name =>
    if name = "CFG_NESTED_OVERWRITE" then "look" else if name = "PORT" then "0" else ""
  ParseFloat := fun s =>
    if s = "0.1" then (⟨0x3FB999999999999A⟩, none)
    else if s = "0" then (⟨0⟩, none)
    else (⟨0⟩, some (.numError "ParseFloat" s .ErrSyntax))
  IntSize := 64
  upperCase := id
  lowerCase := id
  Decode := fun source grammar =>
    if source = "" then .done (.nil, some (.decode "EOF"))
    else
      match grammar with
      | .structPointer _ fields => .done (fields, none)
      | _ => .done (.nil, none)

/-- A leaf node with the given key and value, as `buildNode` makes it for a field without
a tag. -/
def exampleLeaf (name key : String) (typ : GoType) (value : Value) : Node :=
  .mk name key [] (some typ) value
    (some { Default := "", Key := "", Required := false, Env := "", store := [] })

/-- A small tree: two leaves under the root and two under the branch `typed`. -/
def exampleTree : Node :=
  .mk "Application" "" [
    exampleLeaf "TestString" "teststring" ⟨"string", .String⟩ (.str "val"),
    exampleLeaf "TestInt" "testint" ⟨"int", .Int⟩ (.int 1),
    .mk "Typed" "typed" [
      exampleLeaf "F" "f" ⟨"float64", .Float64⟩ (.float ⟨0x3FB999999999999A⟩),
      exampleLeaf "B" "b" ⟨"bool", .Bool⟩ (.bool true)]
      (some ⟨"struct { F float64; B bool }", .Struct⟩) .nil
      (some { Default := "", Key := "", Required := false, Env := "", store := [] })]
    none .nil none

/-- The configuration over `exampleTree`. -/
def exampleConfig : Configuration := { Node := some exampleTree }

/-- The node of a field `Port int` tagged `env:"PORT" default:"8080"`, before `setValue`. -/
def portNode : Node :=
  .mk "Port" "" [] (some ⟨"int", .Int⟩) .nil
    (some { Default := "8080", Key := "", Required := false, Env := "PORT",
            store := [("default", "8080"), ("env", "PORT")] })

/-- An exported field descriptor. -/
def exampleField (name tag : String) (typ : GoType) : StructField :=
  { Name := name, Tag := tag, Typ := typ, PkgPath := "", Anonymous := false }

/-- The fields of the grammar of `TestLoad` after decoding its document (the float fields
left out). -/
def exampleFields : RFields :=
  .cons (exampleField "Test" "" ⟨"string", .String⟩) (.iface (.str "test_value")) <|
  .cons (exampleField "CustomKey" "yaml:\"custom_key\"" ⟨"string", .String⟩)
    (.iface (.str "test")) <|
  .cons (exampleField "Nested" "" ⟨"struct", .Struct⟩) (.struct (
    .cons (exampleField "NestedKey" "" ⟨"string", .String⟩) (.iface (.str "this is nested")) <|
    .cons (exampleField "Overwrite" "env:\"CFG_NESTED_OVERWRITE\"" ⟨"string", .String⟩)
      (.iface (.str "don't look")) .nil)) <|
  .cons (exampleField "Typed" "" ⟨"struct", .Struct⟩) (.struct (
    .cons (exampleField "I" "" ⟨"int", .Int⟩) (.iface (.int 10)) <|
    .cons (exampleField "DefI" "default:\"1\"" ⟨"int", .Int⟩) (.iface (.int 0)) <|
    .cons (exampleField "B" "" ⟨"bool", .Bool⟩) (.iface (.bool true)) <|
    .cons (exampleField "DefB" "default:\"true\"" ⟨"bool", .Bool⟩) (.iface (.bool false))
      .nil)) <|
  .cons (exampleField "NestedCustom" "yaml:\"nested_custom\"" ⟨"struct", .Struct⟩) (.struct (
    .cons (exampleField "Key" "" ⟨"string", .String⟩) (.iface (.str "test")) .nil)) .nil

/-- The root node `Load` starts from. -/
def exampleRootNode : Node := .mk "Application" "" [] none .nil none

/-- The root node after `buildNode` on `exampleFields`. -/
def exampleBuilt : Node :=
  match buildNode exampleRuntime exampleRootNode
      { fields := exampleFields, stickyRO := false } with
  | .done result => result
  | .panicked _ => Node.empty

/-- The fields of a struct with the one field `Port int` tagged
`env:"PORT" default:"8080"`, decoded from the document `port: 3`. -/
def portFields : RFields :=
  .cons (exampleField "Port" "env:\"PORT\" default:\"8080\"" ⟨"int", .Int⟩)
    (.iface (.int 3)) .nil

/-- The value `Get` returns for a key on the configuration `Load` returns, `none` when `Load`
returns no configuration or an error. -/
def loadThenGet (rt : Runtime) (grammar : Grammar) (source key : String) : Option (Run Value) :=
  match Load rt grammar source with
  | .done (some c, none) => some (Get c key)
  | _ => none

/-- The tag of a field `Overwrite string` tagged `env:"CFG_NESTED_OVERWRITE"`. -/
def overwriteTag : Tag :=
  { Default := "", Key := "", Required := false, Env := "CFG_NESTED_OVERWRITE",
    store := [("env", "CFG_NESTED_OVERWRITE")] }

/-- The tag of a field `DefI int` tagged `default:"1"`. -/
def defaultOneTag : Tag :=
  { Default := "1", Key := "", Required := false, Env := "", store := [("default", "1")] }

/-- The tag of a field without a tag. -/
def emptyTag : Tag :=
  { Default := "", Key := "", Required := false, Env := "", store := [] }

/-- The relation `OnlyValueAt value segments n n1`: the tree `n1` is the tree `n` except at
the node the segments lead to from `n` (the first child with the key of the segment, at
each step), and that node differs in nothing but its `Value`, which is `value`. Every
node on the way keeps its name, key, type, tag and value and the list of its children
apart from the one child the walk goes through. -/
def OnlyValueAt (value : Value) : List String → Node → Node → Prop
  | [], n, n1 => n1 = n
  | segment :: rest, n, n1 =>
    n1.Name = n.Name ∧ n1.Key = n.Key ∧ n1.Typ = n.Typ ∧ n1.Tag = n.Tag ∧
    n1.Value = n.Value ∧
    ∃ before child after child1,
      n.Children = before ++ child :: after ∧ child.Key = segment ∧
      (∀ other ∈ before, other.Key ≠ segment) ∧
      n1.Children = before ++ child1 :: after ∧
      (if rest = [] then
        child1.Name = child.Name ∧ child1.Key = child.Key ∧ child1.Typ = child.Typ ∧
        child1.Tag = child.Tag ∧ child1.Children = child.Children ∧ child1.Value = value
      else OnlyValueAt value rest child child1)

/-- The tokens of a tag: the pieces between single spaces, the empty ones left out. -/
def tagTokens (tag : String) : List (List Char) :=
  (splitRunes ' ' tag.data).filter (fun token => !token.isEmpty)

/-- The key of a token: what stands before its first colon, the whole token when it has
none. -/
def tokenKey (token : List Char) : List Char :=
  token.takeWhile (fun c => c ≠ ':')

/-- The raw value of a token: what stands after its first colon; `none` without a colon. -/
def tokenRaw (token : List Char) : Option (List Char) :=
  if ':' ∈ token then some (token.dropWhile (fun c => c ≠ ':')).tail else none

/-- The entry of a token: its key, and its raw value with the quote characters at both ends
trimmed away (the empty string for a token without a colon). -/
def tokenEntry (token : List Char) : String × String :=
  (String.mk (tokenKey token),
   String.mk (match tokenRaw token with
     | some raw => Trim '"' raw
     | none => []))

/-- The value of the last entry with the key, the empty string when there is none. -/
def lastValue (key : String) (entries : List (String × String)) : String :=
  match entries.reverse.find? (fun entry => entry.1 = key) with
  | some entry => entry.2
  | none => ""

/-- A text without its first character when that is a quote character. -/
def dropLeadingQuote : List Char → List Char
  | [] => []
  | c :: rest => if c = '"' then rest else c :: rest

/-- The quote stripping in the words of the specification: exactly one leading and one
trailing quote character removed. -/
def statedStrip (value : List Char) : List Char :=
  (dropLeadingQuote (dropLeadingQuote value).reverse).reverse

/-- A field `Greeting string` whose default is written with escaped quotes,
`default:"\"hi\""`. -/
def quotedDefaultField : StructField :=
  { Name := "Greeting", Tag := "default:\"\\\"hi\\\"\"", Typ := ⟨"string", .String⟩,
    PkgPath := "", Anonymous := false }

/-- The tag of a field `DefI int` tagged `default:"abc"`. -/
def badDefaultTag : Tag :=
  { Default := "abc", Key := "", Required := false, Env := "", store := [("default", "abc")] }

/-- The fields of a struct with the one field `DefI int` tagged `default:"abc"`, absent from
the document. -/
def badDefaultFields : RFields :=
  .cons (exampleField "DefI" "default:\"abc\"" ⟨"int", .Int⟩) (.iface (.int 0)) .nil

/-- The relation `ShapeFollows fields nodes`: the nodes are one per field, in the order of
the fields, each with the name of its field; the node of a struct-typed field has no value
and its children follow the fields of the nested struct in the same way; the node of any
other field has no children. -/
def ShapeFollows : RFields → List Node → Prop
  | .nil, nodes => nodes = []
  | .cons ft fv rest, nodes =>
    ∃ node others, nodes = node :: others ∧ node.Name = ft.Name ∧
      (match fv with
        | .struct fields =>
          (ft.Typ.Kind = .Struct → node.Value = .nil ∧ ShapeFollows fields node.Children) ∧
          (ft.Typ.Kind ≠ .Struct → node.Children = [])
        | .iface _ => node.Children = []) ∧
      ShapeFollows rest others

/-- The fields of a struct `struct { Host string; secret string }` decoded from the document
`host: a`: the second field is not exported. -/
def unexportedFields : RFields :=
  .cons (exampleField "Host" "" ⟨"string", .String⟩) (.iface (.str "a")) <|
  .cons { Name := "secret", Tag := "", Typ := ⟨"string", .String⟩, PkgPath := "main",
          Anonymous := false } (.iface (.str "")) .nil

/-- The interface value passes the type assertion `setValue` makes for a node of the type:
it is nil, or the kind is none of string, int, float64 and bool (no assertion is made), or
its dynamic type is the Go type `string`, `int`, `float64` or `bool` of the kind. -/
def AssertionHolds (typ : GoType) (ivalue : Value) : Prop :=
  ivalue = .nil ∨
  (typ.Kind ≠ .String ∧ typ.Kind ≠ .Int ∧ typ.Kind ≠ .Float64 ∧ typ.Kind ≠ .Bool) ∨
  ivalue.hasKind typ.Kind = true

/-- The struct gives `buildNode` no occasion to panic: every field of kind struct holds a
struct that is free of panics in turn, and for every other field `Interface()` may be called
on its value (the field is exported and the struct was not reached through an unexported
field that is not embedded) and returns a value that passes the type assertion. -/
def PanicFree (iv : StructValue) : RFields → Prop
  | .nil => True
  | .cons ft fv rest =>
    (match fv with
      | .struct fields =>
        if ft.Typ.Kind = .Struct then
          PanicFree
            { fields := fields
              stickyRO := iv.stickyRO || (decide (ft.PkgPath ≠ "") && !ft.Anonymous) }
            fields
        else
          ∃ ivalue, fieldInterface iv ft.Name = .done ivalue ∧ AssertionHolds ft.Typ ivalue
      | .iface _ =>
        ft.Typ.Kind ≠ .Struct ∧
        ∃ ivalue, fieldInterface iv ft.Name = .done ivalue ∧ AssertionHolds ft.Typ ivalue) ∧
    PanicFree iv rest

/-- The fields of a struct `struct { Name string; name struct{} }` decoded from the document
`name: x`: the decoder skips the second field, which is not exported. -/
def sameKeyFields : RFields :=
  .cons (exampleField "Name" "" ⟨"string", .String⟩) (.iface (.str "x")) <|
  .cons { Name := "name", Tag := "", Typ := ⟨"struct {}", .Struct⟩, PkgPath := "main",
          Anonymous := false } (.struct .nil) .nil

/-- The root node of the configuration `Load` returns, `none` when `Load` returns no
configuration or an error. -/
def loadRoot (rt : Runtime) (grammar : Grammar) (source : String) : Option Node :=
  match Load rt grammar source with
  | .done (some c, none) => c.Node
  | _ => none

/-- The character is a decimal digit, `0` to `9`. -/
def isDigit (c : Char) : Bool :=
  '0'.toNat ≤ c.toNat && c.toNat ≤ '9'.toNat

/-- The number a text of decimal digits stands for, read after the number `start`. -/
def digitsValueFrom (start : Nat) (digits : List Char) : Nat :=
  digits.foldl (fun acc c => acc * 10 + (c.toNat - '0'.toNat)) start

/-- The number a text of decimal digits stands for. -/
def digitsValue (digits : List Char) : Nat :=
  digitsValueFrom 0 digits

/-- The text is the base 10 rendering of the integer: an optional sign followed by one or
more decimal digits that stand for its absolute value. -/
def IsDecimal (s : List Char) (n : Int) : Prop :=
  ∃ sign digits, s = sign ++ digits ∧ digits ≠ [] ∧ (∀ c ∈ digits, isDigit c = true) ∧
    (((sign = [] ∨ sign = ['+']) ∧ n = (digitsValue digits : Int)) ∨
      (sign = ['-'] ∧ n = - (digitsValue digits : Int)))

/-- The integer is in the range of an `int` of the given size in bits. -/
def InIntRange (bits : Nat) (n : Int) : Prop :=
  - ((2 ^ (bits - 1) : Nat) : Int) ≤ n ∧ n < ((2 ^ (bits - 1) : Nat) : Int)

/-- The decimal digits of a natural number, most significant first, `0` for zero. -/
def decimalNat (n : Nat) : List Char :=
  if n = 0 then ['0'] else (Nat.digits 10 n).reverse.map (fun d => Char.ofNat (d + 48))

/-- The base 10 rendering of an integer as `strconv.Itoa` makes it: the digits of the
absolute value, after a minus sign for a negative number. -/
def decimal (n : Int) : String :=
  String.mk (if n < 0 then '-' :: decimalNat n.natAbs else decimalNat n.natAbs)

/-- The value `W` is the one `setValue` starts its default step from, for the document value
`V`: the converted environment value when the tag names a variable whose value is not empty
and converts, and `V` itself when the tag names no variable or the value of the variable is
empty. -/
def StepValue (rt : Runtime) (tag : Tag) (kind : Kind) (V W : Value) : Prop :=
  ((tag.Env ≠ "" ∧ rt.Getenv tag.Env ≠ "") ∧
    getTypedValue rt (rt.Getenv tag.Env) kind = (W, none)) ∨
  (¬ (tag.Env ≠ "" ∧ rt.Getenv tag.Env ≠ "") ∧ W = V)

/-- The value calls for the default in `setValue`: it is nil, or the kind of the field is
string, int, float64 or bool and the value is the zero value "", 0, 0.0 or false of that Go
type. On a field of any other kind (an `int8`, say) a value that is not nil never calls for
the default. -/
def CallsForDefault (kind : Kind) (W : Value) : Prop :=
  W = .nil ∨ (W.hasKind kind = true ∧ W.isZero = true)

/-- The error `err` is the one of a conversion that `setValue` makes, for the document value
`V`: either the tag names a variable whose value is not empty, and `err` is the error of
converting that value to the kind of the field; or the value of the environment/document
step calls for the default, the default of the tag is not empty, and `err` is the error of
converting the default to the kind of the field. -/
def ConversionError (rt : Runtime) (tag : Tag) (kind : Kind) (V : Value) (err : GoError) :
    Prop :=
  ((tag.Env ≠ "" ∧ rt.Getenv tag.Env ≠ "") ∧
    (getTypedValue rt (rt.Getenv tag.Env) kind).2 = some err) ∨
  (∃ W, StepValue rt tag kind V W ∧ CallsForDefault kind W ∧
    tag.Default ≠ "" ∧ (getTypedValue rt tag.Default kind).2 = some err)

/-- A conversion that `setValue` makes fails, for the document value `V`: the conversion of
the environment value or the conversion of the declared default. -/
def ConversionFails (rt : Runtime) (tag : Tag) (kind : Kind) (V : Value) : Prop :=
  ∃ err, ConversionError rt tag kind V err

/-- The relation `FailedLeavesFollow rt iv fields nodes`: the nodes are one per field, in the
order of the fields, each with the name of its field and the key `buildNode` computes for
it; the node of a field that is not of kind struct and for which a conversion of `setValue`
fails has the value nil and no children; and the same holds between the fields of a nested
struct and the children of its node. -/
def FailedLeavesFollow (rt : Runtime) (iv : StructValue) : RFields → List Node → Prop
  | .nil, nodes => nodes = []
  | .cons ft fv rest, nodes =>
    ∃ node others, nodes = node :: others ∧ node.Name = ft.Name ∧
      node.Key = nodeKey rt (parseTag rt ft) ft.Name ∧
      (match fv with
        | .struct fields =>
          ft.Typ.Kind = .Struct →
            FailedLeavesFollow rt
              { fields := fields
                stickyRO := iv.stickyRO || (decide (ft.PkgPath ≠ "") && !ft.Anonymous) }
              fields node.Children
        | .iface _ => True) ∧
      (ft.Typ.Kind ≠ .Struct → ∀ V, fieldInterface iv ft.Name = .done V →
        ConversionFails rt (parseTag rt ft) ft.Typ.Kind V →
        node.Value = .nil ∧ node.Children = []) ∧
      FailedLeavesFollow rt iv rest others

/-- The first of the fields whose node gets the key `segment`, with its value. -/
def fieldWithKey (rt : Runtime) (segment : String) : RFields → Option (StructField × RValue)
  | .nil => none
  | .cons ft fv rest =>
    if nodeKey rt (parseTag rt ft) ft.Name = segment then some (ft, fv)
    else fieldWithKey rt segment rest

/-- The leaf field the segments of a key lead to, with the struct value that holds it: each
segment but the last selects the first field with that key among the fields of the struct
reached so far, which has to be of kind struct, and the last one selects a field that is not
of kind struct. -/
def leafAt (rt : Runtime) : List String → StructValue → RFields →
    Option (StructValue × StructField)
  | [], _, _ => none
  | segment :: rest, iv, fields =>
    match fieldWithKey rt segment fields with
    | none => none
    | some (ft, fv) =>
      if ft.Typ.Kind = .Struct then
        match fv with
        | .struct inner =>
          leafAt rt rest
            { fields := inner
              stickyRO := iv.stickyRO || (decide (ft.PkgPath ≠ "") && !ft.Anonymous) }
            inner
        | .iface _ => none
      else if rest = [] then some (iv, ft) else none

/-- A field `Limit int` tagged `env:"CFG_NESTED_OVERWRITE"`. -/
def limitField : StructField :=
  exampleField "Limit" "env:\"CFG_NESTED_OVERWRITE\"" ⟨"int", .Int⟩

/-- A field `Port int` tagged `env:"PORT" default:"abc"`. -/
def brokenPortField : StructField :=
  exampleField "Port" "env:\"PORT\" default:\"abc\"" ⟨"int", .Int⟩

/-- A field `DefI int` tagged `default:"abc"`. -/
def badDefaultField : StructField :=
  exampleField "DefI" "default:\"abc\"" ⟨"int", .Int⟩

/-- The fields of a struct `struct { Limit int; Server struct { Port int }; DefI int }`
decoded from the document `limit: 7`, `server: { port: 3 }`. -/
def discardFields : RFields :=
  .cons limitField (.iface (.int 7)) <|
  .cons (exampleField "Server" "" ⟨"struct", .Struct⟩)
    (.struct (.cons brokenPortField (.iface (.int 3)) .nil)) <|
  .cons badDefaultField (.iface (.int 0)) .nil

/-- The root node after `buildNode` on `discardFields`. -/
def discardBuilt : Node :=
  match buildNode exampleRuntime exampleRootNode
      { fields := discardFields, stickyRO := false } with
  | .done result => result
  | .panicked _ => Node.empty

/-- The fields of a struct with the one field `DefI int` tagged `default:"abc"`, decoded
from the document `defi: 5`. -/
def keptValueFields : RFields :=
  .cons badDefaultField (.iface (.int 5)) .nil

/-! ## Theorems -/

/-! ### Splitting and path lookup -/

theorem splitRunes_ne_nil (sep : Char) (s : List Char) : splitRunes sep s ≠ [] := by
  cases s with
  | nil => simp [splitRunes]
  | cons c cs =>
    unfold splitRunes
    split
    · simp
    · split <;> simp

theorem Split_ne_nil (s : String) (sep : Char) : Split s sep ≠ [] := by
  simp [Split, splitRunes_ne_nil]

/-- No segment of a split contains the separator, and joining the segments with the
separator gives the text back. -/
theorem splitRunes_spec (sep : Char) (s : List Char) :
    (∀ seg ∈ splitRunes sep s, sep ∉ seg) ∧
    List.intercalate [sep] (splitRunes sep s) = s := by
  induction s with
  | nil => simp [splitRunes, List.intercalate]
  | cons c cs ih =>
    obtain ⟨ih1, ih2⟩ := ih
    unfold splitRunes
    by_cases hc : c = sep
    · rw [if_pos hc]
      refine ⟨?_, ?_⟩
      · intro seg hseg
        rcases List.mem_cons.1 hseg with h | h
        · subst h; simp
        · exact ih1 seg h
      · have hne := splitRunes_ne_nil sep cs
        cases hsp : splitRunes sep cs with
        | nil => exact absurd hsp hne
        | cons seg segs =>
          rw [hsp] at ih2
          rw [← ih2, hc]
          simp [List.intercalate, List.intersperse]
    · rw [if_neg hc]
      cases hsp : splitRunes sep cs with
      | nil => exact absurd hsp (splitRunes_ne_nil sep cs)
      | cons seg segs =>
        rw [hsp] at ih1 ih2
        refine ⟨?_, ?_⟩
        · intro x hx
          rcases List.mem_cons.1 hx with h | h
          · subst h
            intro hmem
            rcases List.mem_cons.1 hmem with h1 | h1
            · exact hc h1.symm
            · exact ih1 seg (List.mem_cons_self _ _) h1
          · exact ih1 x (List.mem_cons_of_mem _ h)
        · rw [← ih2]
          cases segs <;> simp [List.intercalate, List.intersperse]

theorem GetChild_eq_some_iff (n : Node) (segment : String) (child : Node) :
    GetChild n segment = some child ↔ IsFirstChild n segment child := by
  unfold GetChild IsFirstChild
  rw [List.find?_eq_some]
  constructor
  · rintro ⟨hk, before, after, hsplit, hbefore⟩
    refine ⟨before, after, hsplit, by simpa using hk, ?_⟩
    intro other hother
    simpa using hbefore other hother
  · rintro ⟨before, after, hsplit, hk, hbefore⟩
    refine ⟨by simpa using hk, before, after, hsplit, ?_⟩
    intro other hother
    simpa using hbefore other hother

theorem GetChild_eq_none_iff (n : Node) (segment : String) :
    GetChild n segment = none ↔ ∀ child ∈ n.Children, child.Key ≠ segment := by
  unfold GetChild
  simp

theorem findNodeLoop_eq_walkPath (len : Nat) (segments : List String) :
    ∀ (i : Nat) (n : Node), segments ≠ [] → i + segments.length = len →
      findNodeLoop len i n segments = walkPath n segments := by
  induction segments with
  | nil => intro i n h; exact absurd rfl h
  | cons segment rest ih =>
    intro i n _ hlen
    unfold findNodeLoop walkPath
    cases GetChild n segment with
    | none => rfl
    | some child =>
      simp only
      by_cases hi : i = len - 1
      · rw [if_pos hi]
        have hrest : rest = [] := by
          apply List.eq_nil_of_length_eq_zero
          simp only [List.length_cons] at hlen
          omega
        subst hrest
        rfl
      · rw [if_neg hi]
        have hrest : rest ≠ [] := by
          intro h
          subst h
          simp only [List.length_cons, List.length_nil] at hlen
          omega
        apply ih (i + 1) child hrest
        simp only [List.length_cons] at hlen
        omega

theorem FindNode_eq_walkPath (n : Node) (path : String) :
    FindNode n path = walkPath n (Split path '.') := by
  unfold FindNode
  exact findNodeLoop_eq_walkPath _ _ 0 n (Split_ne_nil path '.') (by simp)

theorem walkPath_eq_some_iff (segments : List String) :
    ∀ (n m : Node), walkPath n segments = some m ↔ Walk n segments m := by
  induction segments with
  | nil =>
    intro n m
    constructor
    · intro h
      simp only [walkPath, Option.some.injEq] at h
      subst h
      exact Walk.stay n
    · intro h
      cases h
      rfl
  | cons segment rest ih =>
    intro n m
    constructor
    · intro h
      unfold walkPath at h
      cases hchild : GetChild n segment with
      | none => rw [hchild] at h; cases h
      | some child =>
        rw [hchild] at h
        exact Walk.step ((GetChild_eq_some_iff n segment child).1 hchild) ((ih child m).1 h)
    · intro h
      cases h with
      | step hfirst hrest =>
        unfold walkPath
        rw [(GetChild_eq_some_iff n segment _).2 hfirst]
        exact (ih _ m).2 hrest

theorem walkPath_eq_none_iff (segments : List String) :
    ∀ (n : Node), walkPath n segments = none ↔
      ∃ walked segment rest context, segments = walked ++ segment :: rest ∧
        Walk n walked context ∧ ∀ child ∈ context.Children, child.Key ≠ segment := by
  induction segments with
  | nil =>
    intro n
    constructor
    · intro h; cases h
    · rintro ⟨walked, segment, rest, context, h, _⟩
      cases walked <;> cases h
  | cons segment rest ih =>
    intro n
    constructor
    · intro h
      unfold walkPath at h
      cases hchild : GetChild n segment with
      | none =>
        exact ⟨[], segment, rest, n, rfl, Walk.stay n, (GetChild_eq_none_iff n segment).1 hchild⟩
      | some child =>
        rw [hchild] at h
        obtain ⟨walked, seg, rest1, context, hsplit, hwalk, hnone⟩ := (ih child).1 h
        refine ⟨segment :: walked, seg, rest1, context, by rw [hsplit]; rfl, ?_, hnone⟩
        exact Walk.step ((GetChild_eq_some_iff n segment child).1 hchild) hwalk
    · rintro ⟨walked, seg, rest1, context, hsplit, hwalk, hnone⟩
      unfold walkPath
      cases walked with
      | nil =>
        simp only [List.nil_append, List.cons.injEq] at hsplit
        obtain ⟨h1, _⟩ := hsplit
        subst h1
        cases hwalk
        rw [(GetChild_eq_none_iff n segment).2 hnone]
      | cons w walked1 =>
        simp only [List.cons_append, List.cons.injEq] at hsplit
        obtain ⟨h1, h2⟩ := hsplit
        subst h1
        cases hwalk with
        | step hfirst hrest =>
          rw [(GetChild_eq_some_iff n segment _).2 hfirst]
          exact (ih _).2 ⟨walked1, seg, rest1, context, h2, hrest, hnone⟩

/-- C3. `FindNode` splits the path at every '.' (no segment contains a '.', and the
segments joined by '.' are the path, so there is at least one segment). It returns a node
`m` exactly when walking from `n` along all the segments in order, taking at each step the
first child whose key equals the segment, arrives at `m`; and it returns nil exactly when
some segment has no child with that key at the node reached by the segments before it. -/
theorem FindNode_resolves_whole_path (n : Node) (path : String) :
    (Split path '.' ≠ [] ∧ (∀ segment ∈ Split path '.', '.' ∉ segment.data) ∧
      List.intercalate ['.'] ((Split path '.').map String.data) = path.data) ∧
    (∀ m, FindNode n path = some m ↔ Walk n (Split path '.') m) ∧
    (FindNode n path = none ↔
      ∃ walked segment rest context, Split path '.' = walked ++ segment :: rest ∧
        Walk n walked context ∧ ∀ child ∈ context.Children, child.Key ≠ segment) := by
  refine ⟨⟨Split_ne_nil path '.', ?_, ?_⟩, ?_, ?_⟩
  · intro segment hseg
    simp only [Split, List.mem_map] at hseg
    obtain ⟨runes, hrunes, rfl⟩ := hseg
    exact (splitRunes_spec '.' path.data).1 runes hrunes
  · have h := (splitRunes_spec '.' path.data).2
    simp only [Split, List.map_map]
    have hid : (String.data ∘ String.mk) = id := by
      funext l
      rfl
    rw [hid, List.map_id]
    exact h
  · intro m
    rw [FindNode_eq_walkPath]
    exact walkPath_eq_some_iff _ n m
  · rw [FindNode_eq_walkPath]
    exact walkPath_eq_none_iff _ n

/-! ### Assignment at a path -/

/-- The result of `Set` when the path does not resolve. -/
theorem Set_of_not_found (c : Configuration) (root : Node) (key : String) (value : Value)
    (hroot : c.Node = some root) (hfind : FindNode root key = none) :
    Set c key value = .done (c, some (.keyNotFound (NewErrKeyNotFound key))) := by
  simp only [Set, hroot, hfind]

/-- The result of `Set` when the path resolves. -/
theorem Set_of_found (c : Configuration) (root context : Node) (key : String) (value : Value)
    (hroot : c.Node = some root) (hfind : FindNode root key = some context) :
    Set c key value = .done ({ Node := some (assignAt value (Split key '.') root) }, none) := by
  simp only [Set, hroot, hfind]

/-- The result of `Get` on a configuration with a root node. -/
theorem Get_of_root (c : Configuration) (root : Node) (key : String)
    (hroot : c.Node = some root) :
    Get c key = .done (match FindNode root key with
      | none => .nil
      | some context => context.Value) := by
  simp only [Get, hroot]
  cases FindNode root key <;> rfl

@[simp] theorem Node.Key_setValueField (n : Node) (v : Goconf.Value) :
    (n.setValueField v).Key = n.Key := by
  cases n; rfl

@[simp] theorem Node.Value_setValueField (n : Node) (v : Goconf.Value) :
    (n.setValueField v).Value = v := by
  cases n; rfl

@[simp] theorem Node.Children_setValueField (n : Node) (v : Goconf.Value) :
    (n.setValueField v).Children = n.Children := by
  cases n; rfl

@[simp] theorem Node.Key_setChildren (n : Node) (cs : List Node) :
    (n.setChildren cs).Key = n.Key := by
  cases n; rfl

@[simp] theorem Node.Children_setChildren (n : Node) (cs : List Node) :
    (n.setChildren cs).Children = cs := by
  cases n; rfl

@[simp] theorem Node.Value_setChildren (n : Node) (cs : List Node) :
    (n.setChildren cs).Value = n.Value := by
  cases n; rfl

theorem assignAt_Key (value : Value) (segments : List String) (n : Node) :
    (assignAt value segments n).Key = n.Key := by
  cases segments with
  | nil => rfl
  | cons segment rest => simp [assignAt]

theorem find_updateChild (segment : String) (f : Node → Node)
    (hf : ∀ child, (f child).Key = child.Key) (children : List Node) :
    (updateChild segment f children).find? (fun child => child.Key = segment) =
      (children.find? (fun child => child.Key = segment)).map f := by
  induction children with
  | nil => rfl
  | cons child rest ih =>
    unfold updateChild
    by_cases hk : child.Key = segment
    · rw [if_pos hk]
      rw [List.find?_cons_of_pos _ (by simpa [hf] using hk),
        List.find?_cons_of_pos _ (by simpa using hk)]
      rfl
    · rw [if_neg hk]
      rw [List.find?_cons_of_neg _ (by simpa using hk),
        List.find?_cons_of_neg _ (by simpa using hk)]
      exact ih

theorem walkPath_assignAt (value : Value) (segments : List String) :
    ∀ n : Node, segments ≠ [] →
      walkPath (assignAt value segments n) segments =
        (walkPath n segments).map (fun m => m.setValueField value) := by
  induction segments with
  | nil => intro n h; exact absurd rfl h
  | cons segment rest ih =>
    intro n _
    have hkey : ∀ child : Node,
        (if rest = [] then child.setValueField value else assignAt value rest child).Key
          = child.Key := by
      intro child
      split
      · simp
      · exact assignAt_Key value rest child
    unfold walkPath
    have hget : GetChild (assignAt value (segment :: rest) n) segment =
        (GetChild n segment).map
          (fun child => if rest = [] then child.setValueField value
            else assignAt value rest child) := by
      unfold GetChild
      simp only [assignAt, Node.Children_setChildren]
      exact find_updateChild segment _ hkey n.Children
    rw [hget]
    cases GetChild n segment with
    | none => rfl
    | some child =>
      simp only [Option.map_some']
      by_cases hrest : rest = []
      · subst hrest
        simp [walkPath]
      · rw [if_neg hrest]
        exact ih child hrest

/-- C4. For a configuration with a root node, a key that resolves to a node and any
value `x`: `Set(key, x)` returns no error, and `Get(key)` on the configuration after it
returns `x`. -/
theorem Set_then_Get (c : Configuration) (root context : Node) (key : String) (x : Value)
    (hroot : c.Node = some root) (hfind : FindNode root key = some context) :
    ∃ c1, Set c key x = .done (c1, none) ∧ Get c1 key = .done x := by
  refine ⟨_, Set_of_found c root context key x hroot hfind, ?_⟩
  rw [Get_of_root _ (assignAt x (Split key '.') root) key rfl]
  rw [FindNode_eq_walkPath, walkPath_assignAt x _ root (Split_ne_nil key '.'),
    ← FindNode_eq_walkPath, hfind]
  simp

/-- Witness of C4 on the example tree: the nested key "typed.b" is set to a string. -/
theorem Set_then_Get_witness :
    ∃ c1, Set exampleConfig "typed.b" (.str "set") = .done (c1, none) ∧
      Get c1 "typed.b" = .done (.str "set") :=
  Set_then_Get exampleConfig exampleTree (exampleLeaf "B" "b" ⟨"bool", .Bool⟩ (.bool true))
    "typed.b" (.str "set") rfl rfl

/-! ### Value resolution -/

theorem needDefault_of_hasKind (typ : GoType) (W : Value)
    (hW : W.hasKind typ.Kind = true) : needDefault (some typ) W = .done W.isZero := by
  obtain ⟨name, kind⟩ := typ
  cases W <;> cases kind <;> first | rfl | exact Bool.noConfusion hW

theorem getTypedValue_hasKind (rt : Runtime) (source : String) (kind : Kind)
    (hkind : kind = .String ∨ kind = .Int ∨ kind = .Float64 ∨ kind = .Bool)
    (hok : (getTypedValue rt source kind).2 = none) :
    (getTypedValue rt source kind).1.hasKind kind = true := by
  rcases hkind with h | h | h | h <;> subst h
  · rfl
  · unfold getTypedValue at hok ⊢
    rcases hp : ParseInt rt.IntSize source with ⟨v, err⟩
    rw [hp] at hok
    cases err with
    | none => rfl
    | some e => simp at hok
  · unfold getTypedValue at hok ⊢
    rcases hp : rt.ParseFloat source with ⟨v, err⟩
    rw [hp] at hok
    cases err with
    | none => rfl
    | some e => simp at hok
  · unfold getTypedValue at hok ⊢
    rcases hp : ParseBool source with ⟨v, err⟩
    rw [hp] at hok
    cases err with
    | none => rfl
    | some e => simp at hok

theorem isZero_eq_zeroValue (W : Value) (kind : Kind) (hW : W.hasKind kind = true)
    (hzero : W.isZero = true) (hfloat : kind ≠ .Float64) : W = zeroValue kind := by
  cases W <;> cases kind <;>
    first
    | exact Bool.noConfusion hW
    | exact absurd rfl hfloat
    | (simp only [Value.isZero, decide_eq_true_eq, Bool.not_eq_true'] at hzero
       subst hzero
       rfl)

/-- The default step on a typed leaf whose value needs no default. -/
theorem setValueDefault_keep (rt : Runtime) (n : Node) (typ : GoType) (tag : Tag) (W : Value)
    (hTyp : n.Typ = some typ) (hW : W.hasKind typ.Kind = true)
    (hkeep : W.isZero = false ∨ tag.Default = "") :
    setValueDefault rt n tag W = .done (n.setValueField W, none) := by
  unfold setValueDefault
  rw [hTyp, needDefault_of_hasKind typ W hW]
  simp only
  rw [if_neg]
  rintro ⟨h1, h2⟩
  rcases hkeep with h | h
  · rw [h] at h1; cases h1
  · exact h2 h

/-- The default step on a typed leaf whose value is zero, with a declared default. -/
theorem setValueDefault_default (rt : Runtime) (n : Node) (typ : GoType) (tag : Tag)
    (W : Value) (hTyp : n.Typ = some typ) (hW : W.hasKind typ.Kind = true)
    (hzero : W.isZero = true) (hD : tag.Default ≠ "") :
    setValueDefault rt n tag W =
      match getTypedValue rt tag.Default typ.Kind with
      | (_, some err) => .done (n, some err)
      | (v, none) => .done (n.setValueField v, none) := by
  unfold setValueDefault
  rw [hTyp, needDefault_of_hasKind typ W hW]
  simp only
  rw [if_pos ⟨hzero, hD⟩]
  unfold convertFor
  simp only
  rcases getTypedValue rt tag.Default typ.Kind with ⟨v, err⟩
  cases err <;> rfl

/-- The environment step of `setValue` on a node with a tag and a type. -/
theorem setValue_env (rt : Runtime) (n : Node) (typ : GoType) (tag : Tag) (V : Value)
    (hTyp : n.Typ = some typ) (hTag : n.Tag = some tag)
    (henv : tag.Env ≠ "" ∧ rt.Getenv tag.Env ≠ "") :
    setValue rt n V =
      match getTypedValue rt (rt.Getenv tag.Env) typ.Kind with
      | (_, some err) => .done (n, some err)
      | (v, none) => setValueDefault rt n tag v := by
  unfold setValue
  rw [hTag]
  simp only
  rw [if_pos henv, hTyp]
  unfold convertFor
  simp only
  rcases getTypedValue rt (rt.Getenv tag.Env) typ.Kind with ⟨v, err⟩
  cases err <;> rfl

/-- Without a set environment variable `setValue` is the default step on the document
value. -/
theorem setValue_no_env (rt : Runtime) (n : Node) (tag : Tag) (V : Value)
    (hTag : n.Tag = some tag) (henv : ¬ (tag.Env ≠ "" ∧ rt.Getenv tag.Env ≠ "")) :
    setValue rt n V = setValueDefault rt n tag V := by
  unfold setValue
  rw [hTag]
  simp only
  rw [if_neg henv]

/-- The value `setValue` starts the default step from, on a typed leaf: the converted
environment value when the variable named by the tag is set and not empty, and the document
value otherwise. -/
theorem setValue_from_step (rt : Runtime) (n : Node) (typ : GoType) (tag : Tag) (V W : Value)
    (hTyp : n.Typ = some typ) (hTag : n.Tag = some tag)
    (hW : ((tag.Env ≠ "" ∧ rt.Getenv tag.Env ≠ "") ∧
            getTypedValue rt (rt.Getenv tag.Env) typ.Kind = (W, none)) ∨
          (¬ (tag.Env ≠ "" ∧ rt.Getenv tag.Env ≠ "") ∧ W = V)) :
    setValue rt n V = setValueDefault rt n tag W := by
  rcases hW with ⟨henv, hconv⟩ | ⟨henv, rfl⟩
  · rw [setValue_env rt n typ tag V hTyp hTag henv, hconv]
  · exact setValue_no_env rt n tag W hTag henv

/-- C1, as the code has it. For a leaf of kind string, int, float64 or bool whose document
value `V` has that type, with the value `W` of the environment/document step being
convert(E) when the variable named by the tag is set and not empty (and converts) and `V`
otherwise, `setValue` stores: convert(E) if E is set, not empty and convert(E) is not the
zero value; `V` if E is not used and `V` is not the zero value; convert(D) if `W` is the
zero value and the default D is declared (not empty) and converts; and `W`, the zero value,
if `W` is zero and no default is declared. No error is returned in these cases. -/
theorem setValue_precedence (rt : Runtime) (n : Node) (typ : GoType) (tag : Tag) (V : Value)
    (hTyp : n.Typ = some typ) (hTag : n.Tag = some tag)
    (hkind : typ.Kind = .String ∨ typ.Kind = .Int ∨ typ.Kind = .Float64 ∨ typ.Kind = .Bool)
    (hV : V.hasKind typ.Kind = true) :
    ((tag.Env ≠ "" ∧ rt.Getenv tag.Env ≠ "") →
      (getTypedValue rt (rt.Getenv tag.Env) typ.Kind).2 = none →
      (getTypedValue rt (rt.Getenv tag.Env) typ.Kind).1.isZero = false →
      setValue rt n V =
        .done (n.setValueField (getTypedValue rt (rt.Getenv tag.Env) typ.Kind).1, none)) ∧
    (¬ (tag.Env ≠ "" ∧ rt.Getenv tag.Env ≠ "") → V.isZero = false →
      setValue rt n V = .done (n.setValueField V, none)) ∧
    (∀ W, (((tag.Env ≠ "" ∧ rt.Getenv tag.Env ≠ "") ∧
              getTypedValue rt (rt.Getenv tag.Env) typ.Kind = (W, none)) ∨
            (¬ (tag.Env ≠ "" ∧ rt.Getenv tag.Env ≠ "") ∧ W = V)) →
      W.isZero = true → tag.Default ≠ "" →
      (getTypedValue rt tag.Default typ.Kind).2 = none →
      setValue rt n V =
        .done (n.setValueField (getTypedValue rt tag.Default typ.Kind).1, none)) ∧
    (∀ W, (((tag.Env ≠ "" ∧ rt.Getenv tag.Env ≠ "") ∧
              getTypedValue rt (rt.Getenv tag.Env) typ.Kind = (W, none)) ∨
            (¬ (tag.Env ≠ "" ∧ rt.Getenv tag.Env ≠ "") ∧ W = V)) →
      W.isZero = true → tag.Default = "" →
      setValue rt n V = .done (n.setValueField W, none) ∧
      (typ.Kind ≠ .Float64 → W = zeroValue typ.Kind)) := by
  have hWkind : ∀ W, (((tag.Env ≠ "" ∧ rt.Getenv tag.Env ≠ "") ∧
              getTypedValue rt (rt.Getenv tag.Env) typ.Kind = (W, none)) ∨
            (¬ (tag.Env ≠ "" ∧ rt.Getenv tag.Env ≠ "") ∧ W = V)) →
      W.hasKind typ.Kind = true := by
    rintro W (⟨_, hconv⟩ | ⟨_, rfl⟩)
    · have h := getTypedValue_hasKind rt (rt.Getenv tag.Env) typ.Kind hkind (by rw [hconv])
      rw [hconv] at h
      exact h
    · exact hV
  refine ⟨?_, ?_, ?_, ?_⟩
  · intro henv hok hnz
    have hstep : getTypedValue rt (rt.Getenv tag.Env) typ.Kind
        = ((getTypedValue rt (rt.Getenv tag.Env) typ.Kind).1, none) := by
      rw [← hok]
    rw [setValue_from_step rt n typ tag V _ hTyp hTag (Or.inl ⟨henv, hstep⟩)]
    exact setValueDefault_keep rt n typ tag _ hTyp
      (hWkind _ (Or.inl ⟨henv, hstep⟩)) (Or.inl hnz)
  · intro henv hnz
    rw [setValue_from_step rt n typ tag V V hTyp hTag (Or.inr ⟨henv, rfl⟩)]
    exact setValueDefault_keep rt n typ tag V hTyp hV (Or.inl hnz)
  · intro W hW hzero hD hok
    rw [setValue_from_step rt n typ tag V W hTyp hTag hW,
      setValueDefault_default rt n typ tag W hTyp (hWkind W hW) hzero hD]
    rcases hconv : getTypedValue rt tag.Default typ.Kind with ⟨v, err⟩
    rw [hconv] at hok
    simp only at hok
    subst hok
    rfl
  · intro W hW hzero hD
    refine ⟨?_, fun hfloat => isZero_eq_zeroValue W typ.Kind (hWkind W hW) hzero hfloat⟩
    rw [setValue_from_step rt n typ tag V W hTyp hTag hW]
    exact setValueDefault_keep rt n typ tag W hTyp (hWkind W hW) (Or.inr hD)

/-- Witness of C1 with the fields of `TestLoad`: the environment value "look" replaces the
document value; a non-zero document value is kept; the default "1" replaces a zero document
value; a zero document value without a default stays. -/
theorem setValue_precedence_witness :
    setValue exampleRuntime
        (.mk "Overwrite" "" [] (some ⟨"string", .String⟩) .nil (some overwriteTag))
        (.str "don't look") =
      .done (.mk "Overwrite" "" [] (some ⟨"string", .String⟩) (.str "look")
        (some overwriteTag), none) ∧
    setValue exampleRuntime (.mk "I" "" [] (some ⟨"int", .Int⟩) .nil (some emptyTag)) (.int 10) =
      .done (.mk "I" "" [] (some ⟨"int", .Int⟩) (.int 10) (some emptyTag), none) ∧
    setValue exampleRuntime
        (.mk "DefI" "" [] (some ⟨"int", .Int⟩) .nil (some defaultOneTag)) (.int 0) =
      .done (.mk "DefI" "" [] (some ⟨"int", .Int⟩) (.int 1) (some defaultOneTag), none) ∧
    setValue exampleRuntime (.mk "B" "" [] (some ⟨"bool", .Bool⟩) .nil (some emptyTag))
        (.bool false) =
      .done (.mk "B" "" [] (some ⟨"bool", .Bool⟩) (.bool false) (some emptyTag), none) :=
  ⟨(setValue_precedence exampleRuntime
      (.mk "Overwrite" "" [] (some ⟨"string", .String⟩) .nil (some overwriteTag))
      ⟨"string", .String⟩ overwriteTag (.str "don't look") rfl rfl (Or.inl rfl) rfl).1
      (by decide) rfl rfl,
   (setValue_precedence exampleRuntime
      (.mk "I" "" [] (some ⟨"int", .Int⟩) .nil (some emptyTag))
      ⟨"int", .Int⟩ emptyTag (.int 10) rfl rfl (Or.inr (Or.inl rfl)) rfl).2.1
      (by decide) rfl,
   (setValue_precedence exampleRuntime
      (.mk "DefI" "" [] (some ⟨"int", .Int⟩) .nil (some defaultOneTag))
      ⟨"int", .Int⟩ defaultOneTag (.int 0) rfl rfl (Or.inr (Or.inl rfl)) rfl).2.2.1
      (.int 0) (Or.inr ⟨by decide, rfl⟩) rfl (by decide) rfl,
   ((setValue_precedence exampleRuntime
      (.mk "B" "" [] (some ⟨"bool", .Bool⟩) .nil (some emptyTag))
      ⟨"bool", .Bool⟩ emptyTag (.bool false) rfl rfl (Or.inr (Or.inr (Or.inr rfl))) rfl).2.2.2
      (.bool false) (Or.inr ⟨by decide, rfl⟩) rfl rfl).1⟩

/-- C1 as stated fails: for a field `Port int` tagged `env:"PORT" default:"8080"`, with
the variable PORT set to "0" and the document value 3, the environment value is set and
not empty, so the stated law gives convert("0") = 0; `setValue` stores the default 8080,
and that is what `Get("port")` returns after `Load`. -/
theorem setValue_env_zero_takes_default :
    (exampleRuntime.Getenv "PORT" = "0" ∧
      getTypedValue exampleRuntime "0" .Int = (.int 0, none)) ∧
    setValue exampleRuntime portNode (.int 3) =
      .done (portNode.setValueField (.int 8080), none) ∧
    loadThenGet exampleRuntime (.structPointer "*struct { Port int }" portFields)
      "port: 3" "port" = some (.done (.int 8080)) ∧
    statedPrecedence exampleRuntime .Int "PORT" (.int 3) "8080" = .int 0 ∧
    Value.int 8080 ≠ .int 0 :=
  ⟨⟨rfl, rfl⟩, rfl, by decide, rfl, by decide⟩

/-- A field of a named type of kind int (`type Port int`) holds a value whose dynamic type
is not `int`: the type assertion of `setValue` panics on it. -/
theorem setValue_named_type_panics :
    setValue exampleRuntime (.mk "Port" "" [] (some ⟨"main.Port", .Int⟩) .nil (some emptyTag))
        (.other "main.Port" "3") =
      .panicked "interface conversion: interface {} is not int" :=
  rfl

/-! ### Keys of the built nodes -/

@[simp] theorem Node.Key_setKey (n : Node) (key : String) : (n.setKey key).Key = key := by
  cases n; rfl

@[simp] theorem Node.Children_setKey (n : Node) (key : String) :
    (n.setKey key).Children = n.Children := by
  cases n; rfl

theorem buildNodeLoop_cons (rt : Runtime) (iv : StructValue) (parent : Node) (ft : StructField)
    (fv : RValue) (rest : RFields) :
    buildNodeLoop rt iv parent (.cons ft fv rest) =
      match (if ft.Typ.Kind = .Struct then
          match fv with
          | .struct fields =>
            buildNodeLoop rt
              { fields := fields
                stickyRO := iv.stickyRO || (decide (ft.PkgPath ≠ "") && !ft.Anonymous) }
              (Node.mk ft.Name "" [] (some ft.Typ) .nil (some (parseTag rt ft))) fields
          | .iface _ => .panicked "reflect: call of reflect.Value.NumField on a non-struct Value"
        else
          match fieldInterface iv ft.Name with
          | .panicked r => .panicked r
          | .done ivalue =>
            match setValue rt
              (Node.mk ft.Name "" [] (some ft.Typ) .nil (some (parseTag rt ft))) ivalue with
            | .panicked r => .panicked r
            | .done (node1, _) => .done node1 : Run Node) with
      | .panicked r => .panicked r
      | .done node1 =>
        buildNodeLoop rt iv
          (parent.setChildren
            (parent.Children ++ [node1.setKey (nodeKey rt (parseTag rt ft) ft.Name)])) rest := by
  cases fv <;> rfl

theorem KeysFollow_cons (key : StructField → String) (ft : StructField) (fv : RValue)
    (rest : RFields) (nodes : List Node) :
    KeysFollow key (.cons ft fv rest) nodes ↔
      ∃ node others, nodes = node :: others ∧ node.Key = key ft ∧
        (match fv with
          | .struct fields => ft.Typ.Kind = .Struct → KeysFollow key fields node.Children
          | .iface _ => True) ∧
        KeysFollow key rest others := by
  cases fv <;> rfl

theorem buildNodeLoop_keys (rt : Runtime) :
    ∀ (fields : RFields) (iv : StructValue) (parent result : Node),
      buildNodeLoop rt iv parent fields = .done result →
      ∃ nodes, result.Children = parent.Children ++ nodes ∧
        KeysFollow (fun ft => nodeKey rt (parseTag rt ft) ft.Name) fields nodes
  | .nil, iv, parent, result, h => by
    have h0 : buildNodeLoop rt iv parent .nil = .done parent := rfl
    rw [h0] at h
    cases h
    exact ⟨[], by simp, rfl⟩
  | .cons ft fv rest, iv, parent, result, h => by
    rw [buildNodeLoop_cons] at h
    split at h
    · cases h
    · rename_i node1 hbuilt
      obtain ⟨others, hchildren, hothers⟩ := buildNodeLoop_keys rt rest iv _ result h
      refine ⟨node1.setKey (nodeKey rt (parseTag rt ft) ft.Name) :: others, ?_, ?_⟩
      · rw [hchildren]
        simp
      · rw [KeysFollow_cons]
        refine ⟨_, _, rfl, by simp, ?_, hothers⟩
        cases fv with
        | iface v => trivial
        | struct fields =>
          intro hstruct
          rw [if_pos hstruct] at hbuilt
          simp only at hbuilt
          obtain ⟨nodes1, hch1, hk1⟩ := buildNodeLoop_keys rt fields _ _ node1 hbuilt
          simp only [Node.Children_setKey]
          rw [hch1]
          simpa [Node.Children] using hk1

/-- The code points of the characters the case mappings and patterns compare with. -/
theorem asciiCodes :
    'A'.toNat = 65 ∧ 'Z'.toNat = 90 ∧ '0'.toNat = 48 ∧ '9'.toNat = 57 ∧ 'a'.toNat = 97 ∧
      '-'.toNat = 45 := by
  decide

theorem toNat_ofNat_of_lt (n : Nat) (h : n < 0xd800) : (Char.ofNat n).toNat = n := by
  have hv : n.isValidChar := Or.inl h
  unfold Char.ofNat
  rw [dif_pos hv]
  unfold Char.ofNatAux Char.toNat
  simp [UInt32.toNat]

theorem toNat_ne_of_ne (c d : Char) (h : c ≠ d) : c.toNat ≠ d.toNat := by
  intro h1
  apply h
  rw [← Char.ofNat_toNat c, h1, Char.ofNat_toNat]

/-- Lowering a rune never gives '-', unless the rune is '-' or the case table says so. -/
theorem unicodeToLower_ne_dash (tbl : Char → Char)
    (htbl : ∀ c : Char, 127 < c.toNat → tbl c ≠ '-') (c : Char) (hc : c ≠ '-') :
    unicodeToLower tbl c ≠ '-' := by
  unfold unicodeToLower
  by_cases h1 : c.toNat ≤ 127
  · rw [if_pos h1]
    by_cases h2 : 'A'.toNat ≤ c.toNat ∧ c.toNat ≤ 'Z'.toNat
    · rw [if_pos h2]
      obtain ⟨hA, hZ, _, _, _, hdash⟩ := asciiCodes
      rw [hA, hZ] at h2
      intro h3
      have h4 := congrArg Char.toNat h3
      rw [toNat_ofNat_of_lt _ (by omega)] at h4
      omega
    · rw [if_neg h2]
      exact hc
  · rw [if_neg h1]
    exact htbl c (by omega)

/-- Lowering and the replacement of '-' by '_' can be done in either order. -/
theorem ToLower_Replace_comm (tbl : Char → Char)
    (htbl : ∀ c : Char, 127 < c.toNat → tbl c ≠ '-') (s : List Char) :
    ToLower tbl (Replace '-' '_' s) = Replace '-' '_' (ToLower tbl s) := by
  unfold ToLower Replace
  rw [List.map_map, List.map_map]
  apply List.map_congr_left
  intro c _
  simp only [Function.comp]
  by_cases hc : c = '-'
  · subst hc
    rfl
  · rw [if_neg hc, if_neg (unicodeToLower_ne_dash tbl htbl c hc)]

/-- The lowering `strings.ToLower` does to a rune is the lower case of the character. -/
theorem unicodeToLower_eq_lowerRune (rt : Runtime) (c : Char) :
    unicodeToLower rt.lowerCase c = lowerRune rt c :=
  rfl

/-- The key `buildNode` computes, spelled out character by character: the custom key of the
tag when there is one, else the name with every '-' replaced by '_' and then every
character lowered. -/
theorem nodeKey_spelled (rt : Runtime) (tag : Tag) (name : String) :
    nodeKey rt tag name =
      if tag.Key ≠ "" then tag.Key
      else String.mk ((name.data.map dashToUnderscore).map (lowerRune rt)) := by
  unfold nodeKey ToLower Replace
  have h1 : (fun c : Char => if c = '-' then '_' else c) = dashToUnderscore := rfl
  have h2 : unicodeToLower rt.lowerCase = lowerRune rt :=
    funext (unicodeToLower_eq_lowerRune rt)
  rw [h1, h2]

theorem nodeKey_eq_statedKey (rt : Runtime)
    (htbl : ∀ c : Char, 127 < c.toNat → rt.lowerCase c ≠ '-') (ft : StructField) :
    nodeKey rt (parseTag rt ft) ft.Name = statedKey rt ft := by
  rw [nodeKey_spelled]
  unfold statedKey
  have hcomm := ToLower_Replace_comm rt.lowerCase htbl ft.Name.data
  unfold ToLower Replace at hcomm
  have h1 : (fun c : Char => if c = '-' then '_' else c) = dashToUnderscore := rfl
  have h2 : unicodeToLower rt.lowerCase = lowerRune rt :=
    funext (unicodeToLower_eq_lowerRune rt)
  rw [h1, h2] at hcomm
  rw [hcomm]

/-- The keys of the nodes when `buildNode` returns: it has appended to the children of the
parent one node per field of the struct, in the order of the fields, and, at every depth,
the node of a field has the `yaml` value of the tag verbatim when that is not empty, and
otherwise the field name with every '-' replaced by '_', lowercased. When the case table
maps no rune to '-', that is the key in the words of the specification: the lowercased
name with every '-' replaced by '_'. -/
theorem buildNode_keys (rt : Runtime) (parent result : Node) (iv : StructValue)
    (hbuild : buildNode rt parent iv = .done result) :
    ∃ nodes, result.Children = parent.Children ++ nodes ∧
      KeysFollow (fun ft =>
        if (parseTag rt ft).Key ≠ "" then (parseTag rt ft).Key
        else String.mk ((ft.Name.data.map dashToUnderscore).map (lowerRune rt)))
        iv.fields nodes ∧
      ((∀ c : Char, 127 < c.toNat → rt.lowerCase c ≠ '-') →
        KeysFollow (statedKey rt) iv.fields nodes) := by
  obtain ⟨nodes, hchildren, hkeys⟩ := buildNodeLoop_keys rt iv.fields iv parent result hbuild
  have hspelled : (fun ft => nodeKey rt (parseTag rt ft) ft.Name) = (fun ft =>
      if (parseTag rt ft).Key ≠ "" then (parseTag rt ft).Key
      else String.mk ((ft.Name.data.map dashToUnderscore).map (lowerRune rt))) :=
    funext (fun ft => nodeKey_spelled rt (parseTag rt ft) ft.Name)
  refine ⟨nodes, hchildren, ?_, ?_⟩
  · rw [← hspelled]
    exact hkeys
  · intro htbl
    have hfun : (fun ft => nodeKey rt (parseTag rt ft) ft.Name) = statedKey rt :=
      funext (nodeKey_eq_statedKey rt htbl)
    rw [← hfun]
    exact hkeys

/-- The keys on the grammar of `TestLoad`, under the root and under the branch `typed`, and
the key of a name with dashes and capitals. -/
theorem buildNode_keys_example :
    (∃ nodes, exampleBuilt.Children = exampleRootNode.Children ++ nodes ∧
      KeysFollow (fun ft =>
        if (parseTag exampleRuntime ft).Key ≠ "" then (parseTag exampleRuntime ft).Key
        else String.mk ((ft.Name.data.map dashToUnderscore).map (lowerRune exampleRuntime)))
        exampleFields nodes ∧
      ((∀ c : Char, 127 < c.toNat → exampleRuntime.lowerCase c ≠ '-') →
        KeysFollow (statedKey exampleRuntime) exampleFields nodes)) ∧
    exampleBuilt.Children.map Node.Key =
      ["test", "custom_key", "nested", "typed", "nested_custom"] ∧
    (walkPath exampleBuilt ["typed"]).map (fun n => n.Children.map Node.Key) =
      some ["i", "defi", "b", "defb"] ∧
    nodeKey exampleRuntime emptyTag "Max-Open-Conns" = "max_open_conns" :=
  ⟨buildNode_keys exampleRuntime exampleRootNode exampleBuilt
      { fields := exampleFields, stickyRO := false } rfl,
   by decide, by decide, by decide⟩

/-! ### Normalization of environment keys -/

theorem isSpecial_eq_not (c : Char) : isSpecial c = !isUpperAlnum c := rfl

theorem isSpecial_underscore : isSpecial '_' = true := by decide

theorem ne_underscore_of_not_special (c : Char) (h : isSpecial c = false) : c ≠ '_' := by
  rintro rfl
  rw [isSpecial_underscore] at h
  cases h

theorem replaceRuns_cons_keep (c : Char) (cs : List Char) (h : isSpecial c = false) :
    replaceRuns isSpecial '_' (c :: cs) = c :: replaceRuns isSpecial '_' cs := by
  simp [replaceRuns, replaceRunsFrom, h]

theorem replaceRuns_cons_special (c : Char) (cs : List Char) (h : isSpecial c = true) :
    replaceRuns isSpecial '_' (c :: cs) =
      if startsSpecial cs = true then replaceRuns isSpecial '_' cs
      else '_' :: replaceRuns isSpecial '_' cs := by
  cases cs with
  | nil => simp [replaceRuns, replaceRunsFrom, h, startsSpecial]
  | cons d ds =>
    by_cases hd : isSpecial d = true
    · simp [replaceRuns, replaceRunsFrom, h, hd, startsSpecial]
    · simp [replaceRuns, replaceRunsFrom, h, hd, startsSpecial]

/-- The pattern `_+` finds nothing to change after the pattern `[^A-Z0-9]+`. -/
theorem replaceRuns_underscore_id (u : List Char) :
    replaceRunsFrom (fun c => decide (c = '_')) '_' false (replaceRuns isSpecial '_' u) =
        replaceRuns isSpecial '_' u ∧
    (startsSpecial u = false →
      replaceRunsFrom (fun c => decide (c = '_')) '_' true (replaceRuns isSpecial '_' u) =
        replaceRuns isSpecial '_' u) := by
  induction u with
  | nil => exact ⟨rfl, fun _ => rfl⟩
  | cons c cs ih =>
    obtain ⟨ih1, ih2⟩ := ih
    by_cases hc : isSpecial c = true
    · rw [replaceRuns_cons_special c cs hc]
      refine ⟨?_, fun h => ?_⟩
      · by_cases hs : startsSpecial cs = true
        · rw [if_pos hs]; exact ih1
        · rw [if_neg hs]
          simp only [replaceRunsFrom, decide_True, if_true, Bool.false_eq_true, if_false]
          rw [ih2 (by simpa using hs)]
      · simp [startsSpecial, hc] at h
    · have hc1 : isSpecial c = false := by simpa using hc
      have hne := ne_underscore_of_not_special c hc1
      rw [replaceRuns_cons_keep c cs hc1]
      refine ⟨?_, fun _ => ?_⟩ <;>
      · simp only [replaceRunsFrom, decide_eq_true_eq, hne, if_false]
        rw [ih1]

theorem splitWhere_ne_nil (sep : Char → Bool) (s : List Char) : splitWhere sep s ≠ [] := by
  cases s with
  | nil => simp [splitWhere]
  | cons c cs =>
    unfold splitWhere
    split
    · simp
    · split <;> simp

theorem intercalate_cons_cons (sep r r2 : List Char) (rs : List (List Char)) :
    List.intercalate sep (r :: r2 :: rs) = r ++ sep ++ List.intercalate sep (r2 :: rs) := by
  simp [List.intercalate, List.intersperse]

theorem intercalate_singleton (sep r : List Char) : List.intercalate sep [r] = r := by
  simp [List.intercalate, List.intersperse]

theorem intercalate_ne_nil (sep r : List Char) (rs : List (List Char)) (hr : r ≠ []) :
    List.intercalate sep (r :: rs) ≠ [] := by
  cases rs with
  | nil => rw [intercalate_singleton]; exact hr
  | cons r2 rs => rw [intercalate_cons_cons]; simp [hr]

theorem joinedRuns_eq (u : List Char) :
    joinedRuns u =
      List.intercalate ['_'] ((splitWhere isSpecial u).filter (fun seg => !seg.isEmpty)) := rfl

theorem joinedRuns_nil : joinedRuns [] = [] := by
  simp [joinedRuns_eq, splitWhere, List.intercalate]

theorem joinedRuns_cons_special (c : Char) (cs : List Char) (h : isSpecial c = true) :
    joinedRuns (c :: cs) = joinedRuns cs := by
  simp [joinedRuns_eq, splitWhere, h]

theorem joinedRuns_cons_keep (c : Char) (cs : List Char) (h : isSpecial c = false) :
    joinedRuns (c :: cs) = c :: ledRuns cs := by
  cases cs with
  | nil =>
    simp [joinedRuns_eq, splitWhere, h, ledRuns, startsSpecial, List.intercalate]
  | cons d ds =>
    by_cases hd : isSpecial d = true
    · have h1 : joinedRuns (c :: d :: ds) =
          List.intercalate ['_']
            ([c] :: (splitWhere isSpecial ds).filter (fun seg => !seg.isEmpty)) := by
        simp [joinedRuns_eq, splitWhere, h, hd]
      have h2 : joinedRuns (d :: ds) =
          List.intercalate ['_'] ((splitWhere isSpecial ds).filter (fun seg => !seg.isEmpty)) := by
        simp [joinedRuns_eq, splitWhere, hd]
      rw [h1]
      unfold ledRuns
      rw [h2]
      cases hF : (splitWhere isSpecial ds).filter (fun seg => !seg.isEmpty) with
      | nil => simp [List.intercalate]
      | cons r2 rs =>
        have hr2 : r2 ≠ [] := by
          have hmem : r2 ∈ (splitWhere isSpecial ds).filter (fun seg => !seg.isEmpty) := by
            rw [hF]; exact List.mem_cons_self _ _
          have := (List.mem_filter.1 hmem).2
          intro h0
          subst h0
          simp at this
        rw [intercalate_cons_cons, if_pos ⟨by simp [startsSpecial, hd],
          intercalate_ne_nil _ r2 rs hr2⟩]
        rfl
    · have hd1 : isSpecial d = false := by simpa using hd
      cases hS : splitWhere isSpecial ds with
      | nil => exact absurd hS (splitWhere_ne_nil _ _)
      | cons seg segs =>
        have h1 : joinedRuns (c :: d :: ds) =
            List.intercalate ['_']
              ((c :: d :: seg) :: segs.filter (fun seg => !seg.isEmpty)) := by
          simp [joinedRuns_eq, splitWhere, h, hd1, hS]
        have h2 : joinedRuns (d :: ds) =
            List.intercalate ['_'] ((d :: seg) :: segs.filter (fun seg => !seg.isEmpty)) := by
          simp [joinedRuns_eq, splitWhere, hd1, hS]
        rw [h1]
        unfold ledRuns
        rw [h2, if_neg (by simp [startsSpecial, hd1])]
        cases segs.filter (fun seg => !seg.isEmpty) with
        | nil => simp [intercalate_singleton]
        | cons r2 rs => simp [intercalate_cons_cons]

theorem trimLeft_snoc (cut c : Char) (y : List Char) :
    trimLeft cut (y ++ [c]) =
      if trimLeft cut y = [] then (if c = cut then [] else [c])
      else trimLeft cut y ++ [c] := by
  induction y with
  | nil =>
    by_cases hc : c = cut <;> simp [trimLeft, hc]
  | cons d ds ih =>
    by_cases hd : d = cut
    · simp only [List.cons_append, trimLeft, hd, if_true]
      rw [← hd] at ih ⊢
      simpa [hd] using ih
    · simp [trimLeft, hd]

theorem trimRight_cons (cut c : Char) (x : List Char) :
    trimRight cut (c :: x) =
      if c = cut ∧ trimRight cut x = [] then [] else c :: trimRight cut x := by
  unfold trimRight
  rw [List.reverse_cons, trimLeft_snoc]
  by_cases h1 : trimLeft cut x.reverse = []
  · by_cases hc : c = cut <;> simp [h1, hc]
  · simp [h1]

theorem trimRight_replaceRuns (u : List Char) :
    trimRight '_' (replaceRuns isSpecial '_' u) = ledRuns u := by
  induction u with
  | nil => simp [replaceRuns, replaceRunsFrom, trimRight, trimLeft, ledRuns, joinedRuns_nil]
  | cons c cs ih =>
    by_cases hc : isSpecial c = true
    · rw [replaceRuns_cons_special c cs hc]
      have hled : ledRuns (c :: cs) =
          if joinedRuns cs ≠ [] then '_' :: joinedRuns cs else joinedRuns cs := by
        unfold ledRuns
        rw [joinedRuns_cons_special c cs hc]
        simp [startsSpecial, hc]
      rw [hled]
      by_cases hs : startsSpecial cs = true
      · rw [if_pos hs, ih]
        unfold ledRuns
        simp [hs]
      · rw [if_neg hs, trimRight_cons, ih]
        have hcs : ledRuns cs = joinedRuns cs := by
          unfold ledRuns
          rw [if_neg (fun h => hs h.1)]
        rw [hcs]
        by_cases hj : joinedRuns cs = []
        · simp [hj]
        · simp [hj]
    · have hc1 : isSpecial c = false := by simpa using hc
      have hled : ledRuns (c :: cs) = joinedRuns (c :: cs) := by
        unfold ledRuns
        rw [if_neg (by simp [startsSpecial, hc1])]
      rw [replaceRuns_cons_keep c cs hc1, trimRight_cons, ih,
        if_neg (fun h => ne_underscore_of_not_special c hc1 h.1), hled,
        joinedRuns_cons_keep c cs hc1]

theorem trimLeft_replaceRuns (u : List Char) :
    trimLeft '_' (replaceRuns isSpecial '_' u) =
      replaceRuns isSpecial '_' (u.dropWhile isSpecial) := by
  induction u with
  | nil => rfl
  | cons c cs ih =>
    by_cases hc : isSpecial c = true
    · rw [replaceRuns_cons_special c cs hc, List.dropWhile_cons_of_pos hc]
      by_cases hs : startsSpecial cs = true
      · rw [if_pos hs]; exact ih
      · rw [if_neg hs]
        simp only [trimLeft, if_true]
        exact ih
    · have hc1 : isSpecial c = false := by simpa using hc
      rw [replaceRuns_cons_keep c cs hc1, List.dropWhile_cons_of_neg hc]
      rw [replaceRuns_cons_keep c cs hc1]
      simp only [trimLeft, ne_underscore_of_not_special c hc1, if_false]

theorem ledRuns_dropWhile (u : List Char) :
    ledRuns (u.dropWhile isSpecial) = joinedRuns u := by
  induction u with
  | nil => simp [ledRuns, startsSpecial]
  | cons c cs ih =>
    by_cases hc : isSpecial c = true
    · rw [List.dropWhile_cons_of_pos hc, ih, joinedRuns_cons_special c cs hc]
    · rw [List.dropWhile_cons_of_neg hc]
      unfold ledRuns
      rw [if_neg (by simp [startsSpecial, hc])]

/-- The code and the stated form of the normalization agree on every text. -/
theorem normalizeEnvKey_eq_statedEnvKey (rt : Runtime) (s : String) :
    normalizeEnvKey rt s = statedEnvKey rt s := by
  unfold normalizeEnvKey statedEnvKey
  simp only
  have h2 : replaceRuns (fun c => decide (c = '_')) '_'
      (replaceRuns isSpecial '_' (ToUpper rt.upperCase s.data)) =
        replaceRuns isSpecial '_' (ToUpper rt.upperCase s.data) :=
    (replaceRuns_underscore_id _).1
  rw [h2]
  have h3 : Trim '_' (replaceRuns isSpecial '_' (ToUpper rt.upperCase s.data)) =
      trimRight '_' (trimLeft '_' (replaceRuns isSpecial '_' (ToUpper rt.upperCase s.data))) :=
    rfl
  rw [h3, trimLeft_replaceRuns, trimRight_replaceRuns, ledRuns_dropWhile]

/-- The shape of the joined runs: only `A`-`Z`, `0`-`9` and '_', no underscore at the start
or at the end, and no two underscores in a row. -/
theorem joinedRuns_shape (u : List Char) :
    (∀ c ∈ joinedRuns u, isUpperAlnum c = true ∨ c = '_') ∧
    (joinedRuns u).head? ≠ some '_' ∧
    (joinedRuns u).getLast? ≠ some '_' ∧
    List.Chain' (fun a b => ¬ (a = '_' ∧ b = '_')) (joinedRuns u) := by
  induction u with
  | nil => simp [joinedRuns_nil]
  | cons c cs ih =>
    obtain ⟨ih1, ih2, ih3, ih4⟩ := ih
    by_cases hc : isSpecial c = true
    · rw [joinedRuns_cons_special c cs hc]
      exact ⟨ih1, ih2, ih3, ih4⟩
    · have hc1 : isSpecial c = false := by simpa using hc
      have hne := ne_underscore_of_not_special c hc1
      have hkeep : isUpperAlnum c = true := by
        rw [isSpecial_eq_not] at hc1
        simpa using hc1
      rw [joinedRuns_cons_keep c cs hc1]
      unfold ledRuns
      by_cases hl : startsSpecial cs = true ∧ joinedRuns cs ≠ []
      · rw [if_pos hl]
        refine ⟨?_, ?_, ?_, ?_⟩
        · intro x hx
          rcases List.mem_cons.1 hx with h | h
          · exact Or.inl (h ▸ hkeep)
          · rcases List.mem_cons.1 h with h | h
            · exact Or.inr h
            · exact ih1 x h
        · simp [hne]
        · rw [List.getLast?_cons_cons]
          cases hj : joinedRuns cs with
          | nil => exact absurd hj hl.2
          | cons y ys =>
            rw [List.getLast?_cons_cons]
            rw [hj] at ih3
            exact ih3
        · rw [List.chain'_cons]
          refine ⟨fun h => hne h.1, ?_⟩
          cases hj : joinedRuns cs with
          | nil => exact absurd hj hl.2
          | cons y ys =>
            rw [hj] at ih2 ih4
            rw [List.chain'_cons]
            refine ⟨fun h => ?_, ih4⟩
            apply ih2
            rw [h.2]
            rfl
      · rw [if_neg hl]
        refine ⟨?_, ?_, ?_, ?_⟩
        · intro x hx
          rcases List.mem_cons.1 hx with h | h
          · exact Or.inl (h ▸ hkeep)
          · exact ih1 x h
        · simp [hne]
        · cases hj : joinedRuns cs with
          | nil => simp [hne]
          | cons y ys =>
            rw [List.getLast?_cons_cons]
            rw [hj] at ih3
            exact ih3
        · cases hj : joinedRuns cs with
          | nil => exact List.chain'_singleton c
          | cons y ys =>
            rw [hj] at ih4
            rw [List.chain'_cons]
            exact ⟨fun h => hne h.1, ih4⟩

/-- C7. For every text, `normalizeEnvKey` returns the maximal runs of `A`-`Z`, `0`-`9` of
the uppercased text, in their order, joined by single underscores. So the result has only
`A`-`Z`, `0`-`9` and '_', does not start or end with an underscore and has no two
underscores in a row; "with%two%%symbols" gives "WITH_TWO_SYMBOLS" and "_trim_" gives
"TRIM". -/
theorem normalizeEnvKey_joins_runs (rt : Runtime) (s : String) :
    normalizeEnvKey rt s =
      String.mk (List.intercalate ['_']
        (maximalRuns isUpperAlnum (ToUpper rt.upperCase s.data))) ∧
    (∀ c ∈ (normalizeEnvKey rt s).data, isUpperAlnum c = true ∨ c = '_') ∧
    (normalizeEnvKey rt s).data.head? ≠ some '_' ∧
    (normalizeEnvKey rt s).data.getLast? ≠ some '_' ∧
    List.Chain' (fun a b => ¬ (a = '_' ∧ b = '_')) (normalizeEnvKey rt s).data ∧
    normalizeEnvKey rt "with%two%%symbols" = "WITH_TWO_SYMBOLS" ∧
    normalizeEnvKey rt "_trim_" = "TRIM" := by
  have h := normalizeEnvKey_eq_statedEnvKey rt s
  have hshape := joinedRuns_shape (ToUpper rt.upperCase s.data)
  refine ⟨h, ?_, ?_, ?_, ?_, ?_, ?_⟩
  · rw [h]; exact hshape.1
  · rw [h]; exact hshape.2.1
  · rw [h]; exact hshape.2.2.1
  · rw [h]; exact hshape.2.2.2
  · rfl
  · rfl

theorem unicodeToUpper_fixed (tbl : Char → Char) (c : Char)
    (hc : isUpperAlnum c = true ∨ c = '_') : unicodeToUpper tbl c = c := by
  obtain ⟨hA, hZ, h0, h9, ha, _⟩ := asciiCodes
  have hrange : c.toNat ≤ 95 := by
    rcases hc with h | h
    · simp only [isUpperAlnum, hA, hZ, h0, h9, Bool.or_eq_true, Bool.and_eq_true,
        decide_eq_true_eq] at h
      omega
    · subst h
      decide
  unfold unicodeToUpper
  rw [if_pos (by omega), if_neg (by rw [ha]; omega)]

theorem ToUpper_fixed (tbl : Char → Char) (u : List Char)
    (hu : ∀ c ∈ u, isUpperAlnum c = true ∨ c = '_') : ToUpper tbl u = u := by
  unfold ToUpper
  conv_rhs => rw [← List.map_id u]
  apply List.map_congr_left
  intro c hc
  exact unicodeToUpper_fixed tbl c (hu c hc)

theorem startsSpecial_joinedRuns (u : List Char) : startsSpecial (joinedRuns u) = false := by
  obtain ⟨h1, h2, _, _⟩ := joinedRuns_shape u
  cases hj : joinedRuns u with
  | nil => rfl
  | cons c cs =>
    rw [hj] at h1 h2
    have hc : c ≠ '_' := by
      intro h
      apply h2
      rw [h]
      rfl
    rcases h1 c (List.mem_cons_self _ _) with h | h
    · simp [startsSpecial, isSpecial_eq_not, h]
    · exact absurd h hc

theorem joinedRuns_idem (u : List Char) : joinedRuns (joinedRuns u) = joinedRuns u := by
  induction u with
  | nil => rw [joinedRuns_nil, joinedRuns_nil]
  | cons c cs ih =>
    by_cases hc : isSpecial c = true
    · rw [joinedRuns_cons_special c cs hc]; exact ih
    · have hc1 : isSpecial c = false := by simpa using hc
      rw [joinedRuns_cons_keep c cs hc1, joinedRuns_cons_keep c _ hc1]
      congr 1
      by_cases hl : startsSpecial cs = true ∧ joinedRuns cs ≠ []
      · have h1 : ledRuns cs = '_' :: joinedRuns cs := by
          unfold ledRuns
          rw [if_pos hl]
        have h2 : joinedRuns ('_' :: joinedRuns cs) = joinedRuns cs := by
          rw [joinedRuns_cons_special _ _ isSpecial_underscore, ih]
        rw [h1]
        unfold ledRuns
        rw [h2, if_pos ⟨by simp [startsSpecial, isSpecial_underscore], hl.2⟩]
      · have h1 : ledRuns cs = joinedRuns cs := by
          unfold ledRuns
          rw [if_neg hl]
        rw [h1]
        unfold ledRuns
        rw [if_neg (by rw [startsSpecial_joinedRuns]; simp), ih]

/-- C8. Normalizing a normalized environment key returns it unchanged, for every text. -/
theorem normalizeEnvKey_idempotent (rt : Runtime) (s : String) :
    normalizeEnvKey rt (normalizeEnvKey rt s) = normalizeEnvKey rt s := by
  rw [normalizeEnvKey_eq_statedEnvKey rt s, normalizeEnvKey_eq_statedEnvKey]
  unfold statedEnvKey
  simp only
  rw [ToUpper_fixed _ _ (joinedRuns_shape _).1, joinedRuns_idem]

/-- C9. Typed conversion outcomes of `getTypedValue`: the String kind returns the source
unchanged and no error; a kind outside String, Int, Float64 and Bool returns no value and the
error "no conversion available for this kind: <kind>"; for Int, Float64 and Bool the result
is no value and the parser's error when the parser rejects the source, and otherwise a value
of exactly that kind holding the parsed value and no error. For Bool the accepted texts are
listed. -/
theorem getTypedValue_outcomes (rt : Runtime) (s : String) :
    getTypedValue rt s .String = (.str s, none) ∧
    (∀ kind : Kind, kind ≠ .String → kind ≠ .Int → kind ≠ .Float64 → kind ≠ .Bool →
      getTypedValue rt s kind =
        (.nil, some (.errorf ("no conversion available for this kind: " ++ kindString kind)))) ∧
    (∀ e, (ParseInt rt.IntSize s).2 = some e → getTypedValue rt s .Int = (.nil, some e)) ∧
    ((ParseInt rt.IntSize s).2 = none →
      getTypedValue rt s .Int = (.int (ParseInt rt.IntSize s).1, none)) ∧
    (∀ e, (rt.ParseFloat s).2 = some e → getTypedValue rt s .Float64 = (.nil, some e)) ∧
    ((rt.ParseFloat s).2 = none →
      getTypedValue rt s .Float64 = (.float (rt.ParseFloat s).1, none)) ∧
    (s ∈ ["1", "t", "T", "TRUE", "true", "True"] →
      getTypedValue rt s .Bool = (.bool true, none)) ∧
    (s ∈ ["0", "f", "F", "FALSE", "false", "False"] →
      getTypedValue rt s .Bool = (.bool false, none)) ∧
    (s ∉ ["1", "t", "T", "TRUE", "true", "True", "0", "f", "F", "FALSE", "false", "False"] →
      getTypedValue rt s .Bool = (.nil, some (.numError "ParseBool" s .ErrSyntax))) := by
  refine ⟨rfl, ?_, ?_, ?_, ?_, ?_, ?_, ?_, ?_⟩
  · intro kind h1 h2 h3 h4
    cases kind <;> first | rfl | contradiction
  · intro e he
    unfold getTypedValue
    rcases hp : ParseInt rt.IntSize s with ⟨v, err⟩
    rw [hp] at he
    simp only at he
    subst he
    rfl
  · intro he
    unfold getTypedValue
    rcases hp : ParseInt rt.IntSize s with ⟨v, err⟩
    rw [hp] at he
    simp only at he
    subst he
    rfl
  · intro e he
    unfold getTypedValue
    rcases hp : rt.ParseFloat s with ⟨v, err⟩
    rw [hp] at he
    simp only at he
    subst he
    rfl
  · intro he
    unfold getTypedValue
    rcases hp : rt.ParseFloat s with ⟨v, err⟩
    rw [hp] at he
    simp only at he
    subst he
    rfl
  · intro hs
    have hp : ParseBool s = (true, none) := by
      simp only [List.mem_cons, List.mem_singleton, List.not_mem_nil, or_false] at hs
      unfold ParseBool
      rw [if_pos hs]
    unfold getTypedValue
    rw [hp]
  · intro hs
    have hp : ParseBool s = (false, none) := by
      simp only [List.mem_cons, List.mem_singleton, List.not_mem_nil, or_false] at hs
      rcases hs with h | h | h | h | h | h <;> subst h <;> decide
    unfold getTypedValue
    rw [hp]
  · intro hs
    have hp : ParseBool s = (false, some (.numError "ParseBool" s .ErrSyntax)) := by
      simp only [List.mem_cons, List.mem_singleton, List.not_mem_nil, or_false, not_or] at hs
      unfold ParseBool
      rw [if_neg (by tauto), if_neg (by tauto)]
    unfold getTypedValue
    rw [hp]

/-- Witness of C9 on the sources "12", "x", "0.1", "true" and "maybe". -/
theorem getTypedValue_outcomes_witness :
    getTypedValue exampleRuntime "12" .Int = (.int 12, none) ∧
    getTypedValue exampleRuntime "x" .Int = (.nil, some (.numError "ParseInt" "x" .ErrSyntax)) ∧
    getTypedValue exampleRuntime "0.1" .Float64 = (.float ⟨0x3FB999999999999A⟩, none) ∧
    getTypedValue exampleRuntime "true" .Bool = (.bool true, none) ∧
    getTypedValue exampleRuntime "maybe" .Bool
      = (.nil, some (.numError "ParseBool" "maybe" .ErrSyntax)) ∧
    getTypedValue exampleRuntime "anything" .Complex64
      = (.nil, some (.errorf "no conversion available for this kind: complex64")) :=
  ⟨(getTypedValue_outcomes exampleRuntime "12").2.2.2.1 (by decide),
   (getTypedValue_outcomes exampleRuntime "x").2.2.1 _ (by decide),
   (getTypedValue_outcomes exampleRuntime "0.1").2.2.2.2.2.1 (by decide),
   (getTypedValue_outcomes exampleRuntime "true").2.2.2.2.2.2.1 (by decide),
   (getTypedValue_outcomes exampleRuntime "maybe").2.2.2.2.2.2.2.2 (by decide),
   (getTypedValue_outcomes exampleRuntime "anything").2.1 .Complex64
     (by decide) (by decide) (by decide) (by decide)⟩

/-- The type check of `Load`, which comes after the decoding: when the decoder returns
without an error and the grammar is not a pointer to a struct (its kind is not Ptr, or the
kind behind the pointer is not Struct), `Load` returns the error
"expected a pointer to a struct but got <type>" and a nil Configuration, so no tree is
built. -/
theorem Load_rejects_non_struct_pointer (rt : Runtime) (grammar : Grammar) (source : String)
    (decoded : RFields) (hdecode : rt.Decode source grammar = .done (decoded, none))
    (hkind : grammar.Kind ≠ .Ptr ∨ grammar.IndirectKind ≠ .Struct) :
    Load rt grammar source =
      .done (none,
        some (.errorf ("expected a pointer to a struct but got " ++ grammar.TypeName))) := by
  unfold Load
  rw [hdecode]
  simp only
  rw [if_pos hkind]

/-- The type check on the empty struct passed by value with the document of
`TestLoadNotPointer`, and on a pointer to an int with the document `5`: the decoder accepts
both. -/
theorem Load_rejects_non_struct_pointer_example :
    Load exampleRuntime (.value ⟨"struct {}", .Struct⟩) "test: \"test_value\"" =
      .done (none, some (.errorf "expected a pointer to a struct but got struct {}")) ∧
    Load exampleRuntime (.pointer "*int" (some ⟨"int", .Int⟩)) "5" =
      .done (none, some (.errorf "expected a pointer to a struct but got *int")) :=
  ⟨Load_rejects_non_struct_pointer exampleRuntime (.value ⟨"struct {}", .Struct⟩)
      "test: \"test_value\"" .nil rfl (Or.inl (by decide)),
   Load_rejects_non_struct_pointer exampleRuntime (.pointer "*int" (some ⟨"int", .Int⟩))
      "5" .nil rfl (Or.inr (by decide))⟩

/-- The decoder runs before the type check, whatever the grammar is: an error of the decoder
is what `Load` returns, together with a Configuration that has no root, and a panic of the
decoder is a panic of `Load`. -/
theorem Load_decodes_before_type_check (rt : Runtime) (grammar : Grammar) (source : String) :
    (∀ decoded err, rt.Decode source grammar = .done (decoded, some err) →
      Load rt grammar source = .done (some { Node := none }, some err)) ∧
    (∀ reason, rt.Decode source grammar = .panicked reason →
      Load rt grammar source = .panicked reason) := by
  refine ⟨fun decoded err h => ?_, fun reason h => ?_⟩
  · unfold Load
    rw [h]
  · unfold Load
    rw [h]

/-- C10 at a failing input. For the empty struct passed by value, which is not a pointer to
a struct, and an empty source, `Load` does not return the type mismatch error and no
Configuration: the decoder runs first and reports `EOF`, and `Load` returns that error
together with a Configuration whose root is nil. -/
theorem Load_decode_error_comes_first :
    ((Grammar.value ⟨"struct {}", .Struct⟩).Kind ≠ .Ptr ∧
      exampleRuntime.Decode "" (.value ⟨"struct {}", .Struct⟩) =
        .done (.nil, some (.decode "EOF"))) ∧
    Load exampleRuntime (.value ⟨"struct {}", .Struct⟩) "" =
      .done (some { Node := none }, some (.decode "EOF")) ∧
    Load exampleRuntime (.value ⟨"struct {}", .Struct⟩) "" ≠
      .done (none, some (.errorf "expected a pointer to a struct but got struct {}")) :=
  ⟨⟨by decide, rfl⟩, rfl, fun h => by cases h⟩

/-- C5. For a configuration with a root node, `Set` returns an error exactly when the
path does not resolve; the error is the `ErrKeyNotFound` whose message is
"key not found: <key>", and the configuration comes back as it was. `Set` does not panic. -/
theorem Set_fails_exactly_on_missing_key (c : Configuration) (root : Node) (key : String)
    (value : Value) (hroot : c.Node = some root) :
    ((∃ c1 err, Set c key value = .done (c1, some err)) ↔ FindNode root key = none) ∧
    (FindNode root key = none →
      Set c key value = .done (c, some (.keyNotFound (NewErrKeyNotFound key))) ∧
      (NewErrKeyNotFound key).Error = "key not found: " ++ key) ∧
    (∃ c1 err, Set c key value = .done (c1, err)) := by
  cases hfind : FindNode root key with
  | none =>
    have h := Set_of_not_found c root key value hroot hfind
    exact ⟨⟨fun _ => rfl, fun _ => ⟨c, _, h⟩⟩, fun _ => ⟨h, rfl⟩, ⟨c, _, h⟩⟩
  | some context =>
    have h := Set_of_found c root context key value hroot hfind
    refine ⟨⟨?_, fun h0 => Option.noConfusion h0⟩, ⟨fun h0 => Option.noConfusion h0, ⟨_, _, h⟩⟩⟩
    rintro ⟨c1, err, h1⟩
    rw [h] at h1
    simp only [Run.done.injEq, Prod.mk.injEq] at h1
    exact absurd h1.2 (by simp)

/-- Witness of C5 on the example tree: the key "non_existent" does not resolve. -/
theorem Set_fails_exactly_on_missing_key_witness :
    Set exampleConfig "non_existent" (.bool true) =
      .done (exampleConfig, some (.keyNotFound (NewErrKeyNotFound "non_existent"))) ∧
    (NewErrKeyNotFound "non_existent").Error = "key not found: non_existent" :=
  ((Set_fails_exactly_on_missing_key exampleConfig exampleTree "non_existent" (.bool true)
    rfl).2.1 rfl)

/-- The typed getters in terms of the result of `Get`. -/
theorem typed_getters_of_Get (c : Configuration) (key : String) (v : Value)
    (hget : Get c key = .done v) :
    GetString c key = .done (assertString v) ∧
    GetInt c key = .done (assertInt v) ∧
    GetFloat64 c key = .done (assertFloat64 v) ∧
    GetBool c key = .done (assertBool v) := by
  simp only [GetString, GetInt, GetFloat64, GetBool, hget, and_self]

/-- C6. For a configuration with a root node and every key: `Get` returns the value of the
node the path resolves to, and nil when the path does not resolve; `GetString`, `GetInt`,
`GetFloat64` and `GetBool` return the value `Get` returns when its dynamic type is string,
int, float64 or bool respectively, and the zero value "", 0, 0.0 or false in every other
case (another type, or nil, which is also what an unresolved path gives). -/
theorem Get_family_results (c : Configuration) (root : Node) (key : String)
    (hroot : c.Node = some root) :
    (∀ context, FindNode root key = some context → Get c key = .done context.Value) ∧
    (FindNode root key = none → Get c key = .done .nil) ∧
    (∃ v, Get c key = .done v ∧
      (∀ s, v = .str s → GetString c key = .done s) ∧
      ((∀ s, v ≠ .str s) → GetString c key = .done "") ∧
      (∀ i, v = .int i → GetInt c key = .done i) ∧
      ((∀ i, v ≠ .int i) → GetInt c key = .done 0) ∧
      (∀ f, v = .float f → GetFloat64 c key = .done f) ∧
      ((∀ f, v ≠ .float f) → GetFloat64 c key = .done Float64.zero) ∧
      (∀ b, v = .bool b → GetBool c key = .done b) ∧
      ((∀ b, v ≠ .bool b) → GetBool c key = .done false)) := by
  have hget := Get_of_root c root key hroot
  refine ⟨fun context h => by rw [hget, h], fun h => by rw [hget, h], _, hget, ?_⟩
  obtain ⟨hs, hi, hf, hb⟩ := typed_getters_of_Get c key _ hget
  generalize (match FindNode root key with
      | none => Value.nil
      | some context => context.Value) = v at hs hi hf hb
  clear hget
  refine ⟨?_, ?_, ?_, ?_, ?_, ?_, ?_, ?_⟩
  · rintro s rfl; exact hs
  · intro h; rw [hs]; cases v <;> first | rfl | exact absurd rfl (h _)
  · rintro i rfl; exact hi
  · intro h; rw [hi]; cases v <;> first | rfl | exact absurd rfl (h _)
  · rintro f rfl; exact hf
  · intro h; rw [hf]; cases v <;> first | rfl | exact absurd rfl (h _)
  · rintro b rfl; exact hb
  · intro h; rw [hb]; cases v <;> first | rfl | exact absurd rfl (h _)

/-- Witness of C6 on the example tree: an int valued key read with `Get`, and an
unresolved key. -/
theorem Get_family_results_witness :
    Get exampleConfig "testint" = .done (.int 1) ∧
    Get exampleConfig "nonexistent" = .done .nil :=
  ⟨(Get_family_results exampleConfig exampleTree "testint" rfl).1
      (exampleLeaf "TestInt" "testint" ⟨"int", .Int⟩ (.int 1)) rfl,
   (Get_family_results exampleConfig exampleTree "nonexistent" rfl).2.1 rfl⟩

/-! ### Composition of lookups -/

theorem splitRunes_cons_sep (sep : Char) (cs : List Char) :
    splitRunes sep (sep :: cs) = [] :: splitRunes sep cs := by
  simp [splitRunes]

theorem splitRunes_cons_ne (sep c : Char) (cs seg : List Char) (segs : List (List Char))
    (hc : c ≠ sep) (hsp : splitRunes sep cs = seg :: segs) :
    splitRunes sep (c :: cs) = (c :: seg) :: segs := by
  simp [splitRunes, hc, hsp]

theorem splitRunes_append_sep (sep : Char) (a b : List Char) :
    splitRunes sep (a ++ sep :: b) = splitRunes sep a ++ splitRunes sep b := by
  induction a with
  | nil => rw [List.nil_append, splitRunes_cons_sep]; rfl
  | cons c cs ih =>
    rw [List.cons_append]
    by_cases hc : c = sep
    · subst hc
      rw [splitRunes_cons_sep, splitRunes_cons_sep, ih]
      rfl
    · cases hsp : splitRunes sep cs with
      | nil => exact absurd hsp (splitRunes_ne_nil sep cs)
      | cons seg segs =>
        rw [hsp] at ih
        rw [splitRunes_cons_ne sep c cs seg segs hc hsp,
          splitRunes_cons_ne sep c _ seg (segs ++ splitRunes sep b) hc ih]
        rfl

theorem Split_append_sep (p q : String) (sep : Char) :
    Split (p ++ String.singleton sep ++ q) sep = Split p sep ++ Split q sep := by
  unfold Split
  have h : (p ++ String.singleton sep ++ q).data = p.data ++ sep :: q.data := by
    simp [String.data_append, String.singleton]
  rw [h, splitRunes_append_sep, List.map_append]

theorem walkPath_append (walked rest : List String) :
    ∀ n : Node, walkPath n (walked ++ rest) =
      match walkPath n walked with
      | none => none
      | some m => walkPath m rest := by
  induction walked with
  | nil => intro n; rfl
  | cons segment walked ih =>
    intro n
    simp only [List.cons_append, walkPath]
    cases GetChild n segment with
    | none => rfl
    | some child => exact ih child

/-- C20. For every node `n` and all paths `p` and `q`, `n.FindNode(p + "." + q)` is
`m.FindNode(q)` when `n.FindNode(p)` is the node `m`, and nil when `n.FindNode(p)` is nil. -/
theorem FindNode_composes (n : Node) (p q : String) :
    (∀ m, FindNode n p = some m → FindNode n (p ++ "." ++ q) = FindNode m q) ∧
    (FindNode n p = none → FindNode n (p ++ "." ++ q) = none) := by
  have h : FindNode n (p ++ "." ++ q) =
      match FindNode n p with
      | none => none
      | some m => FindNode m q := by
    have hs : Split (p ++ "." ++ q) '.' = Split p '.' ++ Split q '.' :=
      Split_append_sep p q '.'
    rw [FindNode_eq_walkPath, hs, walkPath_append, ← FindNode_eq_walkPath]
    cases FindNode n p with
    | none => rfl
    | some m => simp only [FindNode_eq_walkPath]
  constructor
  · intro m hm
    rw [h, hm]
  · intro hnone
    rw [h, hnone]

/-! ### Frame of an assignment -/

theorem updateChild_cons (segment : String) (f : Node → Node) (child : Node)
    (rest : List Node) :
    updateChild segment f (child :: rest) =
      if child.Key = segment then f child :: rest
      else child :: updateChild segment f rest := rfl

theorem updateChild_at (segment : String) (f : Node → Node) (before after : List Node)
    (child : Node) (hkey : child.Key = segment)
    (hbefore : ∀ other ∈ before, other.Key ≠ segment) :
    updateChild segment f (before ++ child :: after) = before ++ f child :: after := by
  induction before with
  | nil => rw [List.nil_append, updateChild_cons, if_pos hkey]; rfl
  | cons b bs ih =>
    have hb : b.Key ≠ segment := hbefore b (List.mem_cons_self _ _)
    rw [List.cons_append, updateChild_cons, if_neg hb,
      ih (fun other ho => hbefore other (List.mem_cons_of_mem _ ho))]
    rfl

theorem assignAt_cons (value : Value) (segment : String) (rest : List String) (n : Node) :
    assignAt value (segment :: rest) n =
      n.setChildren (updateChild segment
        (fun child => if rest = [] then child.setValueField value
          else assignAt value rest child) n.Children) := rfl

theorem onlyValueAt_assignAt (value : Value) (segments : List String) :
    ∀ n m : Node, segments ≠ [] → walkPath n segments = some m →
      OnlyValueAt value segments n (assignAt value segments n) := by
  induction segments with
  | nil => intro n m h; exact absurd rfl h
  | cons segment rest ih =>
    intro n m _ hwalk
    unfold walkPath at hwalk
    cases hchild : GetChild n segment with
    | none => rw [hchild] at hwalk; cases hwalk
    | some child =>
      rw [hchild] at hwalk
      simp only at hwalk
      obtain ⟨before, after, hsplit, hkey, hbefore⟩ :=
        (GetChild_eq_some_iff n segment child).1 hchild
      rw [assignAt_cons]
      cases n with
      | mk name key children typ val tag =>
        simp only [Node.Children] at hsplit
        refine ⟨rfl, rfl, rfl, rfl, rfl, before, child, after,
          (if rest = [] then child.setValueField value else assignAt value rest child),
          hsplit, hkey, hbefore, ?_, ?_⟩
        · simp only [Node.Children, Node.setChildren]
          rw [hsplit, updateChild_at segment _ before after child hkey hbefore]
        · by_cases hrest : rest = []
          · simp only [hrest, if_true]
            cases child
            exact ⟨rfl, rfl, rfl, rfl, rfl, rfl⟩
          · simp only [hrest, if_false]
            exact ih child m hrest hwalk

theorem walkPath_setValueField_cons (n : Node) (value : Value) (segment : String)
    (rest : List String) :
    walkPath (n.setValueField value) (segment :: rest) = walkPath n (segment :: rest) := by
  cases n
  rfl

theorem find_updateChild_ne (segment other : String) (f : Node → Node)
    (hf : ∀ child, (f child).Key = child.Key) (hne : other ≠ segment) (children : List Node) :
    (updateChild segment f children).find? (fun child => child.Key = other) =
      children.find? (fun child => child.Key = other) := by
  induction children with
  | nil => rfl
  | cons child rest ih =>
    rw [updateChild_cons]
    by_cases hk : child.Key = segment
    · rw [if_pos hk]
      have h1 : ¬ (f child).Key = other := by rw [hf, hk]; exact fun h => hne h.symm
      have h2 : ¬ child.Key = other := by rw [hk]; exact fun h => hne h.symm
      rw [List.find?_cons_of_neg _ (by simpa using h1),
        List.find?_cons_of_neg _ (by simpa using h2)]
    · rw [if_neg hk]
      by_cases ho : child.Key = other
      · rw [List.find?_cons_of_pos _ (by simpa using ho),
          List.find?_cons_of_pos _ (by simpa using ho)]
      · rw [List.find?_cons_of_neg _ (by simpa using ho),
          List.find?_cons_of_neg _ (by simpa using ho)]
        exact ih

/-- What an assignment at the segments `target` leaves to a walk along `segments`: the walk
arrives exactly when it did before, and at a node with the same value unless the two lists
of segments are the same. -/
theorem walkPath_assignAt_frame (value : Value) (target : List String) :
    ∀ (n : Node) (segments : List String),
      (walkPath (assignAt value target n) segments).isSome = (walkPath n segments).isSome ∧
      (segments ≠ target →
        (walkPath (assignAt value target n) segments).map Node.Value =
          (walkPath n segments).map Node.Value) := by
  induction target with
  | nil => intro n segments; exact ⟨rfl, fun _ => rfl⟩
  | cons segment rest ih =>
    intro n segments
    have hkey : ∀ child : Node,
        (if rest = [] then child.setValueField value else assignAt value rest child).Key
          = child.Key := by
      intro child
      split
      · simp
      · exact assignAt_Key value rest child
    cases segments with
    | nil =>
      refine ⟨rfl, fun _ => ?_⟩
      simp [walkPath, assignAt_cons]
    | cons s segments1 =>
      by_cases hs : s = segment
      · subst hs
        have hget : GetChild (assignAt value (s :: rest) n) s =
            (GetChild n s).map
              (fun child => if rest = [] then child.setValueField value
                else assignAt value rest child) := by
          unfold GetChild
          simp only [assignAt, Node.Children_setChildren]
          exact find_updateChild s _ hkey n.Children
        unfold walkPath
        rw [hget]
        cases GetChild n s with
        | none => exact ⟨rfl, fun _ => rfl⟩
        | some child =>
          simp only [Option.map_some']
          by_cases hrest : rest = []
          · subst hrest
            simp only [if_true]
            cases segments1 with
            | nil =>
              refine ⟨rfl, fun h => absurd rfl h⟩
            | cons s2 segments2 =>
              rw [walkPath_setValueField_cons]
              exact ⟨rfl, fun _ => rfl⟩
          · simp only [hrest, if_false]
            obtain ⟨h1, h2⟩ := ih child segments1
            refine ⟨h1, fun h => h2 ?_⟩
            intro heq
            apply h
            rw [heq]
      · have hget : GetChild (assignAt value (segment :: rest) n) s = GetChild n s := by
          unfold GetChild
          simp only [assignAt, Node.Children_setChildren]
          exact find_updateChild_ne segment s _ hkey hs n.Children
        unfold walkPath
        rw [hget]
        exact ⟨rfl, fun _ => rfl⟩

theorem Split_injective (p q : String) (sep : Char) (h : Split p sep = Split q sep) :
    p = q := by
  unfold Split at h
  have hinj : Function.Injective String.mk := by
    intro a b hab
    exact congrArg String.data hab
  have h1 := List.map_injective_iff.2 hinj h
  have hp := (splitRunes_spec sep p.data).2
  have hq := (splitRunes_spec sep q.data).2
  rw [h1, hq] at hp
  cases p
  cases q
  simp only at hp
  rw [hp]

/-- C19. For a configuration with a root node and a key that resolves, `Set(key, v)`
returns no error and the tree after it is the tree before it except at the node
`FindNode(key)` returns, which differs in nothing but its `Value`: every node keeps its
name, key, tag, type and list of children, and every other node its `Value`. So every
path resolves after the call exactly when it did before, and `Get` of every other path
returns the value it returned before. -/
theorem Set_changes_one_value (c : Configuration) (root context : Node) (key : String)
    (v : Value) (hroot : c.Node = some root) (hfind : FindNode root key = some context) :
    ∃ root1, Set c key v = .done ({ Node := some root1 }, none) ∧
      OnlyValueAt v (Split key '.') root root1 ∧
      (∀ p, (FindNode root1 p).isSome = (FindNode root p).isSome) ∧
      (∀ p, p ≠ key → Get { Node := some root1 } p = Get c p) := by
  refine ⟨assignAt v (Split key '.') root, Set_of_found c root context key v hroot hfind,
    ?_, ?_, ?_⟩
  · rw [FindNode_eq_walkPath] at hfind
    exact onlyValueAt_assignAt v _ root context (Split_ne_nil key '.') hfind
  · intro p
    rw [FindNode_eq_walkPath, FindNode_eq_walkPath]
    exact (walkPath_assignAt_frame v _ root _).1
  · intro p hp
    rw [Get_of_root _ (assignAt v (Split key '.') root) p rfl, Get_of_root c root p hroot]
    have hseg : Split p '.' ≠ Split key '.' := fun h => hp (Split_injective p key '.' h)
    have h := (walkPath_assignAt_frame v (Split key '.') root (Split p '.')).2 hseg
    rw [← FindNode_eq_walkPath, ← FindNode_eq_walkPath] at h
    cases h1 : FindNode (assignAt v (Split key '.') root) p <;>
      cases h2 : FindNode root p <;> rw [h1, h2] at h <;> simp at h
    · simp only [h]

/-- Witness of C19 on the example tree: after `Set("typed.b", "set")` the key "testint"
still gives 1. -/
theorem Set_changes_one_value_witness :
    ∃ root1, Set exampleConfig "typed.b" (.str "set") = .done ({ Node := some root1 }, none) ∧
      OnlyValueAt (.str "set") (Split "typed.b" '.') exampleTree root1 ∧
      (∀ p, (FindNode root1 p).isSome = (FindNode exampleTree p).isSome) ∧
      (∀ p, p ≠ "typed.b" → Get { Node := some root1 } p = Get exampleConfig p) :=
  Set_changes_one_value exampleConfig exampleTree
    (exampleLeaf "B" "b" ⟨"bool", .Bool⟩ (.bool true)) "typed.b" (.str "set") rfl rfl

/-! ### Parsing of tags -/

theorem Index_spec (c : Char) (l : List Char) :
    (Index l c = none → c ∉ l) ∧
    (∀ pos, Index l c = some pos →
      c ∈ l ∧ l.take pos = l.takeWhile (fun x => x ≠ c) ∧
      l.drop (pos + 1) = (l.dropWhile (fun x => x ≠ c)).tail) := by
  induction l with
  | nil =>
    refine ⟨fun _ => by simp, fun pos h => ?_⟩
    simp [Index] at h
  | cons d ds ih =>
    obtain ⟨ih1, ih2⟩ := ih
    by_cases hd : d = c
    · subst hd
      refine ⟨fun h => ?_, fun pos h => ?_⟩
      · simp [Index] at h
      · simp only [Index, if_true, Option.some.injEq] at h
        subst h
        simp
    · refine ⟨fun h => ?_, fun pos h => ?_⟩
      · simp only [Index, hd, if_false, Option.map_eq_none'] at h
        have := ih1 h
        simp only [List.mem_cons, not_or]
        exact ⟨fun h0 => hd h0.symm, this⟩
      · simp only [Index, hd, if_false, Option.map_eq_some'] at h
        obtain ⟨pos1, hpos1, rfl⟩ := h
        obtain ⟨hmem, htake, hdrop⟩ := ih2 pos1 hpos1
        refine ⟨List.mem_cons_of_mem _ hmem, ?_, ?_⟩
        · simp [List.take_succ_cons, List.takeWhile_cons, hd, htake]
        · simp [List.dropWhile_cons, hd, hdrop]

theorem parseTagLoop_step (element : String) (rest : List String) (store : tagStore) :
    parseTagLoop (element :: rest) store =
      if element.data.length = 0 then parseTagLoop rest store
      else
        match Index element.data ':' with
        | none => parseTagLoop rest ((element, "") :: store)
        | some assignPos =>
          parseTagLoop rest
            ((String.mk (element.data.take assignPos),
              String.mk (Trim '"' (element.data.drop (assignPos + 1)))) :: store) := rfl

/-- The entry the loop of `parseTag` stores for a non-empty element is the entry of the
token. -/
theorem parseTagLoop_cons (token : List Char) (rest : List String) (store : tagStore) :
    parseTagLoop (String.mk token :: rest) store =
      if token = [] then parseTagLoop rest store
      else parseTagLoop rest (tokenEntry token :: store) := by
  rw [parseTagLoop_step]
  by_cases ht : token = []
  · subst ht
    simp
  · rw [if_neg ht]
    have hlen : ¬ token.length = 0 := fun h => ht (List.eq_nil_of_length_eq_zero h)
    simp only [hlen, if_false]
    obtain ⟨h1, h2⟩ := Index_spec ':' token
    cases hidx : Index token ':' with
    | none =>
      have hnot : ':' ∉ token := h1 hidx
      have hkey : tokenKey token = token := by
        unfold tokenKey
        rw [List.takeWhile_eq_self_iff]
        intro x hx
        simp only [ne_eq, decide_not, Bool.not_eq_true', decide_eq_false_iff_not]
        rintro rfl
        exact hnot hx
      have hentry : tokenEntry token = (String.mk token, "") := by
        unfold tokenEntry tokenRaw
        rw [if_neg hnot, hkey]
      rw [hentry]
    | some pos =>
      obtain ⟨hmem, htake, hdrop⟩ := h2 pos hidx
      have hentry : tokenEntry token =
          (String.mk (token.take pos), String.mk (Trim '"' (token.drop (pos + 1)))) := by
        unfold tokenEntry tokenRaw tokenKey
        rw [if_pos hmem, htake, hdrop]
      rw [hentry]

theorem parseTagLoop_eq (tokens : List (List Char)) :
    ∀ store : tagStore,
      parseTagLoop (tokens.map String.mk) store =
        ((tokens.filter (fun token => !token.isEmpty)).map tokenEntry).reverse ++ store := by
  induction tokens with
  | nil => intro store; simp [parseTagLoop]
  | cons token rest ih =>
    intro store
    rw [List.map_cons, parseTagLoop_cons]
    by_cases ht : token = []
    · subst ht
      rw [if_pos rfl, ih]
      simp
    · rw [if_neg ht, ih]
      have : (!token.isEmpty) = true := by
        cases token with
        | nil => exact absurd rfl ht
        | cons c cs => rfl
      simp [List.filter_cons, this]

theorem tagStore_Get_reverse (key : String) (entries : List (String × String)) :
    tagStore.Get entries.reverse key = lastValue key entries := rfl

theorem parseTag_store (rt : Runtime) (ft : StructField) :
    (parseTag rt ft).store = ((tagTokens ft.Tag).map tokenEntry).reverse := by
  unfold parseTag tagTokens Split
  simp only
  rw [parseTagLoop_eq, List.append_nil]
  rfl

theorem normalizeEnvKey_empty (rt : Runtime) : normalizeEnvKey rt "" = "" := rfl

/-- The three fields of the parsed tag in terms of the entries of its tokens. -/
theorem parseTag_fields (rt : Runtime) (ft : StructField) :
    (parseTag rt ft).Default = lastValue "default" ((tagTokens ft.Tag).map tokenEntry) ∧
    (parseTag rt ft).Key = lastValue "yaml" ((tagTokens ft.Tag).map tokenEntry) ∧
    (parseTag rt ft).Env =
      normalizeEnvKey rt (lastValue "env" ((tagTokens ft.Tag).map tokenEntry)) := by
  have hstore := parseTag_store rt ft
  have hD : (parseTag rt ft).Default = (parseTag rt ft).store.Get "default" := rfl
  have hK : (parseTag rt ft).Key = (parseTag rt ft).store.Get "yaml" := rfl
  have hE : (parseTag rt ft).Env =
      if (parseTag rt ft).store.Get "env" ≠ "" then
        normalizeEnvKey rt ((parseTag rt ft).store.Get "env") else "" := rfl
  rw [hD, hK, hE, hstore, tagStore_Get_reverse, tagStore_Get_reverse, tagStore_Get_reverse]
  refine ⟨rfl, rfl, ?_⟩
  by_cases he : lastValue "env" ((tagTokens ft.Tag).map tokenEntry) = ""
  · rw [if_neg (fun h => h he), he, normalizeEnvKey_empty]
  · rw [if_pos he]
theorem dropWhile_head_false (p : Char → Bool) (l : List Char) (x : Char) (xs : List Char)
    (h : l.dropWhile p = x :: xs) : p x = false := by
  induction l with
  | nil => cases h
  | cons a rest ih =>
    by_cases ha : p a = true
    · rw [List.dropWhile_cons_of_pos ha] at h
      exact ih h
    · rw [List.dropWhile_cons_of_neg ha] at h
      injection h with h1 _
      rw [← h1]
      simpa using ha

theorem tokenKey_spec (token : List Char) :
    ':' ∉ tokenKey token ∧
    (∀ raw, tokenRaw token = some raw → token = tokenKey token ++ ':' :: raw) ∧
    (tokenRaw token = none → tokenKey token = token) := by
  refine ⟨?_, ?_, ?_⟩
  · intro h
    have := List.mem_takeWhile_imp h
    simp at this
  · intro raw hraw
    unfold tokenRaw at hraw
    split at hraw
    · rename_i hmem
      simp only [Option.some.injEq] at hraw
      subst hraw
      have hsplit := List.takeWhile_append_dropWhile (fun c => decide (c ≠ ':')) token
      cases hd : token.dropWhile (fun c => decide (c ≠ ':')) with
      | nil =>
        rw [List.dropWhile_eq_nil_iff] at hd
        have := hd ':' hmem
        simp at this
      | cons x xs =>
        have hx : x = ':' := by
          have := dropWhile_head_false _ token x xs hd
          simpa using this
        rw [hd] at hsplit
        unfold tokenKey
        rw [List.tail_cons]
        subst hx
        exact hsplit.symm
    · cases hraw
  · intro hraw
    unfold tokenRaw at hraw
    split at hraw
    · cases hraw
    · rename_i hmem
      unfold tokenKey
      rw [List.takeWhile_eq_self_iff]
      intro x hx
      simp only [ne_eq, decide_not, Bool.not_eq_true', decide_eq_false_iff_not]
      rintro rfl
      exact hmem hx

/-- C11. For every annotation, `parseTag` (a total function) sees the tokens between single
spaces, the empty ones skipped, splits each token at its first colon into key and value,
and returns `Default`, `Key` and `Env` as the value stored for the key `default`, for the
key `yaml`, and `normalizeEnvKey` of the value stored for the key `env`; the value stored
for a key is the one of the last token with that key, and the empty string when no token
has the key. -/
theorem parseTag_descriptor (rt : Runtime) (ft : StructField) :
    (List.intercalate [' '] (splitRunes ' ' ft.Tag.data) = ft.Tag.data ∧
      (∀ piece ∈ splitRunes ' ' ft.Tag.data, ' ' ∉ piece) ∧
      ∀ token, token ∈ tagTokens ft.Tag ↔ token ∈ splitRunes ' ' ft.Tag.data ∧ token ≠ []) ∧
    (∀ token, ':' ∉ tokenKey token ∧
      (∀ raw, tokenRaw token = some raw → token = tokenKey token ++ ':' :: raw) ∧
      (tokenRaw token = none → tokenKey token = token)) ∧
    (parseTag rt ft).store = ((tagTokens ft.Tag).map tokenEntry).reverse ∧
    (parseTag rt ft).Default = lastValue "default" ((tagTokens ft.Tag).map tokenEntry) ∧
    (parseTag rt ft).Key = lastValue "yaml" ((tagTokens ft.Tag).map tokenEntry) ∧
    (parseTag rt ft).Env =
      normalizeEnvKey rt (lastValue "env" ((tagTokens ft.Tag).map tokenEntry)) ∧
    (∀ key, (∀ entry ∈ (tagTokens ft.Tag).map tokenEntry, entry.1 ≠ key) →
      lastValue key ((tagTokens ft.Tag).map tokenEntry) = "") := by
  refine ⟨⟨(splitRunes_spec ' ' _).2, (splitRunes_spec ' ' _).1, ?_⟩, tokenKey_spec,
    parseTag_store rt ft, (parseTag_fields rt ft).1, (parseTag_fields rt ft).2.1,
    (parseTag_fields rt ft).2.2, ?_⟩
  · intro token
    unfold tagTokens
    rw [List.mem_filter]
    cases token <;> simp
  · intro key hkey
    unfold lastValue
    have hnone : List.find? (fun entry => decide (entry.1 = key))
        ((tagTokens ft.Tag).map tokenEntry).reverse = none := by
      rw [List.find?_eq_none]
      intro entry hentry
      simpa using hkey entry (List.mem_reverse.1 hentry)
    rw [hnone]

theorem trimLeft_spec (cut : Char) (v : List Char) :
    (∃ a, v = List.replicate a cut ++ trimLeft cut v) ∧
    (trimLeft cut v).head? ≠ some cut := by
  induction v with
  | nil => exact ⟨⟨0, rfl⟩, by simp [trimLeft]⟩
  | cons c cs ih =>
    by_cases hc : c = cut
    · subst hc
      obtain ⟨⟨a, ha⟩, hhead⟩ := ih
      refine ⟨⟨a + 1, ?_⟩, ?_⟩
      · simp only [trimLeft, if_true, List.replicate_succ, List.cons_append]
        rw [← ha]
      · simpa [trimLeft] using hhead
    · refine ⟨⟨0, by simp [trimLeft, hc]⟩, ?_⟩
      simp [trimLeft, hc]

/-- What `strings.Trim` with a one character cutset returns: the text between all the
leading and all the trailing occurrences of the character. -/
theorem Trim_spec (cut : Char) (v : List Char) :
    (∃ a b, v = List.replicate a cut ++ Trim cut v ++ List.replicate b cut) ∧
    (Trim cut v).head? ≠ some cut ∧ (Trim cut v).getLast? ≠ some cut := by
  obtain ⟨⟨a, ha⟩, h1⟩ := trimLeft_spec cut v
  obtain ⟨⟨b, hb⟩, h2⟩ := trimLeft_spec cut (trimLeft cut v).reverse
  have hrev : trimLeft cut v = Trim cut v ++ List.replicate b cut := by
    have := congrArg List.reverse hb
    rw [List.reverse_reverse, List.reverse_append, List.reverse_replicate] at this
    exact this
  refine ⟨⟨a, b, ?_⟩, ?_, ?_⟩
  · rw [List.append_assoc, ← hrev]
    exact ha
  · cases ht : Trim cut v with
    | nil => simp
    | cons x xs =>
      rw [hrev, ht] at h1
      simpa using h1
  · unfold Trim
    rw [List.getLast?_reverse]
    exact h2

theorem tokenEntry_of_colon (key value : List Char) (hkey : ':' ∉ key) :
    tokenEntry (key ++ ':' :: value) = (String.mk key, String.mk (Trim '"' value)) := by
  have htake : (key ++ ':' :: value).takeWhile (fun c => decide (c ≠ ':')) = key := by
    induction key with
    | nil => simp
    | cons k ks ih =>
      have hk : k ≠ ':' := fun h => hkey (h ▸ List.mem_cons_self _ _)
      rw [List.cons_append, List.takeWhile_cons_of_pos (by simpa using hk),
        ih (fun h => hkey (List.mem_cons_of_mem _ h))]
  have hdrop : (key ++ ':' :: value).dropWhile (fun c => decide (c ≠ ':')) = ':' :: value := by
    clear htake
    induction key with
    | nil => simp
    | cons k ks ih =>
      have hk : k ≠ ':' := fun h => hkey (h ▸ List.mem_cons_self _ _)
      rw [List.cons_append, List.dropWhile_cons_of_pos (by simpa using hk),
        ih (fun h => hkey (List.mem_cons_of_mem _ h))]
  unfold tokenEntry tokenKey tokenRaw
  rw [if_pos (by simp), htake, hdrop]
  rfl

theorem lastValue_of_last (key : String) (value : String)
    (before after : List (String × String))
    (hafter : ∀ entry ∈ after, entry.1 ≠ key) :
    lastValue key (before ++ (key, value) :: after) = value := by
  unfold lastValue
  rw [List.reverse_append, List.reverse_cons, List.append_assoc, List.find?_append]
  have hnone : List.find? (fun entry => decide (entry.1 = key)) after.reverse = none := by
    rw [List.find?_eq_none]
    intro entry hentry
    simpa using hafter entry (List.mem_reverse.1 hentry)
  rw [hnone]
  simp

/-- C12, as the code has it. For a token `key:VALUE` (no colon in `key`) that is the last
token of the annotation with that key, the value `parseTag` stores for `key` is `VALUE`
with all its leading and all its trailing quote characters removed: `VALUE` is that value
between two runs of quote characters, and the value neither starts nor ends with a quote
character. The quote characters between other characters are left as they are. -/
theorem parseTag_trims_quotes (rt : Runtime) (ft : StructField) (key value : List Char)
    (before after : List (List Char))
    (htokens : tagTokens ft.Tag = before ++ (key ++ ':' :: value) :: after)
    (hkey : ':' ∉ key) (hlast : ∀ token ∈ after, tokenKey token ≠ key) :
    (parseTag rt ft).store.Get (String.mk key) = String.mk (Trim '"' value) ∧
    (∃ a b, value = List.replicate a '"' ++ Trim '"' value ++ List.replicate b '"') ∧
    (Trim '"' value).head? ≠ some '"' ∧ (Trim '"' value).getLast? ≠ some '"' := by
  refine ⟨?_, (Trim_spec '"' value).1, (Trim_spec '"' value).2⟩
  rw [parseTag_store, tagStore_Get_reverse, htokens, List.map_append, List.map_cons,
    tokenEntry_of_colon key value hkey]
  apply lastValue_of_last
  intro entry hentry
  obtain ⟨token, htoken, rfl⟩ := List.mem_map.1 hentry
  intro h
  apply hlast token htoken
  have := congrArg String.data h
  exact this

/-- Witness of C12 on the annotation `default:"1"`: the stored value is `1`. -/
theorem parseTag_trims_quotes_witness :
    (parseTag exampleRuntime (exampleField "DefI" "default:\"1\"" ⟨"int", .Int⟩)).store.Get
      "default" = "1" :=
  (parseTag_trims_quotes exampleRuntime (exampleField "DefI" "default:\"1\"" ⟨"int", .Int⟩)
    "default".data "\"1\"".data [] [] (by decide) (by decide)
    (fun _ h => absurd h (List.not_mem_nil _))).1

/-- C12 as stated fails: for the field tagged `default:"\"hi\""` the value after the colon
starts with one quote and ends with two; with exactly one leading and one trailing quote
removed it would end with a quote, and `parseTag` stores it without any quote at the end. -/
theorem parseTag_trims_every_quote :
    tagTokens quotedDefaultField.Tag = ["default:\"\\\"hi\\\"\"".data] ∧
    (parseTag exampleRuntime quotedDefaultField).Default = "\\\"hi\\" ∧
    String.mk (statedStrip "\"\\\"hi\\\"\"".data) = "\\\"hi\\\"" ∧
    ("\\\"hi\\" : String) ≠ "\\\"hi\\\"" := by
  decide

/-! ### The default rule -/

/-- C13, as the code has it. For a leaf of kind string, int, float64 or bool whose document
value has that type, with `W` the value of the environment/document step: when the default
of the tag is not empty and `W` is the zero value of its kind, `setValue` converts the
default, stores the result when the conversion succeeds, and returns the error and stores
nothing when it fails; in every other case `W` is stored unchanged. -/
theorem setValue_default_rule (rt : Runtime) (n : Node) (typ : GoType) (tag : Tag)
    (V W : Value) (hTyp : n.Typ = some typ) (hTag : n.Tag = some tag)
    (hkind : typ.Kind = .String ∨ typ.Kind = .Int ∨ typ.Kind = .Float64 ∨ typ.Kind = .Bool)
    (hV : V.hasKind typ.Kind = true)
    (hW : ((tag.Env ≠ "" ∧ rt.Getenv tag.Env ≠ "") ∧
            getTypedValue rt (rt.Getenv tag.Env) typ.Kind = (W, none)) ∨
          (¬ (tag.Env ≠ "" ∧ rt.Getenv tag.Env ≠ "") ∧ W = V)) :
    (tag.Default ≠ "" ∧ W.isZero = true →
      ((getTypedValue rt tag.Default typ.Kind).2 = none →
        setValue rt n V =
          .done (n.setValueField (getTypedValue rt tag.Default typ.Kind).1, none)) ∧
      (∀ err, (getTypedValue rt tag.Default typ.Kind).2 = some err →
        setValue rt n V = .done (n, some err))) ∧
    (¬ (tag.Default ≠ "" ∧ W.isZero = true) →
      setValue rt n V = .done (n.setValueField W, none)) := by
  have hWkind : W.hasKind typ.Kind = true := by
    rcases hW with ⟨_, hconv⟩ | ⟨_, rfl⟩
    · have h := getTypedValue_hasKind rt (rt.Getenv tag.Env) typ.Kind hkind (by rw [hconv])
      rw [hconv] at h
      exact h
    · exact hV
  rw [setValue_from_step rt n typ tag V W hTyp hTag hW]
  refine ⟨fun hcond => ?_, fun hcond => ?_⟩
  · rw [setValueDefault_default rt n typ tag W hTyp hWkind hcond.2 hcond.1]
    rcases hconv : getTypedValue rt tag.Default typ.Kind with ⟨v, err⟩
    refine ⟨fun hok => ?_, fun e he => ?_⟩
    · simp only at hok
      subst hok
      rfl
    · simp only at he
      subst he
      rfl
  · apply setValueDefault_keep rt n typ tag W hTyp hWkind
    by_cases hz : W.isZero = true
    · right
      by_contra hD
      exact hcond ⟨hD, hz⟩
    · left
      simpa using hz

/-- Witness of C13 with fields of `TestLoad`: the default "1" is stored for the zero
document value of `DefI`, and the document value 10 of `I`, which has no default, is stored
unchanged. -/
theorem setValue_default_rule_witness :
    setValue exampleRuntime
        (.mk "DefI" "" [] (some ⟨"int", .Int⟩) .nil (some defaultOneTag)) (.int 0) =
      .done (.mk "DefI" "" [] (some ⟨"int", .Int⟩) (.int 1) (some defaultOneTag), none) ∧
    setValue exampleRuntime (.mk "I" "" [] (some ⟨"int", .Int⟩) .nil (some emptyTag)) (.int 10) =
      .done (.mk "I" "" [] (some ⟨"int", .Int⟩) (.int 10) (some emptyTag), none) :=
  ⟨((setValue_default_rule exampleRuntime
      (.mk "DefI" "" [] (some ⟨"int", .Int⟩) .nil (some defaultOneTag))
      ⟨"int", .Int⟩ defaultOneTag (.int 0) (.int 0) rfl rfl (Or.inr (Or.inl rfl)) rfl
      (Or.inr ⟨by decide, rfl⟩)).1 ⟨by decide, rfl⟩).1 rfl,
   (setValue_default_rule exampleRuntime
      (.mk "I" "" [] (some ⟨"int", .Int⟩) .nil (some emptyTag))
      ⟨"int", .Int⟩ emptyTag (.int 10) (.int 10) rfl rfl (Or.inr (Or.inl rfl)) rfl
      (Or.inr ⟨by decide, rfl⟩)).2 (by decide)⟩

/-- C13 as stated fails: for a field `DefI int` tagged `default:"abc"` with the zero
document value, the default is not empty and the value of the document step is zero, but
`setValue` stores neither the default nor the document value: it returns the error of the
conversion and leaves the node as it was, and `Get("defi")` after `Load` returns nil. -/
theorem setValue_default_not_stored :
    (badDefaultTag.Default ≠ "" ∧ (Value.int 0).isZero = true) ∧
    setValue exampleRuntime
        (.mk "DefI" "" [] (some ⟨"int", .Int⟩) .nil (some badDefaultTag)) (.int 0) =
      .done (.mk "DefI" "" [] (some ⟨"int", .Int⟩) .nil (some badDefaultTag),
        some (.numError "ParseInt" "abc" .ErrSyntax)) ∧
    loadThenGet exampleRuntime (.structPointer "*struct { DefI int }" badDefaultFields)
      "{}" "defi" = some (.done .nil) :=
  ⟨⟨by decide, rfl⟩, rfl, by decide⟩

/-! ### Shape of the built tree -/

theorem ShapeFollows_cons (ft : StructField) (fv : RValue) (rest : RFields)
    (nodes : List Node) :
    ShapeFollows (.cons ft fv rest) nodes ↔
      ∃ node others, nodes = node :: others ∧ node.Name = ft.Name ∧
        (match fv with
          | .struct fields =>
            (ft.Typ.Kind = .Struct → node.Value = .nil ∧ ShapeFollows fields node.Children) ∧
            (ft.Typ.Kind ≠ .Struct → node.Children = [])
          | .iface _ => node.Children = []) ∧
        ShapeFollows rest others := by
  cases fv <;> rfl

theorem ShapeFollows_length :
    ∀ (fields : RFields) (nodes : List Node),
      ShapeFollows fields nodes → nodes.length = fields.NumField
  | .nil, nodes, h => by
    have h0 : nodes = [] := h
    rw [h0]
    rfl
  | .cons ft fv rest, nodes, h => by
    rw [ShapeFollows_cons] at h
    obtain ⟨node, others, rfl, _, _, hrest⟩ := h
    simp only [List.length_cons, RFields.NumField]
    rw [ShapeFollows_length rest others hrest]

/-- The node `setValue` returns is the node it was given, with another value at most. -/
theorem setValue_result (rt : Runtime) (n n1 : Node) (ivalue : Value) (err : Option GoError)
    (h : setValue rt n ivalue = .done (n1, err)) :
    n1 = n ∨ ∃ w, n1 = n.setValueField w := by
  have hdefault : ∀ (tag : Tag) (W : Value),
      setValueDefault rt n tag W = .done (n1, err) → n1 = n ∨ ∃ w, n1 = n.setValueField w := by
    intro tag W hd
    unfold setValueDefault at hd
    split at hd
    · cases hd
    · split at hd
      · split at hd
        · cases hd
        · simp only [Run.done.injEq, Prod.mk.injEq] at hd
          exact Or.inl hd.1.symm
        · simp only [Run.done.injEq, Prod.mk.injEq] at hd
          exact Or.inr ⟨_, hd.1.symm⟩
      · simp only [Run.done.injEq, Prod.mk.injEq] at hd
        exact Or.inr ⟨_, hd.1.symm⟩
  unfold setValue at h
  split at h
  · cases h
  · split at h
    · split at h
      · cases h
      · simp only [Run.done.injEq, Prod.mk.injEq] at h
        exact Or.inl h.1.symm
      · exact hdefault _ _ h
    · exact hdefault _ _ h

theorem Node.Name_setValueField (n : Node) (v : Goconf.Value) :
    (n.setValueField v).Name = n.Name := by
  cases n; rfl

theorem Node.Name_setKey (n : Node) (key : String) : (n.setKey key).Name = n.Name := by
  cases n; rfl

theorem Node.Value_setKey (n : Node) (key : String) : (n.setKey key).Value = n.Value := by
  cases n; rfl

theorem buildNodeLoop_shape (rt : Runtime) :
    ∀ (fields : RFields) (iv : StructValue) (parent result : Node),
      buildNodeLoop rt iv parent fields = .done result →
      ∃ nodes, result = parent.setChildren (parent.Children ++ nodes) ∧
        ShapeFollows fields nodes
  | .nil, iv, parent, result, h => by
    have h0 : buildNodeLoop rt iv parent .nil = .done parent := rfl
    rw [h0] at h
    cases h
    refine ⟨[], ?_, rfl⟩
    cases parent
    simp [Node.setChildren, Node.Children]
  | .cons ft fv rest, iv, parent, result, h => by
    rw [buildNodeLoop_cons] at h
    split at h
    · cases h
    · rename_i node1 hbuilt
      obtain ⟨others, hresult, hothers⟩ := buildNodeLoop_shape rt rest iv _ result h
      refine ⟨node1.setKey (nodeKey rt (parseTag rt ft) ft.Name) :: others, ?_, ?_⟩
      · rw [hresult]
        cases parent
        simp [Node.setChildren, Node.Children]
      · rw [ShapeFollows_cons]
        by_cases hstruct : ft.Typ.Kind = .Struct
        · rw [if_pos hstruct] at hbuilt
          cases fv with
          | iface v => cases hbuilt
          | struct fields =>
            simp only at hbuilt
            obtain ⟨nodes1, hnode1, hshape1⟩ := buildNodeLoop_shape rt fields _ _ node1 hbuilt
            refine ⟨_, _, rfl, ?_, ⟨fun _ => ⟨?_, ?_⟩, fun h0 => absurd hstruct h0⟩, hothers⟩
            · rw [Node.Name_setKey, hnode1]; rfl
            · rw [Node.Value_setKey, hnode1]; rfl
            · rw [Node.Children_setKey, hnode1]
              simpa [Node.setChildren, Node.Children] using hshape1
        · rw [if_neg hstruct] at hbuilt
          have hleaf : node1.Name = ft.Name ∧ node1.Children = [] := by
            split at hbuilt
            · cases hbuilt
            · split at hbuilt
              · cases hbuilt
              · rename_i ivalue _ node2 err hset
                simp only [Run.done.injEq] at hbuilt
                subst hbuilt
                rcases setValue_result rt _ _ _ _ hset with h1 | ⟨w, h1⟩
                · rw [h1]; exact ⟨rfl, rfl⟩
                · rw [h1]; exact ⟨rfl, rfl⟩
          refine ⟨_, _, rfl, by rw [Node.Name_setKey]; exact hleaf.1, ?_, hothers⟩
          cases fv with
          | iface v => simpa using hleaf.2
          | struct fields =>
            exact ⟨fun h0 => absurd h0 hstruct, fun _ => by simpa using hleaf.2⟩
theorem PanicFree_cons (iv : StructValue) (ft : StructField) (fv : RValue) (rest : RFields) :
    PanicFree iv (.cons ft fv rest) ↔
      (match fv with
        | .struct fields =>
          if ft.Typ.Kind = .Struct then
            PanicFree
              { fields := fields
                stickyRO := iv.stickyRO || (decide (ft.PkgPath ≠ "") && !ft.Anonymous) }
              fields
          else
            ∃ ivalue, fieldInterface iv ft.Name = .done ivalue ∧ AssertionHolds ft.Typ ivalue
        | .iface _ =>
          ft.Typ.Kind ≠ .Struct ∧
          ∃ ivalue, fieldInterface iv ft.Name = .done ivalue ∧ AssertionHolds ft.Typ ivalue) ∧
      PanicFree iv rest := by
  cases fv <;> rfl

theorem needDefault_total (typ : GoType) (ivalue : Value) (h : AssertionHolds typ ivalue) :
    ∃ need, needDefault (some typ) ivalue = .done need := by
  obtain ⟨name, kind⟩ := typ
  rcases h with h | h | h
  · subst h
    exact ⟨true, rfl⟩
  · obtain ⟨h1, h2, h3, h4⟩ := h
    cases ivalue <;> cases kind <;>
      first
      | exact ⟨_, rfl⟩
      | exact absurd rfl h1
      | exact absurd rfl h2
      | exact absurd rfl h3
      | exact absurd rfl h4
  · exact ⟨_, needDefault_of_hasKind _ _ h⟩

theorem getTypedValue_ok_kind (rt : Runtime) (source : String) (kind : Kind)
    (hok : (getTypedValue rt source kind).2 = none) :
    kind = .String ∨ kind = .Int ∨ kind = .Float64 ∨ kind = .Bool := by
  cases kind <;>
    first
    | exact Or.inl rfl
    | exact Or.inr (Or.inl rfl)
    | exact Or.inr (Or.inr (Or.inl rfl))
    | exact Or.inr (Or.inr (Or.inr rfl))
    | (simp [getTypedValue] at hok)

theorem setValueDefault_total (rt : Runtime) (n : Node) (typ : GoType) (tag : Tag)
    (W : Value) (hTyp : n.Typ = some typ) (hW : AssertionHolds typ W) :
    ∃ r, setValueDefault rt n tag W = .done r := by
  obtain ⟨need, hneed⟩ := needDefault_total typ W hW
  unfold setValueDefault
  rw [hTyp, hneed]
  simp only
  split
  · unfold convertFor
    simp only
    rcases getTypedValue rt tag.Default typ.Kind with ⟨v, err⟩
    cases err <;> exact ⟨_, rfl⟩
  · exact ⟨_, rfl⟩

/-- On a node with a tag and a type, `setValue` returns for every value that passes the
type assertion, whatever the environment and the default are. -/
theorem setValue_total (rt : Runtime) (n : Node) (typ : GoType) (tag : Tag) (ivalue : Value)
    (hTyp : n.Typ = some typ) (hTag : n.Tag = some tag) (hV : AssertionHolds typ ivalue) :
    ∃ r, setValue rt n ivalue = .done r := by
  by_cases henv : tag.Env ≠ "" ∧ rt.Getenv tag.Env ≠ ""
  · rw [setValue_env rt n typ tag ivalue hTyp hTag henv]
    rcases hconv : getTypedValue rt (rt.Getenv tag.Env) typ.Kind with ⟨v, err⟩
    cases err with
    | some e => exact ⟨_, rfl⟩
    | none =>
      simp only
      apply setValueDefault_total rt n typ tag v hTyp
      have hkind := getTypedValue_ok_kind rt (rt.Getenv tag.Env) typ.Kind (by rw [hconv])
      have := getTypedValue_hasKind rt (rt.Getenv tag.Env) typ.Kind hkind (by rw [hconv])
      rw [hconv] at this
      exact Or.inr (Or.inr this)
  · rw [setValue_no_env rt n tag ivalue hTag henv]
    exact setValueDefault_total rt n typ tag ivalue hTyp hV

/-- On a struct that gives no occasion to panic, `buildNode` returns. -/
theorem buildNodeLoop_total (rt : Runtime) :
    ∀ (fields : RFields) (iv : StructValue) (parent : Node),
      PanicFree iv fields → ∃ result, buildNodeLoop rt iv parent fields = .done result
  | .nil, iv, parent, _ => ⟨parent, rfl⟩
  | .cons ft fv rest, iv, parent, h => by
    rw [PanicFree_cons] at h
    obtain ⟨hfield, hrest⟩ := h
    rw [buildNodeLoop_cons]
    have hleaf : ft.Typ.Kind ≠ .Struct →
        (∃ ivalue, fieldInterface iv ft.Name = .done ivalue ∧
          AssertionHolds ft.Typ ivalue) →
        ∃ result, buildNodeLoop rt iv parent (.cons ft fv rest) = .done result := by
      rintro hstruct ⟨ivalue, hiface, hassert⟩
      obtain ⟨⟨node1, err⟩, hset⟩ := setValue_total rt
        (Node.mk ft.Name "" [] (some ft.Typ) .nil (some (parseTag rt ft))) ft.Typ
        (parseTag rt ft) ivalue rfl rfl hassert
      rw [buildNodeLoop_cons, if_neg hstruct, hiface]
      simp only
      rw [hset]
      exact buildNodeLoop_total rt rest iv _ hrest
    rw [← buildNodeLoop_cons]
    cases fv with
    | iface v =>
      simp only at hfield
      exact hleaf hfield.1 hfield.2
    | struct fields =>
      simp only at hfield
      by_cases hstruct : ft.Typ.Kind = .Struct
      · rw [if_pos hstruct] at hfield
        obtain ⟨node1, hnode1⟩ := buildNodeLoop_total rt fields
          { fields := fields
            stickyRO := iv.stickyRO || (decide (ft.PkgPath ≠ "") && !ft.Anonymous) }
          (Node.mk ft.Name "" [] (some ft.Typ) .nil (some (parseTag rt ft))) hfield
        rw [buildNodeLoop_cons, if_pos hstruct]
        simp only
        rw [hnode1]
        exact buildNodeLoop_total rt rest iv _ hrest
      · rw [if_neg hstruct] at hfield
        exact hleaf hstruct hfield

/-- When `buildNode` returns, the parent has one more child per field of the struct, in the
order of the fields and with the names of the fields; a struct-typed field gives a node
without value whose children are built in the same way from the nested struct, and any
other field a node without children. -/
theorem buildNode_shape (rt : Runtime) (parent result : Node) (iv : StructValue)
    (hbuild : buildNode rt parent iv = .done result) :
    ∃ nodes, result = parent.setChildren (parent.Children ++ nodes) ∧
      nodes.length = iv.fields.NumField ∧ ShapeFollows iv.fields nodes := by
  obtain ⟨nodes, hresult, hshape⟩ := buildNodeLoop_shape rt iv.fields iv parent result hbuild
  exact ⟨nodes, hresult, ShapeFollows_length _ _ hshape, hshape⟩

/-- On a struct that gives no occasion to panic, `buildNode` returns. -/
theorem buildNode_total (rt : Runtime) (parent : Node) (iv : StructValue)
    (hfree : PanicFree iv iv.fields) : ∃ result, buildNode rt parent iv = .done result :=
  buildNodeLoop_total rt iv.fields iv parent hfree

/-- The grammar of `TestLoad` gives `buildNode` no occasion to panic. -/
theorem exampleFields_panic_free :
    PanicFree { fields := exampleFields, stickyRO := false } exampleFields :=
  ⟨⟨by decide, _, rfl, Or.inr (Or.inr rfl)⟩,
   ⟨by decide, _, rfl, Or.inr (Or.inr rfl)⟩,
   ⟨⟨by decide, _, rfl, Or.inr (Or.inr rfl)⟩, ⟨by decide, _, rfl, Or.inr (Or.inr rfl)⟩,
     trivial⟩,
   ⟨⟨by decide, _, rfl, Or.inr (Or.inr rfl)⟩, ⟨by decide, _, rfl, Or.inr (Or.inr rfl)⟩,
     ⟨by decide, _, rfl, Or.inr (Or.inr rfl)⟩, ⟨by decide, _, rfl, Or.inr (Or.inr rfl)⟩,
     trivial⟩,
   ⟨⟨by decide, _, rfl, Or.inr (Or.inr rfl)⟩, trivial⟩,
   trivial⟩

/-- C17 at a failing input. For the struct `struct { Host string; secret string }`,
`buildNode` does not append two children to the root: the call of `Interface()` on the
field that is not exported panics. -/
theorem buildNode_panics_on_unexported_field :
    buildNode exampleRuntime exampleRootNode { fields := unexportedFields, stickyRO := false } =
      .panicked
        "reflect.Value.Interface: cannot return value obtained from unexported field or method" :=
  rfl

/-! ### What Load returns -/

/-- When the grammar is a pointer to a struct, the decoder reports no error and the decoded
struct gives no occasion to panic, `Load` returns a configuration whose root is named
"Application", and a nil error, whatever the environment and the declared defaults are. -/
theorem Load_returns_when_panic_free (rt : Runtime) (typ source : String)
    (fields decoded : RFields)
    (hdecode : rt.Decode source (.structPointer typ fields) = .done (decoded, none))
    (hfree : PanicFree { fields := decoded, stickyRO := false } decoded) :
    ∃ root, Load rt (.structPointer typ fields) source =
        .done (some { Node := some root }, none) ∧ root.Name = "Application" := by
  obtain ⟨root, hroot⟩ := buildNode_total rt (.mk "Application" "" [] none .nil none)
    { fields := decoded, stickyRO := false } hfree
  refine ⟨root, ?_, ?_⟩
  · unfold Load
    rw [hdecode]
    simp only
    rw [if_neg (by simp [Grammar.Kind, Grammar.IndirectKind])]
    rw [hroot]
  · obtain ⟨nodes, hresult, _⟩ := buildNode_shape rt _ root _ hroot
    rw [hresult]
    rfl

/-- C14 at a failing input. For a pointer to `struct { Host string; secret string }` and the
document `host: a`, which the decoder accepts, `Load` returns neither a configuration nor an
error: the call of `Interface()` on the field that is not exported panics. -/
theorem Load_panics_on_unexported_field :
    exampleRuntime.Decode "host: a"
        (.structPointer "*struct { Host string; secret string }" unexportedFields) =
      .done (unexportedFields, none) ∧
    Load exampleRuntime
        (.structPointer "*struct { Host string; secret string }" unexportedFields) "host: a" =
      .panicked
        "reflect.Value.Interface: cannot return value obtained from unexported field or method" :=
  ⟨rfl, rfl⟩

/-- The configuration `Load` returns with a nil error has a root node. -/
theorem Load_ok_has_root (rt : Runtime) (grammar : Grammar) (source : String)
    (c : Configuration) (hload : Load rt grammar source = .done (some c, none)) :
    ∃ root, c.Node = some root := by
  unfold Load at hload
  split at hload
  · cases hload
  · simp only [Run.done.injEq, Prod.mk.injEq] at hload
    exact absurd hload.2 (by simp)
  · split at hload
    · simp only [Run.done.injEq, Prod.mk.injEq] at hload
      exact absurd hload.2 (by simp)
    · split at hload
      · split at hload
        · cases hload
        · simp only [Run.done.injEq, Prod.mk.injEq, Option.some.injEq] at hload
          rw [← hload.1]
          exact ⟨_, rfl⟩
      · cases hload

/-- C16, as the code has it. For every configuration `Load` returns together with a nil
error and every key, `Get`, `GetString`, `GetInt`, `GetFloat64` and `GetBool` return a
result: the value of the node, nil, or the zero value. -/
theorem Get_family_returns_after_Load (rt : Runtime) (grammar : Grammar) (source : String)
    (c : Configuration) (key : String)
    (hload : Load rt grammar source = .done (some c, none)) :
    ∃ v, Get c key = .done v ∧
      GetString c key = .done (assertString v) ∧ GetInt c key = .done (assertInt v) ∧
      GetFloat64 c key = .done (assertFloat64 v) ∧ GetBool c key = .done (assertBool v) := by
  obtain ⟨root, hroot⟩ := Load_ok_has_root rt grammar source c hload
  have hget := Get_of_root c root key hroot
  exact ⟨_, hget, typed_getters_of_Get c key _ hget⟩

/-- Witness of C16 on the grammar of `TestLoad`. -/
theorem Get_family_returns_after_Load_witness :
    ∃ v, Get { Node := some exampleBuilt } "typed.defi" = .done v ∧
      GetString { Node := some exampleBuilt } "typed.defi" = .done (assertString v) ∧
      GetInt { Node := some exampleBuilt } "typed.defi" = .done (assertInt v) ∧
      GetFloat64 { Node := some exampleBuilt } "typed.defi" = .done (assertFloat64 v) ∧
      GetBool { Node := some exampleBuilt } "typed.defi" = .done (assertBool v) :=
  Get_family_returns_after_Load exampleRuntime
    (.structPointer "*struct { Test string }" exampleFields) "test: test_value"
    { Node := some exampleBuilt } "typed.defi" rfl

/-- C16 as stated fails: for a pointer to a struct and an empty source, `Load` returns the
error of the decoder together with a configuration whose root is nil, and `Get` and the
typed getters on that configuration panic on the nil root. -/
theorem Get_panics_after_decode_error :
    Load exampleRuntime (.structPointer "*struct { Test string }" exampleFields) "" =
      .done (some { Node := none }, some (.decode "EOF")) ∧
    Get { Node := none } "test" =
      .panicked "invalid memory address or nil pointer dereference" ∧
    GetString { Node := none } "test" =
      .panicked "invalid memory address or nil pointer dereference" :=
  ⟨rfl, rfl, rfl⟩

/-! ### Keys among siblings -/

theorem KeysFollow_map (key : StructField → String) :
    ∀ (fields : RFields) (nodes : List Node), KeysFollow key fields nodes →
      nodes.map Node.Key = fields.toList.map (fun field => key field.1)
  | .nil, nodes, h => by
    have h0 : nodes = [] := h
    rw [h0]
    rfl
  | .cons ft fv rest, nodes, h => by
    rw [KeysFollow_cons] at h
    obtain ⟨node, others, rfl, hkey, _, hrest⟩ := h
    simp only [List.map_cons, RFields.toList, hkey]
    rw [KeysFollow_map key rest others hrest]

/-- C15, as the code has it. When `buildNode` returns, the keys of the nodes it appended
are, in order, the keys computed for the fields of the struct (the `yaml` value of the tag,
or the normalized name), and so at every depth; hence no two of these children have the
same key exactly when no two fields of the struct have the same computed key. -/
theorem buildNode_sibling_keys (rt : Runtime) (parent result : Node) (iv : StructValue)
    (hbuild : buildNode rt parent iv = .done result) :
    ∃ nodes, result.Children = parent.Children ++ nodes ∧
      KeysFollow (fun ft => nodeKey rt (parseTag rt ft) ft.Name) iv.fields nodes ∧
      nodes.map Node.Key =
        iv.fields.toList.map (fun field => nodeKey rt (parseTag rt field.1) field.1.Name) ∧
      ((nodes.map Node.Key).Nodup ↔
        (iv.fields.toList.map
          (fun field => nodeKey rt (parseTag rt field.1) field.1.Name)).Nodup) := by
  obtain ⟨nodes, hchildren, hkeys⟩ := buildNodeLoop_keys rt iv.fields iv parent result hbuild
  have hmap := KeysFollow_map _ iv.fields nodes hkeys
  exact ⟨nodes, hchildren, hkeys, hmap, by rw [hmap]⟩

/-- Witness of C15 on the grammar of `TestLoad`: the keys under the root are pairwise
distinct. -/
theorem buildNode_sibling_keys_witness :
    (∃ nodes, exampleBuilt.Children = exampleRootNode.Children ++ nodes ∧
      KeysFollow (fun ft => nodeKey exampleRuntime (parseTag exampleRuntime ft) ft.Name)
        exampleFields nodes ∧
      nodes.map Node.Key =
        exampleFields.toList.map
          (fun field => nodeKey exampleRuntime (parseTag exampleRuntime field.1) field.1.Name) ∧
      ((nodes.map Node.Key).Nodup ↔
        (exampleFields.toList.map
          (fun field =>
            nodeKey exampleRuntime (parseTag exampleRuntime field.1) field.1.Name)).Nodup)) ∧
    (exampleBuilt.Children.map Node.Key).Nodup :=
  ⟨buildNode_sibling_keys exampleRuntime exampleRootNode exampleBuilt
      { fields := exampleFields, stickyRO := false } rfl,
   by decide⟩

/-- C15 as stated fails: for a pointer to `struct { Name string; name struct{} }` and the
document `name: x`, `Load` returns a tree in which the two children of the root both have
the key "name". -/
theorem Load_builds_equal_sibling_keys :
    (loadRoot exampleRuntime
        (.structPointer "*struct { Name string; name struct {} }" sameKeyFields)
        "name: x").map (fun root => root.Children.map Node.Key) = some ["name", "name"] ∧
    ¬ (["name", "name"] : List String).Nodup := by
  decide

/-! ### Integer conversion -/

theorem digitsValueFrom_cons (start : Nat) (c : Char) (cs : List Char) :
    digitsValueFrom start (c :: cs) = digitsValueFrom (start * 10 + (c.toNat - 48)) cs := rfl

theorem le_digitsValueFrom (cs : List Char) : ∀ start, start ≤ digitsValueFrom start cs := by
  induction cs with
  | nil => intro start; exact Nat.le_refl _
  | cons c cs ih =>
    intro start
    rw [digitsValueFrom_cons]
    have := ih (start * 10 + (c.toNat - 48))
    omega

theorem isDigit_iff (c : Char) : isDigit c = true ↔ 48 ≤ c.toNat ∧ c.toNat ≤ 57 := by
  obtain ⟨_, _, h0, h9, _, _⟩ := asciiCodes
  simp [isDigit, h0, h9]

theorem parseUintLoop_cons (maxVal n : Nat) (c : Char) (cs : List Char) :
    parseUintLoop maxVal n (c :: cs) =
      if 48 ≤ c.toNat ∧ c.toNat ≤ 57 then
        if n ≥ 1844674407370955162 then (maxVal, some .ErrRange)
        else if (n * 10 % 18446744073709551616 + (c.toNat - 48)) % 18446744073709551616
              < n * 10 % 18446744073709551616 ∨
            (n * 10 % 18446744073709551616 + (c.toNat - 48)) % 18446744073709551616 > maxVal
          then (maxVal, some .ErrRange)
        else parseUintLoop maxVal
          ((n * 10 % 18446744073709551616 + (c.toNat - 48)) % 18446744073709551616) cs
      else (0, some .ErrSyntax) := rfl

/-- The digit loop accepts a text of digits whose value is at most `maxVal`. -/
theorem parseUintLoop_ok (maxVal : Nat) (hmax : maxVal < 18446744073709551616)
    (cs : List Char) :
    ∀ n, (∀ c ∈ cs, isDigit c = true) → digitsValueFrom n cs ≤ maxVal →
      parseUintLoop maxVal n cs = (digitsValueFrom n cs, none) := by
  induction cs with
  | nil => intro n _ _; rfl
  | cons c cs ih =>
    intro n hdigits hle
    have hc := (isDigit_iff c).1 (hdigits c (List.mem_cons_self _ _))
    rw [digitsValueFrom_cons] at hle ⊢
    have hmono := le_digitsValueFrom cs (n * 10 + (c.toNat - 48))
    rw [parseUintLoop_cons, if_pos hc, if_neg (by omega)]
    have h10 : n * 10 % 18446744073709551616 = n * 10 := Nat.mod_eq_of_lt (by omega)
    have h1 : (n * 10 + (c.toNat - 48)) % 18446744073709551616 = n * 10 + (c.toNat - 48) :=
      Nat.mod_eq_of_lt (by omega)
    rw [h10, h1, if_neg (by omega)]
    exact ih _ (fun x hx => hdigits x (List.mem_cons_of_mem _ hx)) hle

/-- What the digit loop has seen when it returns no error, and the value it returns with
a range error. -/
theorem parseUintLoop_result (maxVal : Nat) (cs : List Char) :
    ∀ n v err, parseUintLoop maxVal n cs = (v, err) →
      (err = none → (∀ c ∈ cs, isDigit c = true) ∧ v = digitsValueFrom n cs ∧
        (cs ≠ [] → v ≤ maxVal)) ∧
      (err = some .ErrRange → v = maxVal) := by
  induction cs with
  | nil =>
    intro n v err h
    simp only [parseUintLoop, Prod.mk.injEq] at h
    obtain ⟨rfl, rfl⟩ := h
    exact ⟨fun _ => ⟨by simp, rfl, fun h => absurd rfl h⟩, fun h => by cases h⟩
  | cons c cs ih =>
    intro n v err h
    rw [parseUintLoop_cons] at h
    split at h
    · rename_i hc
      split at h
      · simp only [Prod.mk.injEq] at h
        obtain ⟨rfl, rfl⟩ := h
        exact ⟨fun h => (by cases h), fun _ => rfl⟩
      · rename_i hcut
        split at h
        · simp only [Prod.mk.injEq] at h
          obtain ⟨rfl, rfl⟩ := h
          exact ⟨fun h => (by cases h), fun _ => rfl⟩
        · rename_i hover
          have h10 : n * 10 % 18446744073709551616 = n * 10 := Nat.mod_eq_of_lt (by omega)
          rw [h10] at h hover
          have h1 : (n * 10 + (c.toNat - 48)) % 18446744073709551616
              = n * 10 + (c.toNat - 48) := by
            by_contra hne
            apply hover
            left
            have : n * 10 + (c.toNat - 48) ≥ 18446744073709551616 := by
              by_contra hlt
              exact hne (Nat.mod_eq_of_lt (by omega))
            omega
          rw [h1] at h hover
          obtain ⟨ih1, ih2⟩ := ih _ v err h
          refine ⟨fun hnone => ?_, ih2⟩
          obtain ⟨hd, hv, hle⟩ := ih1 hnone
          refine ⟨?_, ?_, fun _ => ?_⟩
          · intro x hx
            rcases List.mem_cons.1 hx with rfl | hx
            · exact (isDigit_iff x).2 hc
            · exact hd x hx
          · rw [digitsValueFrom_cons]; exact hv
          · by_cases hcs : cs = []
            · subst hcs
              rw [hv]
              simp only [digitsValueFrom, List.foldl_nil]
              omega
            · exact hle hcs
    · simp only [Prod.mk.injEq] at h
      obtain ⟨rfl, rfl⟩ := h
      exact ⟨fun h => (by cases h), fun h => (by cases h)⟩
theorem ParseInt_nil (bits : Nat) (s : String) (hs : s.data = []) :
    ParseInt bits s = (0, some (.numError "ParseInt" s .ErrSyntax)) := by
  unfold ParseInt
  rw [hs]

theorem ParseInt_cons (bits : Nat) (s : String) (c : Char) (cs : List Char)
    (hs : s.data = c :: cs) :
    ParseInt bits s =
      if (ParseUint (if c = '+' ∨ c = '-' then cs else c :: cs) bits).2 = some .ErrSyntax then
        (0, some (.numError "ParseInt" s .ErrSyntax))
      else if decide (c = '-') = false ∧
          (ParseUint (if c = '+' ∨ c = '-' then cs else c :: cs) bits).1 ≥ 2 ^ (bits - 1) then
        (((2 ^ (bits - 1) : Nat) : Int) - 1, some (.numError "ParseInt" s .ErrRange))
      else if decide (c = '-') = true ∧
          (ParseUint (if c = '+' ∨ c = '-' then cs else c :: cs) bits).1 > 2 ^ (bits - 1) then
        (- ((2 ^ (bits - 1) : Nat) : Int), some (.numError "ParseInt" s .ErrRange))
      else
        (if decide (c = '-') = true then
            - ((ParseUint (if c = '+' ∨ c = '-' then cs else c :: cs) bits).1 : Int)
          else ((ParseUint (if c = '+' ∨ c = '-' then cs else c :: cs) bits).1 : Int),
         none) := by
  unfold ParseInt
  rw [hs]

/-- The powers of two the range check of `ParseInt` compares with, for a size of 2 to 64
bits. -/
theorem cutoff_facts (bits : Nat) (hbits : 2 ≤ bits ∧ bits ≤ 64) :
    2 ≤ 2 ^ (bits - 1) ∧ 2 ^ bits = 2 * 2 ^ (bits - 1) ∧ 2 ^ bits ≤ 18446744073709551616 := by
  refine ⟨?_, ?_, ?_⟩
  · calc 2 = 2 ^ 1 := rfl
      _ ≤ 2 ^ (bits - 1) := Nat.pow_le_pow_right (by decide) (by omega)
  · have h : bits = (bits - 1) + 1 := by omega
    conv_lhs => rw [h, Nat.pow_succ]
    omega
  · calc 2 ^ bits ≤ 2 ^ 64 := Nat.pow_le_pow_right (by decide) hbits.2
      _ = 18446744073709551616 := by norm_num

/-- The call of `ParseUint` on one or more digits whose value fits the size. -/
theorem ParseUint_ok (bits : Nat) (hbits : 2 ≤ bits ∧ bits ≤ 64) (digits : List Char)
    (hne : digits ≠ []) (hdigits : ∀ c ∈ digits, isDigit c = true)
    (hle : digitsValue digits ≤ 2 ^ bits - 1) :
    ParseUint digits bits = (digitsValue digits, none) := by
  obtain ⟨_, _, h3⟩ := cutoff_facts bits hbits
  have hpos : 0 < 2 ^ bits := Nat.pow_pos (by decide)
  unfold ParseUint
  rw [if_neg hne]
  exact parseUintLoop_ok _ (by omega) digits 0 hdigits hle

/-- What `ParseUint` has seen when it reports no syntax error. -/
theorem ParseUint_result (bits : Nat) (body : List Char) (v : Nat) (err : Option StrconvErr)
    (h : ParseUint body bits = (v, err)) :
    (err = none → body ≠ [] ∧ (∀ c ∈ body, isDigit c = true) ∧ v = digitsValue body ∧
      v ≤ 2 ^ bits - 1) ∧
    (err = some .ErrRange → v = 2 ^ bits - 1) := by
  unfold ParseUint at h
  split at h
  · simp only [Prod.mk.injEq] at h
    obtain ⟨rfl, rfl⟩ := h
    exact ⟨fun h => (by cases h), fun h => (by cases h)⟩
  · rename_i hne
    obtain ⟨h1, h2⟩ := parseUintLoop_result _ body 0 v err h
    refine ⟨fun hnone => ?_, h2⟩
    obtain ⟨hd, hv, hle⟩ := h1 hnone
    exact ⟨hne, hd, hv, hle hne⟩

theorem digit_ne_sign (c : Char) (hc : isDigit c = true) : ¬ (c = '+' ∨ c = '-') := by
  have h := (isDigit_iff c).1 hc
  rintro (rfl | rfl)
  · have : ('+' : Char).toNat = 43 := rfl
    omega
  · have : ('-' : Char).toNat = 45 := rfl
    omega

/-- The call `ParseInt` on the rendering of an integer in the range of the size. -/
theorem ParseInt_of_decimal (bits : Nat) (hbits : 2 ≤ bits ∧ bits ≤ 64) (s : String)
    (n : Int) (hdec : IsDecimal s.data n) (hrange : InIntRange bits n) :
    ParseInt bits s = (n, none) := by
  obtain ⟨h1, h2, h3⟩ := cutoff_facts bits hbits
  obtain ⟨sign, digits, hs, hne, hdigits, hsign⟩ := hdec
  unfold InIntRange at hrange
  generalize hC : 2 ^ (bits - 1) = C at *
  rcases hsign with ⟨hsg, hn⟩ | ⟨hsg, hn⟩
  · have hv : digitsValue digits < C := by omega
    have hu := ParseUint_ok bits hbits digits hne hdigits (by omega)
    rcases hsg with rfl | rfl
    · cases hd : digits with
      | nil => exact absurd hd hne
      | cons c cs =>
        rw [hd] at hs hu hdigits hv hn
        have hc := digit_ne_sign c (hdigits c (List.mem_cons_self _ _))
        have hminus : ¬ c = '-' := fun h => hc (Or.inr h)
        rw [ParseInt_cons bits s c cs (by simpa using hs), if_neg hc, hu]
        simp only [hC, hminus, decide_False]
        rw [if_neg (by simp), if_neg (by omega), if_neg (by simp)]
        simp [hn]
    · rw [ParseInt_cons bits s '+' digits (by simpa using hs), if_pos (Or.inl rfl), hu]
      simp only [hC]
      rw [if_neg (by simp), if_neg (by intro h; have := h.2; omega),
        if_neg (fun h => absurd h.1 (by decide))]
      simp [hn]
  · subst hsg
    have hv : digitsValue digits ≤ C := by omega
    have hu := ParseUint_ok bits hbits digits hne hdigits (by omega)
    rw [ParseInt_cons bits s '-' digits (by simpa using hs), if_pos (Or.inr rfl), hu]
    simp only [hC]
    rw [if_neg (by simp), if_neg (fun h => absurd h.1 (by decide)),
      if_neg (by intro h; have := h.2; omega)]
    simp [hn]

/-- A text `ParseInt` accepts is the rendering of the integer it returns, and the integer is
in the range of the size. -/
theorem decimal_of_ParseInt (bits : Nat) (hbits : 2 ≤ bits ∧ bits ≤ 64) (s : String)
    (n : Int) (h : ParseInt bits s = (n, none)) :
    IsDecimal s.data n ∧ InIntRange bits n := by
  obtain ⟨h1, h2, h3⟩ := cutoff_facts bits hbits
  cases hs : s.data with
  | nil =>
    rw [ParseInt_nil bits s hs] at h
    simp at h
  | cons c cs =>
    rw [ParseInt_cons bits s c cs hs] at h
    rcases hu : ParseUint (if c = '+' ∨ c = '-' then cs else c :: cs) bits with ⟨v, err⟩
    rw [hu] at h
    obtain ⟨hnone, hrange⟩ := ParseUint_result bits _ v err hu
    unfold InIntRange
    generalize hC : 2 ^ (bits - 1) = C at *
    simp only at h
    split at h
    · simp at h
    · rename_i hsyn
      split at h
      · simp at h
      · rename_i hpos
        split at h
        · simp at h
        · rename_i hneg
          simp only [Prod.mk.injEq, and_true] at h
          have herr : err = none := by
            cases err with
            | none => rfl
            | some e =>
              cases e with
              | ErrSyntax => exact absurd rfl hsyn
              | ErrRange =>
                have hv := hrange rfl
                by_cases hm : c = '-'
                · exact absurd ⟨by simp [hm], by omega⟩ hneg
                · exact absurd ⟨by simp [hm], by omega⟩ hpos
          obtain ⟨hbody, hdigits, hv, _⟩ := hnone herr
          by_cases hm : c = '-'
          · subst hm
            rw [if_pos (Or.inr rfl)] at hbody hdigits hv
            have hle : ¬ v > C := fun hgt => hneg ⟨by simp, hgt⟩
            simp only [decide_True, if_true] at h
            refine ⟨⟨['-'], cs, rfl, hbody, hdigits, Or.inr ⟨rfl, ?_⟩⟩, ?_, ?_⟩
            · rw [← h, hv]
            · omega
            · omega
          · have hlt : ¬ v ≥ C := fun hge => hpos ⟨by simp [hm], hge⟩
            simp only [hm, decide_False, Bool.false_eq_true, if_false] at h
            by_cases hp : c = '+'
            · subst hp
              rw [if_pos (Or.inl rfl)] at hbody hdigits hv
              refine ⟨⟨['+'], cs, rfl, hbody, hdigits, Or.inl ⟨Or.inr rfl, ?_⟩⟩, ?_, ?_⟩
              · rw [← h, hv]
              · omega
              · omega
            · rw [if_neg (by simp [hm, hp])] at hbody hdigits hv
              refine ⟨⟨[], c :: cs, rfl, hbody, hdigits, Or.inl ⟨Or.inl rfl, ?_⟩⟩, ?_, ?_⟩
              · rw [← h, hv]
              · omega
              · omega

theorem getTypedValue_Int (rt : Runtime) (s : String) :
    (∀ n, ParseInt rt.IntSize s = (n, none) → getTypedValue rt s .Int = (.int n, none)) ∧
    (∀ n e, ParseInt rt.IntSize s = (n, some e) → getTypedValue rt s .Int = (.nil, some e)) := by
  constructor
  · intro n h
    unfold getTypedValue
    rw [h]
  · intro n e h
    unfold getTypedValue
    rw [h]

theorem digitsValueFrom_append (start : Nat) (a b : List Char) :
    digitsValueFrom start (a ++ b) = digitsValueFrom (digitsValueFrom start a) b := by
  unfold digitsValueFrom
  rw [List.foldl_append]

/-- The digits that `decimalNat` writes for the base 10 digits of a number stand for the
number. -/
theorem digits_rendering (l : List Nat) (hl : ∀ d ∈ l, d < 10) :
    (∀ c ∈ l.reverse.map (fun d => Char.ofNat (d + 48)), isDigit c = true) ∧
    digitsValue (l.reverse.map (fun d => Char.ofNat (d + 48))) = Nat.ofDigits 10 l := by
  induction l with
  | nil => exact ⟨by simp, rfl⟩
  | cons d ds ih =>
    obtain ⟨ih1, ih2⟩ := ih (fun x hx => hl x (List.mem_cons_of_mem _ hx))
    have hd : d < 10 := hl d (List.mem_cons_self _ _)
    have hchar : (Char.ofNat (d + 48)).toNat = d + 48 := toNat_ofNat_of_lt _ (by omega)
    refine ⟨?_, ?_⟩
    · intro c hc
      rw [List.reverse_cons, List.map_append, List.mem_append] at hc
      rcases hc with hc | hc
      · exact ih1 c hc
      · simp only [List.map_cons, List.map_nil, List.mem_singleton] at hc
        rw [hc, isDigit_iff, hchar]
        omega
    · unfold digitsValue at ih2 ⊢
      rw [List.reverse_cons, List.map_append, digitsValueFrom_append, ih2]
      simp only [List.map_cons, List.map_nil, digitsValueFrom_cons, hchar]
      rw [Nat.ofDigits_cons]
      simp only [digitsValueFrom, List.foldl_nil, Nat.cast_id]
      omega

/-- The rendering `decimal n` is a rendering of `n`. -/
theorem IsDecimal_decimal (n : Int) : IsDecimal (decimal n).data n := by
  have hnat : ∀ m : Nat, decimalNat m ≠ [] ∧ (∀ c ∈ decimalNat m, isDigit c = true) ∧
      digitsValue (decimalNat m) = m := by
    intro m
    unfold decimalNat
    by_cases hm : m = 0
    · subst hm
      rw [if_pos rfl]
      exact ⟨by simp, by decide, rfl⟩
    · rw [if_neg hm]
      obtain ⟨h1, h2⟩ := digits_rendering (Nat.digits 10 m)
        (fun d hd => Nat.digits_lt_base (by decide) hd)
      refine ⟨?_, h1, ?_⟩
      · simp [Nat.digits_ne_nil_iff_ne_zero, hm]
      · rw [h2, Nat.ofDigits_digits]
  obtain ⟨hne, hdigits, hvalue⟩ := hnat n.natAbs
  unfold decimal
  by_cases hneg : n < 0
  · rw [if_pos hneg]
    refine ⟨['-'], decimalNat n.natAbs, rfl, hne, hdigits, Or.inr ⟨rfl, ?_⟩⟩
    rw [hvalue]
    omega
  · rw [if_neg hneg]
    refine ⟨[], decimalNat n.natAbs, rfl, hne, hdigits, Or.inl ⟨Or.inl rfl, ?_⟩⟩
    rw [hvalue]
    omega

/-- C18. With an `int` of 32 or 64 bits: for the Int kind `getTypedValue` returns `n` and no
error when the source is a base 10 rendering of an integer `n` in the range of `int` (an
optional sign, then one or more decimal digits), in particular for the rendering
`decimal n` of every `n` in the range; for every other source it returns an error and no
value. -/
theorem getTypedValue_Int_decimal (rt : Runtime) (s : String)
    (hsize : rt.IntSize = 32 ∨ rt.IntSize = 64) :
    (∀ n, IsDecimal s.data n → InIntRange rt.IntSize n →
      getTypedValue rt s .Int = (.int n, none)) ∧
    ((¬ ∃ n, IsDecimal s.data n ∧ InIntRange rt.IntSize n) →
      ∃ err, getTypedValue rt s .Int = (.nil, some err)) ∧
    (∀ n, InIntRange rt.IntSize n → getTypedValue rt (decimal n) .Int = (.int n, none)) := by
  have hbits : 2 ≤ rt.IntSize ∧ rt.IntSize ≤ 64 := by omega
  refine ⟨?_, ?_, ?_⟩
  · intro n hdec hrange
    exact (getTypedValue_Int rt s).1 n (ParseInt_of_decimal _ hbits s n hdec hrange)
  · intro hnot
    rcases hp : ParseInt rt.IntSize s with ⟨v, err⟩
    cases err with
    | none => exact absurd ⟨v, decimal_of_ParseInt _ hbits s v hp⟩ hnot
    | some e => exact ⟨e, (getTypedValue_Int rt s).2 v e hp⟩
  · intro n hrange
    exact (getTypedValue_Int rt (decimal n)).1 n
      (ParseInt_of_decimal _ hbits (decimal n) n (IsDecimal_decimal n) hrange)

/-- Witness of C18 on the source "-12" and on a source with a letter. -/
theorem getTypedValue_Int_decimal_witness :
    getTypedValue exampleRuntime "-12" .Int = (.int (-12), none) ∧
    ∃ err, getTypedValue exampleRuntime "1x" .Int = (.nil, some err) :=
  ⟨(getTypedValue_Int_decimal exampleRuntime "-12" (Or.inr rfl)).1 (-12)
      ⟨['-'], ['1', '2'], rfl, by simp, by decide, Or.inr ⟨rfl, by decide⟩⟩
      ⟨by decide, by decide⟩,
   (getTypedValue_Int_decimal exampleRuntime "1x" (Or.inr rfl)).2.1 (by
      rintro ⟨n, ⟨sign, digits, hs, hne, hdigits, hsign⟩, _⟩
      have hx : 'x' ∈ digits := by
        have hmem : 'x' ∈ sign ++ digits := by rw [← hs]; decide
        rcases List.mem_append.1 hmem with h | h
        · rcases hsign with ⟨h1 | h1, _⟩ | ⟨h1, _⟩ <;> rw [h1] at h <;> simp at h
        · exact h
      exact absurd (hdigits 'x' hx) (by decide))⟩

/-! ### Failed conversions -/

theorem FailedLeavesFollow_cons (rt : Runtime) (iv : StructValue) (ft : StructField)
    (fv : RValue) (rest : RFields) (nodes : List Node) :
    FailedLeavesFollow rt iv (.cons ft fv rest) nodes ↔
      ∃ node others, nodes = node :: others ∧ node.Name = ft.Name ∧
        node.Key = nodeKey rt (parseTag rt ft) ft.Name ∧
        (match fv with
          | .struct fields =>
            ft.Typ.Kind = .Struct →
              FailedLeavesFollow rt
                { fields := fields
                  stickyRO := iv.stickyRO || (decide (ft.PkgPath ≠ "") && !ft.Anonymous) }
                fields node.Children
          | .iface _ => True) ∧
        (ft.Typ.Kind ≠ .Struct → ∀ V, fieldInterface iv ft.Name = .done V →
          ConversionFails rt (parseTag rt ft) ft.Typ.Kind V →
          node.Value = .nil ∧ node.Children = []) ∧
        FailedLeavesFollow rt iv rest others := by
  cases fv <;> rfl

theorem fieldWithKey_cons (rt : Runtime) (segment : String) (ft : StructField) (fv : RValue)
    (rest : RFields) :
    fieldWithKey rt segment (.cons ft fv rest) =
      if nodeKey rt (parseTag rt ft) ft.Name = segment then some (ft, fv)
      else fieldWithKey rt segment rest := by
  cases fv <;> rfl

/-- The default step when the default is needed and declared. -/
theorem setValueDefault_of_need (rt : Runtime) (n : Node) (typ : GoType) (tag : Tag)
    (W : Value) (hTyp : n.Typ = some typ) (hneed : needDefault (some typ) W = .done true)
    (hD : tag.Default ≠ "") :
    setValueDefault rt n tag W =
      match getTypedValue rt tag.Default typ.Kind with
      | (_, some err) => .done (n, some err)
      | (v, none) => .done (n.setValueField v, none) := by
  unfold setValueDefault
  rw [hTyp, hneed]
  simp only
  rw [if_pos ⟨trivial, hD⟩]
  unfold convertFor
  simp only
  rcases getTypedValue rt tag.Default typ.Kind with ⟨v, err⟩
  cases err <;> rfl

/-- The default is needed exactly for the values that call for it. -/
theorem needDefault_true_iff (typ : GoType) (W : Value) :
    needDefault (some typ) W = .done true ↔ CallsForDefault typ.Kind W := by
  obtain ⟨name, kind⟩ := typ
  unfold CallsForDefault
  cases W <;> cases kind <;>
    simp [needDefault, Value.hasKind, Value.isZero]

/-- The default step returns an error exactly when the value calls for the default, the
default is declared and its conversion fails; the node comes back as it was. -/
theorem setValueDefault_error_iff (rt : Runtime) (n n1 : Node) (typ : GoType) (tag : Tag)
    (W : Value) (err : GoError) (hTyp : n.Typ = some typ) :
    setValueDefault rt n tag W = .done (n1, some err) ↔
      (n1 = n ∧ CallsForDefault typ.Kind W ∧ tag.Default ≠ "" ∧
        (getTypedValue rt tag.Default typ.Kind).2 = some err) := by
  constructor
  · intro h
    unfold setValueDefault at h
    rw [hTyp] at h
    cases hneed : needDefault (some typ) W with
    | panicked r =>
      rw [hneed] at h
      cases h
    | done need =>
      rw [hneed] at h
      simp only at h
      by_cases hcond : need = true ∧ tag.Default ≠ ""
      · rw [if_pos hcond] at h
        unfold convertFor at h
        simp only at h
        obtain ⟨hn, hD⟩ := hcond
        subst hn
        rcases hc : getTypedValue rt tag.Default typ.Kind with ⟨v, e⟩
        rw [hc] at h
        cases e with
        | none =>
          simp only [Run.done.injEq, Prod.mk.injEq] at h
          exact absurd h.2 (by simp)
        | some e =>
          simp only [Run.done.injEq, Prod.mk.injEq, Option.some.injEq] at h
          exact ⟨h.1.symm, (needDefault_true_iff typ W).1 hneed, hD, by rw [h.2]⟩
      · rw [if_neg hcond] at h
        simp only [Run.done.injEq, Prod.mk.injEq] at h
        exact absurd h.2 (by simp)
  · rintro ⟨rfl, hcalls, hD, hconv⟩
    rw [setValueDefault_of_need rt n1 typ tag W hTyp ((needDefault_true_iff typ W).2 hcalls) hD]
    rcases hc : getTypedValue rt tag.Default typ.Kind with ⟨v, e⟩
    rw [hc] at hconv
    simp only at hconv
    subst hconv
    rfl

/-- On a node with a type and a tag, `setValue` returns an error exactly when a conversion it
makes fails; the error is the one of that conversion, and the node comes back as it was. -/
theorem setValue_error_iff (rt : Runtime) (n n1 : Node) (typ : GoType) (tag : Tag) (V : Value)
    (err : GoError) (hTyp : n.Typ = some typ) (hTag : n.Tag = some tag) :
    setValue rt n V = .done (n1, some err) ↔
      (n1 = n ∧ ConversionError rt tag typ.Kind V err) := by
  by_cases henv : tag.Env ≠ "" ∧ rt.Getenv tag.Env ≠ ""
  · rw [setValue_env rt n typ tag V hTyp hTag henv]
    rcases hc : getTypedValue rt (rt.Getenv tag.Env) typ.Kind with ⟨v, e⟩
    cases e with
    | some e =>
      simp only [Run.done.injEq, Prod.mk.injEq, Option.some.injEq]
      constructor
      · rintro ⟨h1, h2⟩
        exact ⟨h1.symm, Or.inl ⟨henv, by rw [hc, h2]⟩⟩
      · rintro ⟨h1, h2 | ⟨W, hstep, _⟩⟩
        · rw [hc] at h2
          simp only [Option.some.injEq] at h2
          exact ⟨h1.symm, h2.2⟩
        · rcases hstep with ⟨_, hW⟩ | ⟨hno, _⟩
          · rw [hc] at hW
            simp only [Prod.mk.injEq] at hW
            exact absurd hW.2 (by simp)
          · exact absurd henv hno
    | none =>
      simp only
      rw [setValueDefault_error_iff rt n n1 typ tag v err hTyp]
      constructor
      · rintro ⟨h1, hcalls, hD, hconv⟩
        exact ⟨h1, Or.inr ⟨v, Or.inl ⟨henv, hc⟩, hcalls, hD, hconv⟩⟩
      · rintro ⟨h1, h2 | ⟨W, hstep, hcalls, hD, hconv⟩⟩
        · rw [hc] at h2
          exact absurd h2.2 (by simp)
        · rcases hstep with ⟨_, hW⟩ | ⟨hno, _⟩
          · rw [hc] at hW
            simp only [Prod.mk.injEq] at hW
            rw [← hW.1] at hcalls
            exact ⟨h1, hcalls, hD, hconv⟩
          · exact absurd henv hno
  · rw [setValue_no_env rt n tag V hTag henv, setValueDefault_error_iff rt n n1 typ tag V err hTyp]
    constructor
    · rintro ⟨h1, hcalls, hD, hconv⟩
      exact ⟨h1, Or.inr ⟨V, Or.inr ⟨henv, rfl⟩, hcalls, hD, hconv⟩⟩
    · rintro ⟨h1, h2 | ⟨W, hstep, hcalls, hD, hconv⟩⟩
      · exact absurd h2.1 henv
      · rcases hstep with ⟨hyes, _⟩ | ⟨_, hW⟩
        · exact absurd hyes henv
        · rw [hW] at hcalls
          exact ⟨h1, hcalls, hD, hconv⟩

/-- When a conversion of `setValue` fails, it returns the error and the node as it was. -/
theorem setValue_of_failure (rt : Runtime) (n : Node) (typ : GoType) (tag : Tag) (V : Value)
    (hTyp : n.Typ = some typ) (hTag : n.Tag = some tag)
    (hfail : ConversionFails rt tag typ.Kind V) :
    ∃ err, setValue rt n V = .done (n, some err) := by
  obtain ⟨err, herr⟩ := hfail
  exact ⟨err, (setValue_error_iff rt n n typ tag V err hTyp hTag).2 ⟨rfl, herr⟩⟩

/-- A value that is not nil and does not call for the default is stored by the default
step, whatever the default is. -/
theorem setValueDefault_store (rt : Runtime) (n : Node) (typ : GoType) (tag : Tag) (W : Value)
    (hTyp : n.Typ = some typ) (hnil : W ≠ .nil)
    (hW : (W.hasKind typ.Kind = true ∧ W.isZero = false) ∨
      (typ.Kind ≠ .String ∧ typ.Kind ≠ .Int ∧ typ.Kind ≠ .Float64 ∧ typ.Kind ≠ .Bool)) :
    setValueDefault rt n tag W = .done (n.setValueField W, none) := by
  rcases hW with ⟨hk, hz⟩ | hother
  · exact setValueDefault_keep rt n typ tag W hTyp hk (Or.inl hz)
  · have hneed : needDefault (some typ) W = .done false := by
      obtain ⟨name, kind⟩ := typ
      obtain ⟨h1, h2, h3, h4⟩ := hother
      cases W <;> cases kind <;>
        first
        | exact absurd rfl hnil
        | exact absurd rfl h1
        | exact absurd rfl h2
        | exact absurd rfl h3
        | exact absurd rfl h4
        | rfl
    unfold setValueDefault
    rw [hTyp, hneed]
    simp

theorem buildNodeLoop_failed (rt : Runtime) :
    ∀ (fields : RFields) (iv : StructValue) (parent result : Node),
      buildNodeLoop rt iv parent fields = .done result →
      ∃ nodes, result.Children = parent.Children ++ nodes ∧
        FailedLeavesFollow rt iv fields nodes
  | .nil, iv, parent, result, h => by
    have h0 : buildNodeLoop rt iv parent .nil = .done parent := rfl
    rw [h0] at h
    cases h
    exact ⟨[], by simp, rfl⟩
  | .cons ft fv rest, iv, parent, result, h => by
    rw [buildNodeLoop_cons] at h
    split at h
    · cases h
    · rename_i node1 hbuilt
      obtain ⟨others, hchildren, hothers⟩ := buildNodeLoop_failed rt rest iv _ result h
      refine ⟨node1.setKey (nodeKey rt (parseTag rt ft) ft.Name) :: others, ?_, ?_⟩
      · rw [hchildren]
        simp
      · rw [FailedLeavesFollow_cons]
        by_cases hstruct : ft.Typ.Kind = .Struct
        · rw [if_pos hstruct] at hbuilt
          cases fv with
          | iface v => cases hbuilt
          | struct fields =>
            simp only at hbuilt
            obtain ⟨nodes1, hch1, hf1⟩ := buildNodeLoop_failed rt fields _ _ node1 hbuilt
            obtain ⟨nodes2, hnode1, _⟩ := buildNodeLoop_shape rt fields _ _ node1 hbuilt
            refine ⟨_, _, rfl, ?_, by simp, fun _ => ?_, fun h0 => absurd hstruct h0, hothers⟩
            · rw [Node.Name_setKey, hnode1]; rfl
            · simp only [Node.Children_setKey]
              rw [hch1]
              simpa [Node.Children] using hf1
        · rw [if_neg hstruct] at hbuilt
          have hleaf : node1.Name = ft.Name ∧
              ∀ V, fieldInterface iv ft.Name = .done V →
                ConversionFails rt (parseTag rt ft) ft.Typ.Kind V →
                node1.Value = .nil ∧ node1.Children = [] := by
            split at hbuilt
            · cases hbuilt
            · split at hbuilt
              · cases hbuilt
              · rename_i ivalue hiface _ node2 err hset
                simp only [Run.done.injEq] at hbuilt
                subst hbuilt
                refine ⟨?_, ?_⟩
                · rcases setValue_result rt _ _ _ _ hset with h1 | ⟨w, h1⟩
                  · rw [h1]; rfl
                  · rw [h1]; rfl
                · intro V hV hfail
                  rw [hiface] at hV
                  cases hV
                  obtain ⟨e, he⟩ := setValue_of_failure rt
                    (Node.mk ft.Name "" [] (some ft.Typ) .nil (some (parseTag rt ft)))
                    ft.Typ (parseTag rt ft) ivalue rfl rfl hfail
                  rw [he] at hset
                  simp only [Run.done.injEq, Prod.mk.injEq] at hset
                  rw [← hset.1]
                  exact ⟨rfl, rfl⟩
          refine ⟨_, _, rfl, by rw [Node.Name_setKey]; exact hleaf.1, by simp, ?_, ?_, hothers⟩
          · cases fv with
            | iface v => trivial
            | struct fields => exact fun h0 => absurd h0 hstruct
          · intro _ V hV hfail
            rw [Node.Value_setKey, Node.Children_setKey]
            exact hleaf.2 V hV hfail

/-- The first field with a key has its node as the first child with that key. -/
theorem find_of_fieldWithKey (rt : Runtime) (segment : String) :
    ∀ (fields : RFields) (iv : StructValue) (nodes : List Node) (ft : StructField)
      (fv : RValue),
      FailedLeavesFollow rt iv fields nodes →
      fieldWithKey rt segment fields = some (ft, fv) →
      ∃ node, nodes.find? (fun child => child.Key = segment) = some node ∧
        node.Name = ft.Name ∧
        (match fv with
          | .struct inner =>
            ft.Typ.Kind = .Struct →
              FailedLeavesFollow rt
                { fields := inner
                  stickyRO := iv.stickyRO || (decide (ft.PkgPath ≠ "") && !ft.Anonymous) }
                inner node.Children
          | .iface _ => True) ∧
        (ft.Typ.Kind ≠ .Struct → ∀ V, fieldInterface iv ft.Name = .done V →
          ConversionFails rt (parseTag rt ft) ft.Typ.Kind V →
          node.Value = .nil ∧ node.Children = [])
  | .nil, iv, nodes, ft, fv, _, hfind => by
    have h0 : fieldWithKey rt segment .nil = none := rfl
    rw [h0] at hfind
    cases hfind
  | .cons ft0 fv0 rest, iv, nodes, ft, fv, hfollow, hfind => by
    rw [FailedLeavesFollow_cons] at hfollow
    obtain ⟨node, others, rfl, hname, hkey, hnested, hleaf, hrest⟩ := hfollow
    rw [fieldWithKey_cons] at hfind
    by_cases hk : nodeKey rt (parseTag rt ft0) ft0.Name = segment
    · rw [if_pos hk] at hfind
      simp only [Option.some.injEq, Prod.mk.injEq] at hfind
      obtain ⟨rfl, rfl⟩ := hfind
      refine ⟨node, ?_, hname, hnested, hleaf⟩
      rw [List.find?_cons]
      simp [hkey, hk]
    · rw [if_neg hk] at hfind
      obtain ⟨node1, hfind1, hrest1⟩ :=
        find_of_fieldWithKey rt segment rest iv others ft fv hrest hfind
      refine ⟨node1, ?_, hrest1⟩
      rw [List.find?_cons]
      have hne : node.Key ≠ segment := by rw [hkey]; exact hk
      simp [hne, hfind1]

/-- The segments that lead to a leaf field for which a conversion fails lead, in the tree,
to the node of that field, and the node has no value. -/
theorem walkPath_of_leafAt (rt : Runtime) :
    ∀ (segments : List String) (iv : StructValue) (fields : RFields) (n : Node)
      (iv1 : StructValue) (ft : StructField) (V : Value),
      FailedLeavesFollow rt iv fields n.Children →
      leafAt rt segments iv fields = some (iv1, ft) →
      fieldInterface iv1 ft.Name = .done V →
      ConversionFails rt (parseTag rt ft) ft.Typ.Kind V →
      ∃ node, walkPath n segments = some node ∧ node.Name = ft.Name ∧
        node.Value = .nil ∧ node.Children = []
  | [], iv, fields, n, iv1, ft, V, _, hleaf, _, _ => by
    cases hleaf
  | segment :: rest, iv, fields, n, iv1, ft, V, hfollow, hleaf, hV, hfail => by
    simp only [leafAt] at hleaf
    split at hleaf
    · cases hleaf
    · rename_i ft0 fv0 hfield
      obtain ⟨node, hfind, hname, hnested, hvalue⟩ :=
        find_of_fieldWithKey rt segment fields iv n.Children ft0 fv0 hfollow hfield
      have hchild : GetChild n segment = some node := hfind
      simp only [walkPath, hchild]
      by_cases hstruct : ft0.Typ.Kind = .Struct
      · rw [if_pos hstruct] at hleaf
        cases fv0 with
        | iface v => cases hleaf
        | struct inner =>
          simp only at hleaf hnested
          exact walkPath_of_leafAt rt rest _ inner node iv1 ft V (hnested hstruct) hleaf hV hfail
      · rw [if_neg hstruct] at hleaf
        by_cases hrest : rest = []
        · rw [if_pos hrest] at hleaf
          simp only [Option.some.injEq, Prod.mk.injEq] at hleaf
          obtain ⟨rfl, rfl⟩ := hleaf
          subst hrest
          exact ⟨node, rfl, hname, hvalue hstruct V hV hfail⟩
        · rw [if_neg hrest] at hleaf
          cases hleaf

/-- C21. When a conversion that `setValue` makes fails, that of the environment value (the
tag names a variable whose value is not empty) or that of the declared default (the default
is not empty and the value of the environment/document step calls for it), `setValue`
returns the error of the conversion and leaves the node as it was, whatever the document
value is; these are the only errors `setValue` returns. A value of the environment/document
step that is not nil and does not call for the default is stored with a nil error: the
default is not converted then. `buildNode` returns on every struct that gives no occasion to
panic, and whenever it returns, the node of every leaf for which a conversion fails is among
the children of its parent, with the name and the key of its field, the value nil and no
children; the key that leads to such a leaf resolves to its node, and `Get` returns nil for
it. -/
theorem setValue_failure_leaves_nil (rt : Runtime) :
    (∀ (n n1 : Node) (typ : GoType) (tag : Tag) (V : Value) (err : GoError),
      n.Typ = some typ → n.Tag = some tag →
      (setValue rt n V = .done (n1, some err) ↔
        (n1 = n ∧ ConversionError rt tag typ.Kind V err))) ∧
    (∀ (n : Node) (typ : GoType) (tag : Tag) (V W : Value),
      n.Typ = some typ → n.Tag = some tag → StepValue rt tag typ.Kind V W → W ≠ .nil →
      ((W.hasKind typ.Kind = true ∧ W.isZero = false) ∨
        (typ.Kind ≠ .String ∧ typ.Kind ≠ .Int ∧ typ.Kind ≠ .Float64 ∧ typ.Kind ≠ .Bool)) →
      setValue rt n V = .done (n.setValueField W, none)) ∧
    (∀ (iv : StructValue) (parent : Node), PanicFree iv iv.fields →
      ∃ result, buildNode rt parent iv = .done result) ∧
    (∀ (iv : StructValue) (parent result : Node), buildNode rt parent iv = .done result →
      ∃ nodes, result.Children = parent.Children ++ nodes ∧
        FailedLeavesFollow rt iv iv.fields nodes) ∧
    (∀ (iv iv1 : StructValue) (parent result : Node) (key : String) (ft : StructField)
      (V : Value),
      parent.Children = [] → buildNode rt parent iv = .done result →
      leafAt rt (Split key '.') iv iv.fields = some (iv1, ft) →
      fieldInterface iv1 ft.Name = .done V →
      ConversionFails rt (parseTag rt ft) ft.Typ.Kind V →
      (∃ node, FindNode result key = some node ∧ node.Name = ft.Name ∧
        node.Value = .nil ∧ node.Children = []) ∧
      Get { Node := some result } key = .done .nil) := by
  refine ⟨?_, ?_, ?_, ?_, ?_⟩
  · intro n n1 typ tag V err hTyp hTag
    exact setValue_error_iff rt n n1 typ tag V err hTyp hTag
  · intro n typ tag V W hTyp hTag hstep hnil hW
    rw [setValue_from_step rt n typ tag V W hTyp hTag hstep]
    exact setValueDefault_store rt n typ tag W hTyp hnil hW
  · intro iv parent hfree
    exact buildNode_total rt parent iv hfree
  · intro iv parent result hbuild
    exact buildNodeLoop_failed rt iv.fields iv parent result hbuild
  · intro iv iv1 parent result key ft V hparent hbuild hleaf hV hfail
    obtain ⟨nodes, hchildren, hfollow⟩ := buildNodeLoop_failed rt iv.fields iv parent result hbuild
    rw [hparent, List.nil_append] at hchildren
    rw [← hchildren] at hfollow
    obtain ⟨node, hwalk, hname, hvalue, hnone⟩ :=
      walkPath_of_leafAt rt (Split key '.') iv iv.fields result iv1 ft V hfollow hleaf hV hfail
    have hfind : FindNode result key = some node := by
      rw [FindNode_eq_walkPath]
      exact hwalk
    refine ⟨⟨node, hfind, hname, hvalue, hnone⟩, ?_⟩
    rw [Get_of_root _ result key rfl, hfind]
    exact congrArg Run.done hvalue

/-- Witness of C21 with the variables CFG_NESTED_OVERWRITE set to "look" and PORT set to "0":
for `Limit int` tagged `env:"CFG_NESTED_OVERWRITE"` the environment value does not convert,
for `Port int` tagged `env:"PORT" default:"abc"` the environment value converts to zero and
the default does not convert; `setValue` returns the error of `ParseInt` on the node of
`Limit` and leaves it as it was, and `Get` returns nil for "limit" and for "server.port",
where the document gave 7 and 3. -/
theorem setValue_failure_leaves_nil_witness :
    ConversionError exampleRuntime (parseTag exampleRuntime limitField) .Int (.int 7)
      (.numError "ParseInt" "look" .ErrSyntax) ∧
    ConversionError exampleRuntime (parseTag exampleRuntime brokenPortField) .Int (.int 3)
      (.numError "ParseInt" "abc" .ErrSyntax) ∧
    setValue exampleRuntime
        (.mk "Limit" "" [] (some ⟨"int", .Int⟩) .nil (some (parseTag exampleRuntime limitField)))
        (.int 7) =
      .done (.mk "Limit" "" [] (some ⟨"int", .Int⟩) .nil
        (some (parseTag exampleRuntime limitField)),
        some (.numError "ParseInt" "look" .ErrSyntax)) ∧
    Get { Node := some discardBuilt } "limit" = .done .nil ∧
    Get { Node := some discardBuilt } "server.port" = .done .nil :=
  have hlimit : ConversionError exampleRuntime (parseTag exampleRuntime limitField) .Int
      (.int 7) (.numError "ParseInt" "look" .ErrSyntax) := Or.inl ⟨by decide, rfl⟩
  have hport : ConversionError exampleRuntime (parseTag exampleRuntime brokenPortField) .Int
      (.int 3) (.numError "ParseInt" "abc" .ErrSyntax) :=
    Or.inr ⟨.int 0, Or.inl ⟨by decide, rfl⟩, Or.inr ⟨rfl, rfl⟩, by decide, rfl⟩
  ⟨hlimit, hport,
   ((setValue_failure_leaves_nil exampleRuntime).1
      (.mk "Limit" "" [] (some ⟨"int", .Int⟩) .nil (some (parseTag exampleRuntime limitField)))
      (.mk "Limit" "" [] (some ⟨"int", .Int⟩) .nil (some (parseTag exampleRuntime limitField)))
      ⟨"int", .Int⟩ (parseTag exampleRuntime limitField) (.int 7)
      (.numError "ParseInt" "look" .ErrSyntax) rfl rfl).2 ⟨rfl, hlimit⟩,
   ((setValue_failure_leaves_nil exampleRuntime).2.2.2.2
      { fields := discardFields, stickyRO := false }
      { fields := discardFields, stickyRO := false }
      exampleRootNode discardBuilt "limit" limitField (.int 7) rfl rfl rfl rfl
      ⟨_, hlimit⟩).2,
   ((setValue_failure_leaves_nil exampleRuntime).2.2.2.2
      { fields := discardFields, stickyRO := false }
      { fields := .cons brokenPortField (.iface (.int 3)) .nil, stickyRO := false }
      exampleRootNode discardBuilt "server.port" brokenPortField (.int 3) rfl rfl rfl rfl
      ⟨_, hport⟩).2⟩

/-- Leaves on which `setValue` makes no conversion of the default: for a field `DefI int`
tagged `default:"abc"` with the document value 5, `setValue` stores 5 and returns no error,
and `Get("defi")` after `Load` returns 5; for a field `Tiny int8` with the same tag and the
value zero, the kind is none of the four that are compared with a zero value, and the value
is stored as well. -/
theorem setValue_stores_value_beside_unused_default :
    setValue exampleRuntime
        (.mk "DefI" "" [] (some ⟨"int", .Int⟩) .nil (some (parseTag exampleRuntime badDefaultField)))
        (.int 5) =
      .done (.mk "DefI" "" [] (some ⟨"int", .Int⟩) (.int 5)
        (some (parseTag exampleRuntime badDefaultField)), none) ∧
    loadThenGet exampleRuntime (.structPointer "*struct { DefI int }" keptValueFields)
      "defi: 5" "defi" = some (.done (.int 5)) ∧
    setValue exampleRuntime
        (.mk "Tiny" "" [] (some ⟨"int8", .Int8⟩) .nil (some badDefaultTag))
        (.other "int8" "0") =
      .done (.mk "Tiny" "" [] (some ⟨"int8", .Int8⟩) (.other "int8" "0")
        (some badDefaultTag), none) :=
  ⟨rfl, by decide, rfl⟩

/-! ### Keys of every field -/

/-- On a struct that gives no occasion to panic, `buildNode` returns, and the keys of the
nodes are the ones the key law gives, at every depth. -/
theorem buildNode_keys_total (rt : Runtime) (parent : Node) (iv : StructValue)
    (hfree : PanicFree iv iv.fields) :
    ∃ result nodes, buildNode rt parent iv = .done result ∧
      result.Children = parent.Children ++ nodes ∧
      KeysFollow (fun ft =>
        if (parseTag rt ft).Key ≠ "" then (parseTag rt ft).Key
        else String.mk ((ft.Name.data.map dashToUnderscore).map (lowerRune rt)))
        iv.fields nodes ∧
      ((∀ c : Char, 127 < c.toNat → rt.lowerCase c ≠ '-') →
        KeysFollow (statedKey rt) iv.fields nodes) := by
  obtain ⟨result, hbuild⟩ := buildNode_total rt parent iv hfree
  obtain ⟨nodes, h1, h2, h3⟩ := buildNode_keys rt parent result iv hbuild
  exact ⟨result, nodes, hbuild, h1, h2, h3⟩

/-- C2 at a failing input. For the struct `struct { Host string; secret string }` the key
law gives the field `secret` the key "secret", but `buildNode` gives its node no key: the
call of `Interface()` on the field that is not exported panics, so `buildNode` returns no
tree, and `Load` returns no configuration for the document `host: a`. -/
theorem buildNode_gives_unexported_field_no_key :
    statedKey exampleRuntime
      { Name := "secret", Tag := "", Typ := ⟨"string", .String⟩, PkgPath := "main",
        Anonymous := false } = "secret" ∧
    (∀ result, buildNode exampleRuntime exampleRootNode
      { fields := unexportedFields, stickyRO := false } ≠ .done result) ∧
    loadRoot exampleRuntime
      (.structPointer "*struct { Host string; secret string }" unexportedFields) "host: a" =
      none := by
  refine ⟨by decide, fun result h => ?_, rfl⟩
  have hpanic : buildNode exampleRuntime exampleRootNode
      { fields := unexportedFields, stickyRO := false } =
      .panicked
        "reflect.Value.Interface: cannot return value obtained from unexported field or method" :=
    rfl
  rw [hpanic] at h
  cases h

end Goconf
